import Mathlib

/-!
The shell nyush: tokenizer, pipeline parser, program lookup, builtin
dispatcher, execution engine and job table.

A shallow embedding of `nyush.c`.  C strings are Lean strings, except in the
program lookup, where the size of a buffer matters and a string is the list
of its bytes; the `next` chain of `Cmd` nodes is a list of stages in chain
order, `argc` is the length of `argv`, and a `NULL` file name is `none`.  The shell process is a state
record threaded through every operation; the results of the system calls it
makes are supplied by an oracle record, and every call it makes is appended
to a trace.  Only the shell process is followed: the code a child runs
between `fork` and `execv` is not part of the state transition.

The global `joblist[MAX_JOBS]` is kept as an array (a list of `MAX_JOBS`
entries) next to `njobs`; the job table proper is its first `njobs` entries.
Values of type `int` that come from a conversion are reduced to 32 bits, and
`atoi` is the C library's `(int) strtol(s, NULL, 10)` with a 64-bit `long`.
-/

namespace Nyush

/-! ## Constants -/

def MAX_TOK : Nat := 2048
def MAX_ARGS : Nat := 256
def MAX_JOBS : Nat := 100

def ERR_INVALID_CMD : String := "Error: invalid command\n"
def ERR_INVALID_PROG : String := "Error: invalid program\n"
def ERR_INVALID_FILE : String := "Error: invalid file\n"
def ERR_INVALID_DIR : String := "Error: invalid directory\n"
def ERR_INVALID_JOB : String := "Error: invalid job\n"
def ERR_SUSP_JOBS : String := "Error: there are suspended jobs\n"

/-! ## Data model -/

/-- One pipeline stage (`struct Cmd` without its `next` link: a chain is the
list of its nodes).  The field `argc` of the source is `argv.length`. -/
structure Cmd where
  argv : List String
  infile : Option String
  outfile : Option String
  append : Nat
deriving DecidableEq, Repr

def Cmd.argc (c : Cmd) : Nat := c.argv.length

/-- The node returned by `cmd_new`: no argument, no redirection. -/
def cmd_new : Cmd :=
  { argv := [], infile := none, outfile := none, append := 0 }

/-- The three possible results of `parse_pipeline`: `NULL` for an empty
token array, `(Cmd*)-1` for a parse failure, or the head of a chain. -/
inductive ParseResult where
  | empty
  | invalid
  | ok (head : List Cmd)
deriving DecidableEq, Repr

/-! ## Pipeline parser -/

/-- The test applied to the token after a redirection operator:
`!strcmp(fn,"|")||!strcmp(fn,"<")||!strcmp(fn,">")||!strcmp(fn,">>")`. -/
def is_special (fn : String) : Bool :=
  fn == "|" || fn == "<" || fn == ">" || fn == ">>"

/-- The inner scan `for (j=i+1; j<n; j++) if (!strcmp(v[j],"|")) ...` over
the tokens that remain after the file name. -/
def later_pipe (rest : List String) : Bool :=
  rest.any (fun t => t == "|")

/-- The token loop of `parse_pipeline`.  `done` holds the stages before the
current one in chain order (so `cur == head` exactly when `done` is empty),
`cur` is the stage being filled.  Every failure site writes
`ERR_INVALID_CMD` and jumps to `fail`; the written text is the error value. -/
def parse_loop : List String → List Cmd → Cmd → Except String (List Cmd)
  | [], done, cur => .ok (done ++ [cur])
  | tk :: rest, done, cur =>
    if tk = "|" then
      if cur.argc = 0 ∨ cur.outfile.isSome then .error ERR_INVALID_CMD
      else parse_loop rest (done ++ [cur]) cmd_new
    else if tk = "<" then
      match rest with
      | [] => .error ERR_INVALID_CMD
      | fn :: rest' =>
        if done ≠ [] ∨ cur.infile.isSome then .error ERR_INVALID_CMD
        else if is_special fn then .error ERR_INVALID_CMD
        else parse_loop rest' done { cur with infile := some fn }
    else if tk = ">" ∨ tk = ">>" then
      match rest with
      | [] => .error ERR_INVALID_CMD
      | fn :: rest' =>
        if cur.outfile.isSome then .error ERR_INVALID_CMD
        else if is_special fn then .error ERR_INVALID_CMD
        else if later_pipe rest' then .error ERR_INVALID_CMD
        else parse_loop rest' done
          { cur with outfile := some fn, append := if tk = ">>" then 1 else 0 }
    else if cur.argc ≥ MAX_ARGS - 1 then .error ERR_INVALID_CMD
    else parse_loop rest done { cur with argv := cur.argv ++ [tk] }

/-- The closing check `for (c=head; c; c=c->next) if (c->argc==0) fail`. -/
def check_stages (chain : List Cmd) : Except String (List Cmd) :=
  if chain.any (fun c => c.argc == 0) then .error ERR_INVALID_CMD else .ok chain

/-- The function `parse_pipeline`: the result together with the text written
to the error stream. -/
def parse_pipeline (toks : List String) : ParseResult × List String :=
  if toks.length = 0 then (.empty, [])
  else
    match parse_loop toks [] cmd_new >>= check_stages with
    | .ok head => (.ok head, [])
    | .error msg => (.invalid, [msg])

/-! ## Job table -/

/-- One entry of `joblist` (`struct Job`). -/
structure Job where
  pid : Int
  cmdline : String
deriving DecidableEq, Repr, Inhabited

/-- The status word filled in by `waitpid`, by the kind the `WIF*` tests
distinguish. -/
inductive WStatus where
  | exited (code : Nat)
  | signaled (sig : Nat)
  | stopped (sig : Nat)
  | other
deriving DecidableEq, Repr

def WIFSTOPPED : WStatus → Bool
  | .stopped _ => true
  | _ => false

def WIFEXITED : WStatus → Bool
  | .exited _ => true
  | _ => false

def WIFSIGNALED : WStatus → Bool
  | .signaled _ => true
  | _ => false

/-- What one `waitpid` call returns: `-1` with `errno == EINTR`, `-1` with
another `errno`, or a process id together with its status word. -/
inductive WaitRet where
  | eintr
  | failed
  | ok (w : Int) (status : WStatus)
deriving DecidableEq, Repr

/-- The system calls of the shell process that are recorded in its trace. -/
inductive SysCall where
  | access (path : String) (ok : Bool)
  | pipe (ret : Option (Nat × Nat))
  | fork (ret : Option Int)
  | close (fd : Nat)
  | waitpid (pid : Int) (ret : WaitRet)
  | kill (pid : Int) (sig : Nat)
  | chdir (path : String) (ok : Bool)
deriving DecidableEq, Repr

/-- The state of the shell process: the globals `joblist` and `njobs`, the
text written to the two output streams, the descriptors it holds open, the
system calls it has made, and its exit status once `exit` has been called. -/
structure Shell where
  joblist : List Job
  njobs : Nat
  out : List String
  err : List String
  fds : List Nat
  trace : List SysCall
  exited : Option Nat
deriving DecidableEq, Repr

/-- The results of the system calls made while one command line is handled,
as seen by the shell process (for `fork`: `none` is a negative return value,
`some pid` the child's process id returned in the parent). -/
structure Sys where
  access_ok : String → Bool
  chdir_ok : String → Bool
  pipe_ret : Nat → Option (Nat × Nat)
  fork_ret : Nat → Option Int
  waits : List WaitRet
  strerror : String

/-- The state at program start: a zeroed `joblist[MAX_JOBS]`, `njobs = 0`,
the three standard descriptors open. -/
def Shell.init : Shell :=
  { joblist := List.replicate MAX_JOBS default, njobs := 0, out := [], err := [],
    fds := [0, 1, 2], trace := [], exited := none }

/-- The live part of the job table: entries `0 .. njobs-1` of `joblist`. -/
def Shell.jobs (st : Shell) : List Job := st.joblist.take st.njobs

/-- A loop `for (i = a; i < a + count; ++i) body` without `break`. -/
def for_loop {σ : Type} (body : Nat → σ → σ) : Nat → Nat → σ → σ
  | 0, _, s => s
  | count + 1, i, s => for_loop body count (i + 1) (body i s)

def jobs_count (st : Shell) : Nat := st.njobs

/-- The function `jobs_print`: one `printf("[%d] %s\n", ...)` per job. -/
def jobs_print (st : Shell) : Shell :=
  for_loop (fun i s =>
      { s with out := s.out ++
          ["[" ++ toString (i + 1) ++ "] " ++ (s.joblist.getD i default).cmdline ++ "\n"] })
    st.njobs 0 st

/-- The function `jobs_push`. -/
def jobs_push (pid : Int) (cmdline : String) (st : Shell) : Shell :=
  if st.njobs ≥ MAX_JOBS then st
  else { st with joblist := st.joblist.set st.njobs { pid := pid, cmdline := cmdline },
                 njobs := st.njobs + 1 }

/-- A value of type `int` after a conversion or an arithmetic operation:
two's complement on 32 bits. -/
def toInt32 (x : Int) : Int := (x + 2147483648) % 4294967296 - 2147483648

/-- The function `jobs_index_from_print_index`. -/
def jobs_index_from_print_index (idx1 : Int) (st : Shell) : Int :=
  let pos := toInt32 (idx1 - 1)
  if pos < 0 ∨ pos ≥ st.njobs then -1 else pos

/-- The loop `for (i = pos+1; i < njobs; ++i) joblist[i-1] = joblist[i]`
shared by `jobs_remove_at` and `jobs_move_to_end`. -/
def shift_down (pos njobs : Nat) (jl : List Job) : List Job :=
  for_loop (fun i l => l.set (i - 1) (l.getD i default)) (njobs - (pos + 1)) (pos + 1) jl

/-- The function `jobs_remove_at` (the `free` of the text is not modelled). -/
def jobs_remove_at (pos : Int) (st : Shell) : Shell :=
  if pos < 0 ∨ pos ≥ st.njobs then st
  else { st with joblist := shift_down pos.toNat st.njobs st.joblist,
                 njobs := st.njobs - 1 }

/-- The function `jobs_move_to_end`. -/
def jobs_move_to_end (pos : Int) (st : Shell) : Shell :=
  if pos < 0 ∨ pos ≥ st.njobs then st
  else
    let tmp := st.joblist.getD pos.toNat default
    { st with joblist := (shift_down pos.toNat st.njobs st.joblist).set (st.njobs - 1) tmp }

/-! ## Small helpers -/

/-- The function `is_number`, on a non-`NULL` string. -/
def is_number (s : String) : Bool :=
  match s.toList with
  | [] => false
  | cs => cs.all (fun c => !(c < '0' || c > '9'))

def LONG_MAX : Int := 9223372036854775807
def LONG_MIN : Int := -9223372036854775808

/-- The characters `isspace` accepts in the C locale. -/
def is_space (c : Char) : Bool :=
  c == ' ' || c == '\t' || c == '\n' || c == '\x0b' || c == '\x0c' || c == '\r'

/-- The number denoted by the leading decimal digits of `cs`. -/
def digits_value (cs : List Char) : Nat :=
  (cs.takeWhile Char.isDigit).foldl (fun acc c => 10 * acc + (c.toNat - '0'.toNat)) 0

/-- The C library's `strtol(s, NULL, 10)` where `long` has 64 bits: leading
white space, an optional sign, decimal digits, the value clamped to the range
of `long`. -/
def strtol (s : String) : Int :=
  match s.toList.dropWhile is_space with
  | '-' :: ds => max (-(digits_value ds : Int)) LONG_MIN
  | '+' :: ds => min (digits_value ds : Int) LONG_MAX
  | ds => min (digits_value ds : Int) LONG_MAX

/-- The C library's `atoi`, which is `(int) strtol(s, NULL, 10)`: the value
read as a `long` is converted to the 32-bit `int`. -/
def atoi (s : String) : Int := toInt32 (strtol s)

/-! ## Running a pipeline -/

/-- The text `perror(s)` writes. -/
def perror (s : String) (sys : Sys) : String := s ++ ": " ++ sys.strerror ++ "\n"

/-- The loop `for (i=0; i<n-1; i++) if (pipe(pipes[i])<0) { perror; return 0; }`
with `count` iterations left; `none` is the early return. -/
def pipe_loop (sys : Sys) : Nat → Nat → List (Nat × Nat) → Shell →
    Option (List (Nat × Nat)) × Shell
  | 0, _, pipes, st => (some pipes, st)
  | count + 1, i, pipes, st =>
    match sys.pipe_ret i with
    | none =>
      (none, { st with trace := st.trace ++ [.pipe none],
                       err := st.err ++ [perror "pipe" sys] })
    | some (r, w) =>
      pipe_loop sys count (i + 1) (pipes ++ [(r, w)])
        { st with trace := st.trace ++ [.pipe (some (r, w))], fds := st.fds ++ [r, w] }

/-- The spawning loop `for (c=head; c; c=c->next, idx++)` as the parent runs
it: a failed `fork` returns early (`none`), otherwise `pids[idx] = pid`.
The branch `pid == 0` is the code of the child process. -/
def fork_loop (sys : Sys) : List Cmd → Nat → List Int → Shell → Option (List Int) × Shell
  | [], _, pids, st => (some pids, st)
  | _ :: cs, idx, pids, st =>
    match sys.fork_ret idx with
    | none =>
      (none, { st with trace := st.trace ++ [.fork none],
                       err := st.err ++ [perror "fork" sys] })
    | some pid =>
      fork_loop sys cs (idx + 1) (pids ++ [pid])
        { st with trace := st.trace ++ [.fork (some pid)] }

/-- The call `close(fd)` in the parent. -/
def close_fd (fd : Nat) (st : Shell) : Shell :=
  { st with fds := st.fds.erase fd, trace := st.trace ++ [.close fd] }

/-- The loop `for (k=0; k<n-1; k++) { close(pipes[k][0]); close(pipes[k][1]); }`. -/
def close_pipes (pipes : List (Nat × Nat)) (st : Shell) : Shell :=
  pipes.foldl (fun s p => close_fd p.2 (close_fd p.1 s)) st

/-- The loop `while (done<n)` around `waitpid(-1, &status, WUNTRACED)`.  The
list holds the results of the successive calls; a call made after the list is
used up fails (no child is left to report).  Returns `stopped_pid`. -/
def wait_loop (n : Nat) : List WaitRet → Int → Nat → Shell → Int × Shell
  | [], stopped_pid, done, st =>
    if done < n then
      (stopped_pid, { st with trace := st.trace ++ [.waitpid (-1) .failed] })
    else (stopped_pid, st)
  | r :: rs, stopped_pid, done, st =>
    if done < n then
      let st1 := { st with trace := st.trace ++ [.waitpid (-1) r] }
      match r with
      | .eintr => wait_loop n rs stopped_pid done st1
      | .failed => (stopped_pid, st1)
      | .ok w status =>
        if WIFSTOPPED status then wait_loop n rs w (done + 1) st1
        else if WIFEXITED status || WIFSIGNALED status then
          wait_loop n rs stopped_pid (done + 1) st1
        else wait_loop n rs stopped_pid done st1
    else (stopped_pid, st)

/-- The call `access(head->infile, R_OK)` of `run_pipeline`, made only when
the first stage has an input file. -/
def after_access (c0 : Cmd) (sys : Sys) (st : Shell) : Shell :=
  match c0.infile with
  | none => st
  | some f => { st with trace := st.trace ++ [.access f (sys.access_ok f)] }

/-- The function `run_pipeline` as executed by the shell process: the return
value and the new state.  `head` is never `NULL` at the call site. -/
def run_pipeline (head : List Cmd) (raw_cmdline : String) (sys : Sys) (st : Shell) :
    Int × Shell :=
  match head with
  | [] => (0, st)
  | c0 :: _ =>
    let st0 := after_access c0 sys st
    if c0.infile.isSome ∧ ¬ sys.access_ok (c0.infile.getD "") then
      (0, { st0 with err := st0.err ++ [ERR_INVALID_FILE] })
    else
      let n := head.length
      match pipe_loop sys (n - 1) 0 [] st0 with
      | (none, st1) => (0, st1)
      | (some pipes, st1) =>
        match fork_loop sys head 0 [] st1 with
        | (none, st2) => (0, st2)
        | (some _, st2) =>
          let st3 := close_pipes pipes st2
          let (stopped_pid, st4) := wait_loop n sys.waits 0 0 st3
          if n = 1 ∧ stopped_pid > 0 then (1, jobs_push stopped_pid raw_cmdline st4)
          else (0, st4)

/-! ## Builtins -/

def SIGCONT : Nat := 18

/-- The function `builtin_cd` (its return value is always 0). -/
def builtin_cd (c : Cmd) (sys : Sys) (st : Shell) : Shell :=
  match c.argv with
  | [_, dir] =>
    let st1 := { st with trace := st.trace ++ [.chdir dir (sys.chdir_ok dir)] }
    if sys.chdir_ok dir then st1 else { st1 with err := st1.err ++ [ERR_INVALID_DIR] }
  | _ => { st with err := st.err ++ [ERR_INVALID_CMD] }

/-- The function `builtin_exit`: `exit(0)` ends the process with status 0. -/
def builtin_exit (c : Cmd) (st : Shell) : Shell :=
  if c.argc ≠ 1 then { st with err := st.err ++ [ERR_INVALID_CMD] }
  else if jobs_count st > 0 then { st with err := st.err ++ [ERR_SUSP_JOBS] }
  else { st with exited := some 0 }

/-- The function `builtin_jobs`. -/
def builtin_jobs (c : Cmd) (st : Shell) : Shell :=
  if c.argc ≠ 1 then { st with err := st.err ++ [ERR_INVALID_CMD] }
  else jobs_print st

/-- The function `builtin_fg`.  The first test is
`c->argc!=2 || !is_number(c->argv[1])`; the single `waitpid(pid, ...)` call
takes the first result of the oracle. -/
def builtin_fg (c : Cmd) (sys : Sys) (st : Shell) : Shell :=
  match c.argv with
  | [_, a1] =>
    if !is_number a1 then { st with err := st.err ++ [ERR_INVALID_CMD] }
    else
      let pos := jobs_index_from_print_index (atoi a1) st
      if pos < 0 then { st with err := st.err ++ [ERR_INVALID_JOB] }
      else
        let pid := (st.joblist.getD pos.toNat default).pid
        let r := sys.waits.headD .failed
        let st1 := { st with trace := st.trace ++ [.kill pid SIGCONT, .waitpid pid r] }
        match r with
        | .ok _ status =>
          if WIFSTOPPED status then jobs_move_to_end pos st1 else jobs_remove_at pos st1
        | _ => st1
  | _ => { st with err := st.err ++ [ERR_INVALID_CMD] }

/-- The function `is_builtin_name`. -/
def is_builtin_name (s : String) : Bool :=
  s == "cd" || s == "exit" || s == "jobs" || s == "fg"

/-! ## Main loop -/

/-- Which branch the dispatcher of `main` takes for a parsed pipeline. -/
inductive Dispatch where
  | builtin
  | invalid_cmd
  | run
deriving DecidableEq, Repr

/-- The `if / else if` of `main` that follows a successful parse.  `argv[0]`
of the head is read; the cases of a `NULL` head or a `NULL` `argv[0]` do not
arise after a successful parse and are mapped to `run`. -/
def dispatch (head : List Cmd) : Dispatch :=
  match head with
  | [] => .run
  | c :: next =>
    match c.argv with
    | [] => .run
    | a0 :: _ =>
      if next = [] ∧ is_builtin_name a0 ∧ c.infile = none ∧ c.outfile = none then .builtin
      else if is_builtin_name a0 ∧ (next ≠ [] ∨ c.infile ≠ none ∨ c.outfile ≠ none) then
        .invalid_cmd
      else .run

/-- The chain of `strcmp` tests that selects the builtin to call. -/
def run_builtin (c : Cmd) (sys : Sys) (st : Shell) : Shell :=
  match c.argv with
  | [] => st
  | a0 :: _ =>
    if a0 = "cd" then builtin_cd c sys st
    else if a0 = "exit" then builtin_exit c st
    else if a0 = "jobs" then builtin_jobs c st
    else if a0 = "fg" then builtin_fg c sys st
    else st

/-- One iteration of the loop of `main` from `parse_pipeline` on: `toks` is
the token array and `raw` the saved copy of the line. -/
def main_body (toks : List String) (raw : String) (sys : Sys) (st : Shell) : Shell :=
  match parse_pipeline toks with
  | (.invalid, msgs) => { st with err := st.err ++ msgs }
  | (.empty, msgs) => { st with err := st.err ++ msgs }
  | (.ok head, msgs) =>
    let st1 := { st with err := st.err ++ msgs }
    match dispatch head with
    | .builtin => run_builtin (head.headD cmd_new) sys st1
    | .invalid_cmd => { st1 with err := st1.err ++ [ERR_INVALID_CMD] }
    | .run => (run_pipeline head raw sys st1).2

/-! ## Tokenizer, blank lines, program lookup -/

/-- The test of the loop of `is_blank`: `*s==' ' || *s=='\t' || *s=='\n'`. -/
def is_blank_char (c : Char) : Bool := c == ' ' || c == '\t' || c == '\n'

/-- The function `is_blank` on the characters from `s` on: skip while the
character is a space, a tab or a newline, then test for the end. -/
def is_blank_from : List Char → Bool
  | [] => true
  | c :: cs => if is_blank_char c then is_blank_from cs else false

/-- The function `is_blank`. -/
def is_blank (s : String) : Bool := is_blank_from s.toList

/-- Membership in the delimiter string `" \t\n"` handed to `strtok_r`. -/
def is_delim (c : Char) : Bool := " \t\n".toList.contains c

/-- One call of `strtok_r` on the characters not yet scanned: the leading
delimiters are skipped; `none` (a `NULL` return) when nothing is left, else
the token, which runs up to the next delimiter, and the characters that
follow that delimiter, where the next call resumes. -/
def strtok_r (s : List Char) : Option (List Char × List Char) :=
  match s.dropWhile is_delim with
  | [] => none
  | c :: cs =>
    some ((c :: cs).takeWhile (fun x => !is_delim x),
          ((c :: cs).dropWhile (fun x => !is_delim x)).tail)

/-- The loop of `tokenize` with `slots` entries of `toks->v` still free: each
token found is stored, and the loop is left when `strtok_r` returns `NULL` or
when `toks->n >= MAX_TOK`. -/
def tokenize_loop : Nat → List Char → List String → List String
  | 0, _, v => v
  | slots + 1, s, v =>
    match strtok_r s with
    | none => v
    | some (tok, rest) => tokenize_loop slots rest (v ++ [String.mk tok])

/-- The function `tokenize`: the entries `v[0 .. n-1]` it leaves in `toks`. -/
def tokenize (line : String) : List String := tokenize_loop MAX_TOK line.toList []

/-- The bytes of the C string that a text stands for: its UTF-8 encoding.
In the program lookup a C string is the list of its bytes before the
terminating zero, because `snprintf` counts bytes. -/
def c_bytes (s : String) : List UInt8 := s.toUTF8.data.toList

/-- The byte of the character `/`. -/
def SLASH : UInt8 := 47

/-- The function `is_absolute`, on the bytes of a non-`NULL` string. -/
def is_absolute (s : List UInt8) : Bool := s.head? == some SLASH

/-- The function `contains_slash`, on the bytes of a non-`NULL` string. -/
def contains_slash (s : List UInt8) : Bool := s.contains SLASH

/-- The call `snprintf(buf, bufsz, "%s...", text)`: at most `bufsz - 1` bytes
of the text are stored (followed by the terminator), and nothing is stored
when `bufsz` is 0. -/
def snprintf (buf : List UInt8) (bufsz : Nat) (text : List UInt8) : List UInt8 :=
  if bufsz = 0 then buf else text.take (bufsz - 1)

/-- The function `locate_program`: the bytes in `buf` on return and the
return value.  `access_x path` tells whether `access(path, X_OK) == 0`. -/
def locate_program (name : List UInt8) (buf : List UInt8) (bufsz : Nat)
    (access_x : List UInt8 → Bool) : List UInt8 × Int :=
  if is_absolute name || contains_slash name then
    let buf1 := snprintf buf bufsz name
    (buf1, if access_x buf1 then 0 else -1)
  else
    let buf1 := snprintf buf bufsz (c_bytes "/usr/bin/" ++ name)
    (buf1, if access_x buf1 then 0 else -1)

/-- The size of the buffer `char prog[4096]` that `run_pipeline` hands to
`locate_program`. -/
def PROG_SIZE : Nat := 4096

/-- The token loop of `parse_pipeline` once more, this time returning the
indices of `cur->argv` that the loop writes: `argc` for the token and
`argc + 1` for the `NULL` that follows it. -/
def parse_loop_writes : List String → List Cmd → Cmd → List Nat
  | [], _, _ => []
  | tk :: rest, done, cur =>
    if tk = "|" then
      if cur.argc = 0 ∨ cur.outfile.isSome then []
      else parse_loop_writes rest (done ++ [cur]) cmd_new
    else if tk = "<" then
      match rest with
      | [] => []
      | fn :: rest' =>
        if done ≠ [] ∨ cur.infile.isSome then []
        else if is_special fn then []
        else parse_loop_writes rest' done { cur with infile := some fn }
    else if tk = ">" ∨ tk = ">>" then
      match rest with
      | [] => []
      | fn :: rest' =>
        if cur.outfile.isSome then []
        else if is_special fn then []
        else if later_pipe rest' then []
        else parse_loop_writes rest' done
          { cur with outfile := some fn, append := if tk = ">>" then 1 else 0 }
    else if cur.argc ≥ MAX_ARGS - 1 then []
    else
      [cur.argc, cur.argc + 1] ++
        parse_loop_writes rest done { cur with argv := cur.argv ++ [tk] }

/-- The array `argv[MAX_ARGS]` of a node: `calloc` zeroes it and the parser
stores the arguments in the slots `0 .. argc-1` and `NULL` in slot `argc`. -/
def Cmd.argv_array (c : Cmd) : List (Option String) :=
  c.argv.map some ++ List.replicate (MAX_ARGS - c.argc) none

/-- One iteration of the loop of `main` from the line that `getline` returned
on: a final newline is cut off, a blank line is skipped, and the line is
copied (`raw`) before it is tokenized. -/
def main_iter (input : String) (sys : Sys) (st : Shell) : Shell :=
  let line :=
    if input.toList.getLast? = some '\n' then String.mk input.toList.dropLast else input
  if is_blank line then st
  else main_body (tokenize line) line sys st

/-! ## Vocabulary of the specification -/

/-- The segments obtained by splitting a token sequence at its `|` tokens. -/
def split_pipes : List String → List (List String)
  | [] => [[]]
  | t :: rest =>
    if t = "|" then [] :: split_pipes rest
    else
      match split_pipes rest with
      | [] => [[t]]
      | seg :: segs => (t :: seg) :: segs

/-- A redirection operator: `<`, `>` or `>>`. -/
def is_redir (t : String) : Bool := t == "<" || t == ">" || t == ">>"

/-- The tokens of a segment that are neither a redirection operator nor the
token immediately following one; `after` tells whether the previous token
was an operator. -/
def arg_tokens_from : Bool → List String → List String
  | _, [] => []
  | after, t :: rest =>
    if is_redir t then arg_tokens_from true rest
    else if after then arg_tokens_from false rest
    else t :: arg_tokens_from false rest

/-- The argument tokens of a segment. -/
def arg_tokens (seg : List String) : List String := arg_tokens_from false seg

/-- A non-empty string made of the digits `0` to `9` only. -/
def all_digits (s : String) : Prop :=
  s.toList ≠ [] ∧ ∀ ch ∈ s.toList, '0' ≤ ch ∧ ch ≤ '9'

/-- The system calls made between the state `before` and the state `after`. -/
def new_calls (before after : Shell) : List SysCall :=
  after.trace.drop before.trace.length

/-- A trace entry that is a `waitpid` call reporting some process stopped. -/
def is_stop : SysCall → Bool
  | .waitpid _ (.ok _ status) => WIFSTOPPED status
  | _ => false

/-- A trace entry that is a `waitpid` call reporting process `pid` stopped. -/
def is_stop_of (pid : Int) : SysCall → Bool
  | .waitpid _ (.ok w status) => w == pid && WIFSTOPPED status
  | _ => false

/-- Process `pid` was observed stopped by a `waitpid` call made between the
two states. -/
def observed_stopped (pid : Int) (before after : Shell) : Bool :=
  (new_calls before after).any (is_stop_of pid)

/-- The first result in a sequence of `waitpid` results that settles a
single-stage pipeline: a failure other than `EINTR`, or a process reported
stopped, exited or killed.  Interrupted calls and other reports are passed
over. -/
def first_report : List WaitRet → Option WaitRet
  | [] => none
  | .eintr :: rs => first_report rs
  | .failed :: _ => some .failed
  | .ok w status :: rs =>
    if WIFSTOPPED status || WIFEXITED status || WIFSIGNALED status then some (.ok w status)
    else first_report rs

/-- The process id that the first settling `waitpid` result reports stopped,
and 0 when that result is not a stop or there is none. -/
def reported_stop (ws : List WaitRet) : Int :=
  match first_report ws with
  | some (.ok w status) => if WIFSTOPPED status then w else 0
  | _ => 0

/-- The number a string of decimal digits denotes. -/
def numeric_value (s : String) : Nat :=
  s.toList.foldl (fun acc ch => 10 * acc + (ch.toNat - '0'.toNat)) 0

/-- The shell state whose job table holds exactly the given jobs. -/
def table_of (jobs : List Job) : Shell :=
  { Shell.init with
    joblist := jobs ++ List.replicate (MAX_JOBS - jobs.length) default,
    njobs := jobs.length }

/-- A system in which every call succeeds: descriptors `3 + 2i` and `4 + 2i`
for the `i`-th pipe, process id `100 + idx` for the `idx`-th fork, and the
given results for the successive `waitpid` calls. -/
def sys_of (waits : List WaitRet) : Sys :=
  { access_ok := fun _ => true, chdir_ok := fun _ => true,
    pipe_ret := fun i => some (3 + 2 * i, 4 + 2 * i),
    fork_ret := fun idx => some (100 + (idx : Int)),
    waits := waits, strerror := "" }

/-- The state `st'` has the job table of `st` and its trace is that of `st`
followed by the calls `evs`. -/
def extends_by (st st' : Shell) (evs : List SysCall) : Prop :=
  st'.joblist = st.joblist ∧ st'.njobs = st.njobs ∧ st'.trace = st.trace ++ evs

/-- A space, a tab or a newline. -/
def is_ws (c : Char) : Bool := c = ' ' ∨ c = '\t' ∨ c = '\n'

/-- The maximal runs of characters other than space, tab and newline of a
line, from left to right: the non-empty pieces between those characters. -/
def runs (line : List Char) : List (List Char) :=
  (line.splitOnP is_ws).filter (fun r => r ≠ [])

/-- The tokens of a segment that are neither a redirection operator nor the
token immediately following one, read off the positions: a token is kept
when it is no operator and the token before it, if any, is none either. -/
def arg_tokens_by_position (seg : List String) : List String :=
  ((seg.zip (false :: seg.map is_redir)).filter
    (fun p => !is_redir p.1 && !p.2)).map Prod.fst

/-- The pipes `run_pipeline` gets for a chain when every `pipe` call
succeeds: one pair for each stage but the last. -/
def pipes_of (head : List Cmd) (sys : Sys) : List (Nat × Nat) :=
  (List.range' 0 (head.length - 1)).filterMap sys.pipe_ret

/-- The process ids `run_pipeline` gets for a chain when every `fork` call
succeeds: one for each stage. -/
def pids_of (head : List Cmd) (sys : Sys) : List Int :=
  (List.range' 0 head.length).filterMap sys.fork_ret

/-- The state in which `run_pipeline` enters its wait loop when every `pipe`
and `fork` call has succeeded: the pipes were created, the stages spawned,
and the parent has closed its copies of the pipe descriptors. -/
def spawned_state (head : List Cmd) (sys : Sys) (st : Shell) : Shell :=
  close_pipes (pipes_of head sys)
    { ({ after_access (head.headD cmd_new) sys st with
          trace := (after_access (head.headD cmd_new) sys st).trace ++
            (pipes_of head sys).map (fun p => .pipe (some p)),
          fds := (after_access (head.headD cmd_new) sys st).fds ++
            (pipes_of head sys).flatMap (fun p => [p.1, p.2]) } : Shell) with
      trace := ((after_access (head.headD cmd_new) sys st).trace ++
          (pipes_of head sys).map (fun p => .pipe (some p))) ++
        (pids_of head sys).map (fun q => .fork (some q)) }

/-- The indices of `argv` written while a stage grows from `a` to `b`
arguments: for each argument its own slot and the slot after it. -/
def slot_writes (a b : Nat) : List Nat :=
  (List.range' a (b - a)).flatMap (fun k => [k, k + 1])

/-- The bytes of a program name made of `n` letters `a`. -/
def letters (n : Nat) : List UInt8 := List.replicate n 97

/-- The bytes of a program name made of `n` letters `é`, two bytes each. -/
def accented (n : Nat) : List UInt8 := (List.replicate n [195, 169]).flatten

/-- The text written to the standard output between two states. -/
def new_out (before after : Shell) : List String :=
  after.out.drop before.out.length

/-- The job table obeys the bounds of the array that holds it. -/
def table_ok (st : Shell) : Prop :=
  st.joblist.length = MAX_JOBS ∧ st.njobs ≤ MAX_JOBS

/-- The descriptors of the pipes `0 .. count-1` the system hands out, in the
order in which they are created. -/
def pipe_fds (sys : Sys) (count : Nat) : List Nat :=
  (List.range count).flatMap (fun i =>
    match sys.pipe_ret i with
    | none => []
    | some (r, w) => [r, w])

/-! ## The parser: helper lemmas -/

theorem split_pipes_ne_nil (toks : List String) : split_pipes toks ≠ [] := by
  cases toks with
  | nil => simp [split_pipes]
  | cons t rest =>
    unfold split_pipes
    split
    · simp
    · split <;> simp

theorem split_pipes_cons_of_ne (t : String) (rest : List String) (h : t ≠ "|")
    (seg : List String) (segs : List (List String)) (hs : split_pipes rest = seg :: segs) :
    split_pipes (t :: rest) = (t :: seg) :: segs := by
  simp [split_pipes, h, hs]

theorem parse_loop_pipe (rest : List String) (done : List Cmd) (cur : Cmd) :
    parse_loop ("|" :: rest) done cur =
      if cur.argc = 0 ∨ cur.outfile.isSome then .error ERR_INVALID_CMD
      else parse_loop rest (done ++ [cur]) cmd_new := by
  conv_lhs => rw [parse_loop.eq_def]
  simp

theorem parse_loop_in_nil (done : List Cmd) (cur : Cmd) :
    parse_loop ["<"] done cur = .error ERR_INVALID_CMD := by
  rw [parse_loop]; simp

theorem parse_loop_in (fn : String) (rest : List String) (done : List Cmd) (cur : Cmd) :
    parse_loop ("<" :: fn :: rest) done cur =
      if done ≠ [] ∨ cur.infile.isSome then .error ERR_INVALID_CMD
      else if is_special fn then .error ERR_INVALID_CMD
      else parse_loop rest done { cur with infile := some fn } := by
  rw [parse_loop]; simp

theorem parse_loop_out_nil (tk : String) (h : tk = ">" ∨ tk = ">>") (done : List Cmd)
    (cur : Cmd) : parse_loop [tk] done cur = .error ERR_INVALID_CMD := by
  rcases h with h | h <;> subst h <;> (rw [parse_loop]; simp)

theorem parse_loop_out (tk : String) (h : tk = ">" ∨ tk = ">>") (fn : String)
    (rest : List String) (done : List Cmd) (cur : Cmd) :
    parse_loop (tk :: fn :: rest) done cur =
      if cur.outfile.isSome then .error ERR_INVALID_CMD
      else if is_special fn then .error ERR_INVALID_CMD
      else if later_pipe rest then .error ERR_INVALID_CMD
      else parse_loop rest done
        { cur with outfile := some fn, append := if tk = ">>" then 1 else 0 } := by
  rcases h with h | h <;> subst h <;> (rw [parse_loop]; simp)

theorem parse_loop_arg (tk : String) (h1 : tk ≠ "|") (h2 : tk ≠ "<") (h3 : tk ≠ ">")
    (h4 : tk ≠ ">>") (rest : List String) (done : List Cmd) (cur : Cmd) :
    parse_loop (tk :: rest) done cur =
      if cur.argc ≥ MAX_ARGS - 1 then .error ERR_INVALID_CMD
      else parse_loop rest done { cur with argv := cur.argv ++ [tk] } := by
  conv_lhs => rw [parse_loop.eq_def]
  simp [h1, h2, h3, h4]

/-- Every failure of the token loop carries the text `ERR_INVALID_CMD`. -/
theorem parse_loop_error (toks : List String) (done : List Cmd) (cur : Cmd) (e : String)
    (h : parse_loop toks done cur = .error e) : e = ERR_INVALID_CMD := by
  induction toks, done, cur using parse_loop.induct with
  | case1 done cur => simp [parse_loop] at h
  | case2 rest done cur hc =>
    rw [parse_loop_pipe, if_pos hc] at h
    injection h with h; exact h.symm
  | case3 rest done cur hc ih =>
    rw [parse_loop_pipe, if_neg hc] at h
    exact ih h
  | case4 done cur _ =>
    rw [parse_loop_in_nil] at h
    injection h with h; exact h.symm
  | case5 done cur fn rest hc _ =>
    rw [parse_loop_in, if_pos hc] at h
    injection h with h; exact h.symm
  | case6 done cur fn rest hc hs _ =>
    rw [parse_loop_in, if_neg hc, if_pos hs] at h
    injection h with h; exact h.symm
  | case7 done cur fn rest hc hs _ ih =>
    rw [parse_loop_in, if_neg hc, if_neg hs] at h
    exact ih h
  | case8 tk done cur _ _ ht =>
    rw [parse_loop_out_nil tk ht] at h
    injection h with h; exact h.symm
  | case9 tk done cur _ _ ht fn rest hc =>
    rw [parse_loop_out tk ht, if_pos hc] at h
    injection h with h; exact h.symm
  | case10 tk done cur _ _ ht fn rest hc hs =>
    rw [parse_loop_out tk ht, if_neg hc, if_pos hs] at h
    injection h with h; exact h.symm
  | case11 tk done cur _ _ ht fn rest hc hs hl =>
    rw [parse_loop_out tk ht, if_neg hc, if_neg hs, if_pos hl] at h
    injection h with h; exact h.symm
  | case12 tk done cur _ _ ht fn rest hc hs hl ih =>
    rw [parse_loop_out tk ht, if_neg hc, if_neg hs, if_neg hl] at h
    exact ih h
  | case13 tk rest done cur h1 h2 h3 hc =>
    rw [parse_loop_arg tk h1 h2 (fun h => h3 (Or.inl h)) (fun h => h3 (Or.inr h)),
      if_pos hc] at h
    injection h with h; exact h.symm
  | case14 tk rest done cur h1 h2 h3 hc ih =>
    rw [parse_loop_arg tk h1 h2 (fun h => h3 (Or.inl h)) (fun h => h3 (Or.inr h)),
      if_neg hc] at h
    exact ih h

/-- Induction over the successful runs of the token loop: one case for the
end of the tokens and one for each kind of token that lets the loop go on. -/
theorem parse_loop_ok_induct (P : List String → List Cmd → Cmd → List Cmd → Prop)
    (h_nil : ∀ done cur, P [] done cur (done ++ [cur]))
    (h_pipe : ∀ rest done cur chain, cur.argc ≠ 0 → cur.outfile = none →
      P rest (done ++ [cur]) cmd_new chain → P ("|" :: rest) done cur chain)
    (h_in : ∀ fn rest cur chain, cur.infile = none → is_special fn = false →
      P rest [] { cur with infile := some fn } chain → P ("<" :: fn :: rest) [] cur chain)
    (h_out : ∀ tk fn rest done cur chain, tk = ">" ∨ tk = ">>" → cur.outfile = none →
      is_special fn = false → later_pipe rest = false →
      P rest done { cur with outfile := some fn, append := if tk = ">>" then 1 else 0 } chain →
      P (tk :: fn :: rest) done cur chain)
    (h_arg : ∀ tk rest done cur chain, tk ≠ "|" → tk ≠ "<" → tk ≠ ">" → tk ≠ ">>" →
      cur.argc < MAX_ARGS - 1 →
      P rest done { cur with argv := cur.argv ++ [tk] } chain → P (tk :: rest) done cur chain)
    (toks : List String) (done : List Cmd) (cur : Cmd) (chain : List Cmd)
    (h : parse_loop toks done cur = .ok chain) : P toks done cur chain := by
  induction toks, done, cur using parse_loop.induct with
  | case1 done cur =>
    simp [parse_loop] at h
    subst h; exact h_nil done cur
  | case2 rest done cur hc =>
    rw [parse_loop_pipe, if_pos hc] at h; cases h
  | case3 rest done cur hc ih =>
    rw [parse_loop_pipe, if_neg hc] at h
    have hc1 : cur.argc ≠ 0 := fun h0 => hc (Or.inl h0)
    have hc2 : cur.outfile = none := by
      cases ho : cur.outfile with
      | none => rfl
      | some f => exact absurd (Or.inr (by simp [ho])) hc
    exact h_pipe rest done cur chain hc1 hc2 (ih h)
  | case4 done cur _ =>
    rw [parse_loop_in_nil] at h; cases h
  | case5 done cur fn rest hc _ =>
    rw [parse_loop_in, if_pos hc] at h; cases h
  | case6 done cur fn rest hc hs _ =>
    rw [parse_loop_in, if_neg hc, if_pos hs] at h; cases h
  | case7 done cur fn rest hc hs _ ih =>
    rw [parse_loop_in, if_neg hc, if_neg hs] at h
    have hd : done = [] := by
      by_contra hd; exact hc (Or.inl hd)
    have hi : cur.infile = none := by
      cases hi : cur.infile with
      | none => rfl
      | some f => exact absurd (Or.inr (by simp [hi])) hc
    subst hd
    exact h_in fn rest cur chain hi (by simpa using hs) (ih h)
  | case8 tk done cur _ _ ht =>
    rw [parse_loop_out_nil tk ht] at h; cases h
  | case9 tk done cur _ _ ht fn rest hc =>
    rw [parse_loop_out tk ht, if_pos hc] at h; cases h
  | case10 tk done cur _ _ ht fn rest hc hs =>
    rw [parse_loop_out tk ht, if_neg hc, if_pos hs] at h; cases h
  | case11 tk done cur _ _ ht fn rest hc hs hl =>
    rw [parse_loop_out tk ht, if_neg hc, if_neg hs, if_pos hl] at h; cases h
  | case12 tk done cur _ _ ht fn rest hc hs hl ih =>
    rw [parse_loop_out tk ht, if_neg hc, if_neg hs, if_neg hl] at h
    have ho : cur.outfile = none := by
      cases ho : cur.outfile with
      | none => rfl
      | some f => exact absurd (by simp [ho]) hc
    exact h_out tk fn rest done cur chain ht ho (by simpa using hs) (by simpa using hl) (ih h)
  | case13 tk rest done cur h1 h2 h3 hc =>
    rw [parse_loop_arg tk h1 h2 (fun h => h3 (Or.inl h)) (fun h => h3 (Or.inr h)),
      if_pos hc] at h
    cases h
  | case14 tk rest done cur h1 h2 h3 hc ih =>
    rw [parse_loop_arg tk h1 h2 (fun h => h3 (Or.inl h)) (fun h => h3 (Or.inr h)),
      if_neg hc] at h
    exact h_arg tk rest done cur chain h1 h2 (fun h => h3 (Or.inl h)) (fun h => h3 (Or.inr h))
      (by omega) (ih h)

theorem is_special_false (fn : String) (h : is_special fn = false) :
    fn ≠ "|" ∧ fn ≠ "<" ∧ fn ≠ ">" ∧ fn ≠ ">>" := by
  simp only [is_special, Bool.or_eq_false_iff, beq_eq_false_iff_ne] at h
  exact ⟨h.1.1.1, h.1.1.2, h.1.2, h.2⟩

theorem is_redir_of_out (tk : String) (h : tk = ">" ∨ tk = ">>") : is_redir tk = true := by
  rcases h with h | h <;> subst h <;> decide

/-- On success the argument lists of the chain are those of the stages already
closed, then the arguments of the current stage followed by the argument
tokens of the first segment, then the argument tokens of the later segments. -/
theorem parse_loop_argv (toks : List String) (done : List Cmd) (cur : Cmd) (chain : List Cmd)
    (h : parse_loop toks done cur = .ok chain) :
    ∃ seg segs, split_pipes toks = seg :: segs ∧
      chain.map Cmd.argv =
        done.map Cmd.argv ++ (cur.argv ++ arg_tokens seg) :: segs.map arg_tokens := by
  refine parse_loop_ok_induct
    (fun toks done cur chain => ∃ seg segs, split_pipes toks = seg :: segs ∧
      chain.map Cmd.argv =
        done.map Cmd.argv ++ (cur.argv ++ arg_tokens seg) :: segs.map arg_tokens)
    ?_ ?_ ?_ ?_ ?_ toks done cur chain h
  · intro done cur
    exact ⟨[], [], by simp [split_pipes], by simp [arg_tokens, arg_tokens_from]⟩
  · intro rest done cur chain _ _ ih
    obtain ⟨seg, segs, hs, hc⟩ := ih
    refine ⟨[], seg :: segs, by simp [split_pipes, hs], ?_⟩
    rw [hc]
    simp [arg_tokens, arg_tokens_from, cmd_new]
  · intro fn rest cur chain _ hfn ih
    obtain ⟨seg, segs, hs, hc⟩ := ih
    obtain ⟨f1, f2, f3, f4⟩ := is_special_false fn hfn
    refine ⟨"<" :: fn :: seg, segs, ?_, ?_⟩
    · rw [split_pipes_cons_of_ne "<" (fn :: rest) (by decide) (fn :: seg) segs
        (split_pipes_cons_of_ne fn rest f1 seg segs hs)]
    · rw [hc]
      have hr : is_redir fn = false := by simp [is_redir, f2, f3, f4]
      have hlt : is_redir "<" = true := by decide
      simp [arg_tokens, arg_tokens_from, hr, hlt]
  · intro tk fn rest done cur chain htk _ hfn _ ih
    obtain ⟨seg, segs, hs, hc⟩ := ih
    obtain ⟨f1, f2, f3, f4⟩ := is_special_false fn hfn
    have htk1 : tk ≠ "|" := by rcases htk with h | h <;> subst h <;> decide
    refine ⟨tk :: fn :: seg, segs, ?_, ?_⟩
    · rw [split_pipes_cons_of_ne tk (fn :: rest) htk1 (fn :: seg) segs
        (split_pipes_cons_of_ne fn rest f1 seg segs hs)]
    · rw [hc]
      have hr : is_redir fn = false := by simp [is_redir, f2, f3, f4]
      simp [arg_tokens, arg_tokens_from, hr, is_redir_of_out tk htk]
  · intro tk rest done cur chain h1 h2 h3 h4 _ ih
    obtain ⟨seg, segs, hs, hc⟩ := ih
    refine ⟨tk :: seg, segs, split_pipes_cons_of_ne tk rest h1 seg segs hs, ?_⟩
    rw [hc]
    have hr : is_redir tk = false := by simp [is_redir, h2, h3, h4]
    simp [arg_tokens, arg_tokens_from, hr]

/-- A successful run of the token loop never meets a `|` after a `>` or `>>`. -/
theorem parse_loop_no_pipe_after_out (toks : List String) (done : List Cmd) (cur : Cmd)
    (chain : List Cmd) (h : parse_loop toks done cur = .ok chain) :
    ∀ i j : Nat, i < j → (toks[i]? = some ">" ∨ toks[i]? = some ">>") →
      toks[j]? = some "|" → False := by
  refine parse_loop_ok_induct
    (fun toks _ _ _ => ∀ i j : Nat, i < j → (toks[i]? = some ">" ∨ toks[i]? = some ">>") →
      toks[j]? = some "|" → False)
    ?_ ?_ ?_ ?_ ?_ toks done cur chain h
  · intro _ _ i j _ hi _
    simp at hi
  · intro rest done cur chain _ _ ih i j hij hi hj
    rcases i with _ | i
    · simp at hi
    · rcases j with _ | j
      · omega
      · exact ih i j (by omega) (by simpa using hi) (by simpa using hj)
  · intro fn rest cur chain _ hfn ih i j hij hi hj
    obtain ⟨f1, f2, f3, f4⟩ := is_special_false fn hfn
    rcases i with _ | _ | i
    · simp at hi
    · simp at hi
      rcases hi with hi | hi
      · exact f3 hi
      · exact f4 hi
    · rcases j with _ | _ | j
      · omega
      · omega
      · exact ih i j (by omega) (by simpa using hi) (by simpa using hj)
  · intro tk fn rest done cur chain _ _ hfn hl ih i j hij hi hj
    obtain ⟨f1, f2, f3, f4⟩ := is_special_false fn hfn
    have hno : ∀ k : Nat, rest[k]? = some "|" → False := by
      intro k hk
      have hm : "|" ∈ rest := List.getElem?_mem hk
      have : later_pipe rest = true := by
        simp only [later_pipe, List.any_eq_true]
        exact ⟨"|", hm, by simp⟩
      rw [hl] at this
      cases this
    rcases j with _ | _ | j
    · omega
    · simp at hj
      exact f1 hj
    · exact hno j (by simpa using hj)
  · intro tk rest done cur chain _ _ h3 h4 _ ih i j hij hi hj
    rcases i with _ | i
    · simp at hi
      rcases hi with hi | hi
      · exact h3 hi
      · exact h4 hi
    · rcases j with _ | j
      · omega
      · exact ih i j (by omega) (by simpa using hi) (by simpa using hj)

/-- On success no stage but the first carries an input file and no stage but
the last an output file, provided the stages already closed obey this. -/
theorem parse_loop_redirs (toks : List String) (done : List Cmd) (cur : Cmd)
    (chain : List Cmd) (h : parse_loop toks done cur = .ok chain) :
    (∀ c ∈ done.tail, c.infile = none) → (done ≠ [] → cur.infile = none) →
    (∀ c ∈ done, c.outfile = none) →
    (∀ c ∈ chain.tail, c.infile = none) ∧ (∀ c ∈ chain.dropLast, c.outfile = none) := by
  refine parse_loop_ok_induct
    (fun _ done cur chain => (∀ c ∈ done.tail, c.infile = none) →
      (done ≠ [] → cur.infile = none) → (∀ c ∈ done, c.outfile = none) →
      (∀ c ∈ chain.tail, c.infile = none) ∧ (∀ c ∈ chain.dropLast, c.outfile = none))
    ?_ ?_ ?_ ?_ ?_ toks done cur chain h
  · intro done cur h1 h2 h3
    constructor
    · intro c hc
      cases done with
      | nil => simp at hc
      | cons d ds =>
        simp at hc
        rcases hc with hc | hc
        · exact h1 c (by simpa using hc)
        · subst hc; exact h2 (by simp)
    · intro c hc
      rw [List.dropLast_concat] at hc
      exact h3 c hc
  · intro rest done cur chain _ ho ih h1 h2 h3
    apply ih
    · intro c hc
      cases done with
      | nil => simp at hc
      | cons d ds =>
        simp at hc
        rcases hc with hc | hc
        · exact h1 c (by simpa using hc)
        · subst hc; exact h2 (by simp)
    · intro _; rfl
    · intro c hc
      simp at hc
      rcases hc with hc | hc
      · exact h3 c hc
      · subst hc; exact ho
  · intro fn rest cur chain _ _ ih _ _ _
    exact ih (by simp) (by simp) (by simp)
  · intro tk fn rest done cur chain _ _ _ _ ih h1 h2 h3
    exact ih h1 h2 h3
  · intro tk rest done cur chain _ _ _ _ _ ih h1 h2 h3
    exact ih h1 h2 h3

theorem split_pipes_append_pipe (pre post : List String) :
    split_pipes (pre ++ "|" :: post) = split_pipes pre ++ split_pipes post := by
  induction pre with
  | nil => simp [split_pipes]
  | cons t pre ih =>
    by_cases ht : t = "|"
    · simp [split_pipes, ht, ih]
    · obtain ⟨seg, segs, hs⟩ : ∃ seg segs, split_pipes pre = seg :: segs := by
        cases hsp : split_pipes pre with
        | nil => exact absurd hsp (split_pipes_ne_nil pre)
        | cons seg segs => exact ⟨seg, segs, rfl⟩
      have h1 : split_pipes (t :: pre) = (t :: seg) :: segs :=
        split_pipes_cons_of_ne t pre ht seg segs hs
      have h2 : split_pipes (t :: (pre ++ "|" :: post)) = (t :: seg) :: (segs ++ split_pipes post) :=
        split_pipes_cons_of_ne t _ ht seg (segs ++ split_pipes post) (by rw [ih, hs]; rfl)
      rw [List.cons_append, h2, h1]; rfl

/-- The three possible outcomes of `parse_pipeline`. -/
theorem parse_pipeline_cases (toks : List String) :
    (toks = [] ∧ parse_pipeline toks = (.empty, [])) ∨
    (toks ≠ [] ∧ parse_pipeline toks = (.invalid, [ERR_INVALID_CMD])) ∨
    (toks ≠ [] ∧ ∃ chain, parse_loop toks [] cmd_new = .ok chain ∧
      (∀ c ∈ chain, c.argc ≠ 0) ∧ parse_pipeline toks = (.ok chain, [])) := by
  by_cases ht : toks = []
  · left; subst ht; exact ⟨rfl, rfl⟩
  · right
    have hlen : ¬ toks.length = 0 := by simpa using ht
    cases hp : parse_loop toks [] cmd_new with
    | error e =>
      left
      have he := parse_loop_error toks [] cmd_new e hp
      subst he
      refine ⟨ht, ?_⟩
      simp only [parse_pipeline, if_neg hlen, hp]
      rfl
    | ok chain =>
      by_cases hany : chain.any (fun c => c.argc == 0) = true
      · left
        refine ⟨ht, ?_⟩
        simp only [parse_pipeline, if_neg hlen, hp]
        show (match check_stages chain with
          | .ok head => (ParseResult.ok head, [])
          | .error msg => (ParseResult.invalid, [msg])) = _
        simp [check_stages, hany]
      · right
        refine ⟨ht, chain, rfl, ?_, ?_⟩
        · intro c hc h0
          exact hany (List.any_eq_true.mpr ⟨c, hc, by simp [h0]⟩)
        · simp only [parse_pipeline, if_neg hlen, hp]
          show (match check_stages chain with
            | .ok head => (ParseResult.ok head, [])
            | .error msg => (ParseResult.invalid, [msg])) = _
          simp [check_stages, hany]

/-- What `parse_pipeline` returns when it returns a chain. -/
theorem parse_pipeline_ok (toks : List String) (head : List Cmd) (msgs : List String)
    (h : parse_pipeline toks = (.ok head, msgs)) :
    toks ≠ [] ∧ parse_loop toks [] cmd_new = .ok head ∧ (∀ c ∈ head, c.argc ≠ 0) ∧
      msgs = [] := by
  rcases parse_pipeline_cases toks with ⟨_, h1⟩ | ⟨_, h1⟩ | ⟨ht, chain, hl, hc, h1⟩
  · rw [h1] at h; cases h
  · rw [h1] at h; cases h
  · rw [h1] at h
    cases h
    exact ⟨ht, hl, hc, rfl⟩

/-- A token sequence with a segment without argument tokens is invalid. -/
theorem parse_pipeline_no_args_invalid (toks : List String) (ht : toks ≠ [])
    (seg : List String) (hseg : seg ∈ split_pipes toks) (hargs : arg_tokens seg = []) :
    parse_pipeline toks = (.invalid, [ERR_INVALID_CMD]) := by
  rcases parse_pipeline_cases toks with ⟨h0, _⟩ | ⟨_, h1⟩ | ⟨_, chain, hl, hc, _⟩
  · exact absurd h0 ht
  · exact h1
  · exfalso
    obtain ⟨s, ss, hs, hm⟩ := parse_loop_argv toks [] cmd_new chain hl
    have hm2 : chain.map Cmd.argv = (split_pipes toks).map arg_tokens := by
      rw [hm, hs]; simp [cmd_new]
    have hin : arg_tokens seg ∈ chain.map Cmd.argv := by
      rw [hm2]; exact List.mem_map_of_mem _ hseg
    obtain ⟨c, hcm, hca⟩ := List.mem_map.mp hin
    exact hc c hcm (by simp [Cmd.argc, hca, hargs])

/-- An invalid parse ends the iteration of `main` with the message alone. -/
theorem main_body_invalid (toks : List String) (msgs : List String)
    (h : parse_pipeline toks = (.invalid, msgs)) (raw : String) (sys : Sys) (st : Shell) :
    main_body toks raw sys st = { st with err := st.err ++ msgs } := by
  simp [main_body, h]

/-! ## The parser: claims -/

/-- C1: a token sequence whose first token is `|`, whose last token is `|`,
that has two consecutive `|` tokens, or more generally in which some segment
between `|` tokens holds no argument token, makes `parse_pipeline` return the
invalid result with the message `Error: invalid command`; the iteration of
`main` then only writes that message, whatever the system would answer: no
system call is made and the job table is untouched. -/
theorem C1_empty_stage_is_invalid (toks : List String)
    (h : toks.head? = some "|" ∨ toks.getLast? = some "|" ∨
      (∃ i : Nat, toks[i]? = some "|" ∧ toks[i + 1]? = some "|") ∨
      (toks ≠ [] ∧ ∃ seg ∈ split_pipes toks, arg_tokens seg = [])) :
    parse_pipeline toks = (.invalid, [ERR_INVALID_CMD]) ∧
    ∀ (raw : String) (sys : Sys) (st : Shell),
      main_body toks raw sys st = { st with err := st.err ++ [ERR_INVALID_CMD] } := by
  have key : toks ≠ [] ∧ ∃ seg ∈ split_pipes toks, arg_tokens seg = [] := by
    rcases h with h | h | ⟨i, hi, hi1⟩ | h
    · cases toks with
      | nil => simp at h
      | cons t rest =>
        simp at h
        subst h
        exact ⟨by simp, [], by simp [split_pipes], rfl⟩
    · obtain ⟨ys, hys⟩ := List.getLast?_eq_some_iff.mp h
      subst hys
      refine ⟨by simp, [], ?_, rfl⟩
      rw [split_pipes_append_pipe]
      simp [split_pipes]
    · obtain ⟨hlt, hv⟩ := List.getElem?_eq_some.mp hi
      obtain ⟨hlt1, hv1⟩ := List.getElem?_eq_some.mp hi1
      have hsplit : toks = toks.take i ++ "|" :: "|" :: toks.drop (i + 2) := by
        conv_lhs => rw [← List.take_append_drop i toks]
        rw [List.drop_eq_getElem_cons hlt, List.drop_eq_getElem_cons hlt1, hv, hv1]
      refine ⟨?_, [], ?_, rfl⟩
      · intro h0; rw [h0] at hlt; simp at hlt
      · rw [hsplit, split_pipes_append_pipe]
        simp [split_pipes]
    · exact h
  obtain ⟨ht, seg, hseg, hargs⟩ := key
  have hp := parse_pipeline_no_args_invalid toks ht seg hseg hargs
  exact ⟨hp, fun raw sys st => main_body_invalid toks _ hp raw sys st⟩

theorem C1_empty_stage_is_invalid_witness :
    (["a", "|", ">", "f"] ≠ [] ∧ ∃ seg ∈ split_pipes ["a", "|", ">", "f"], arg_tokens seg = []) ∧
    parse_pipeline ["a", "|", ">", "f"] = (.invalid, [ERR_INVALID_CMD]) :=
  ⟨by decide,
   (C1_empty_stage_is_invalid ["a", "|", ">", "f"] (Or.inr (Or.inr (Or.inr (by decide))))).1⟩

/-- C2: a token sequence with a `>` or `>>` token at some index and a `|`
token at a later index makes `parse_pipeline` return the invalid result with
the message `Error: invalid command`. -/
theorem C2_output_redirection_before_pipe (toks : List String) (i j : Nat) (hij : i < j)
    (hi : toks[i]? = some ">" ∨ toks[i]? = some ">>") (hj : toks[j]? = some "|") :
    parse_pipeline toks = (.invalid, [ERR_INVALID_CMD]) := by
  rcases parse_pipeline_cases toks with ⟨h0, _⟩ | ⟨_, h1⟩ | ⟨_, chain, hl, _, _⟩
  · subst h0; simp at hj
  · exact h1
  · exact absurd hj (fun hj =>
      parse_loop_no_pipe_after_out toks [] cmd_new chain hl i j hij hi hj)

theorem C2_output_redirection_before_pipe_witness :
    parse_pipeline ["cmd1", ">", "out", "|", "cmd2"] = (.invalid, [ERR_INVALID_CMD]) :=
  C2_output_redirection_before_pipe ["cmd1", ">", "out", "|", "cmd2"] 1 3 (by decide)
    (Or.inl (by decide)) (by decide)

/-- C3: when `parse_pipeline` returns a chain, every stage has at least one
argument, no stage other than the first records an input file, and no stage
other than the last records an output file. -/
theorem C3_parsed_pipeline_well_formed (toks : List String) (head : List Cmd)
    (msgs : List String) (h : parse_pipeline toks = (.ok head, msgs)) :
    (∀ c ∈ head, 1 ≤ c.argc) ∧
    (∀ (k : Nat) (c : Cmd), head[k]? = some c → k ≠ 0 → c.infile = none) ∧
    (∀ (k : Nat) (c : Cmd), head[k]? = some c → k + 1 ≠ head.length → c.outfile = none) := by
  obtain ⟨_, hl, hc, _⟩ := parse_pipeline_ok toks head msgs h
  obtain ⟨hin, hout⟩ := parse_loop_redirs toks [] cmd_new head hl (by simp) (by simp) (by simp)
  refine ⟨fun c hm => Nat.one_le_iff_ne_zero.mpr (hc c hm), ?_, ?_⟩
  · intro k c hk hk0
    apply hin c
    obtain ⟨k', rfl⟩ : ∃ k', k = k' + 1 := ⟨k - 1, by omega⟩
    apply List.getElem?_mem (n := k')
    rw [List.getElem?_tail]; exact hk
  · intro k c hk hk1
    apply hout c
    obtain ⟨hlt, _⟩ := List.getElem?_eq_some.mp hk
    apply List.getElem?_mem (n := k)
    rw [List.getElem?_dropLast, if_pos (by omega)]; exact hk

theorem C3_parsed_pipeline_well_formed_witness :
    parse_pipeline ["a", "<", "x", "|", "b", "|", "c", ">>", "y"] =
      (.ok [⟨["a"], some "x", none, 0⟩, ⟨["b"], none, none, 0⟩, ⟨["c"], none, some "y", 1⟩], []) ∧
    (∀ c ∈ [(⟨["a"], some "x", none, 0⟩ : Cmd), ⟨["b"], none, none, 0⟩,
        ⟨["c"], none, some "y", 1⟩], 1 ≤ c.argc) :=
  ⟨by decide,
   (C3_parsed_pipeline_well_formed ["a", "<", "x", "|", "b", "|", "c", ">>", "y"] _ []
      (by decide)).1⟩

/-! ## The dispatcher: claims -/

/-- The dispatcher on a chain whose first stage carries a builtin name and
which is longer than one stage or redirected. -/
theorem dispatch_builtin_composed (c : Cmd) (rest : List Cmd) (a0 : String)
    (args : List String) (hargv : c.argv = a0 :: args) (hb : is_builtin_name a0 = true)
    (hcomp : rest ≠ [] ∨ c.infile ≠ none ∨ c.outfile ≠ none) :
    dispatch (c :: rest) = .invalid_cmd := by
  have h1 : ¬ (rest = [] ∧ is_builtin_name a0 = true ∧ c.infile = none ∧ c.outfile = none) := by
    rintro ⟨h1, _, h2, h3⟩
    rcases hcomp with h | h | h
    · exact h h1
    · exact h h2
    · exact h h3
  simp only [dispatch, hargv]
  rw [if_neg h1, if_pos ⟨hb, hcomp⟩]

/-- C4, as the code has it: when the FIRST stage of a parsed pipeline has one
of the names `cd`, `exit`, `jobs`, `fg` and the pipeline has more than one
stage or carries an input or output redirection, the dispatcher takes the
`Error: invalid command` branch and the iteration of `main` only writes that
message (`run_pipeline` is not called, no system call is made); and the
builtin branch is taken only for a pipeline of exactly one stage without
redirection whose program name is one of the four builtin names. -/
theorem C4_first_stage_builtin_dispatch (toks : List String) (head : List Cmd)
    (msgs : List String) (h : parse_pipeline toks = (.ok head, msgs)) :
    (∀ (c : Cmd) (rest : List Cmd) (a0 : String) (args : List String),
      head = c :: rest → c.argv = a0 :: args → is_builtin_name a0 = true →
      (1 < head.length ∨ ∃ d ∈ head, d.infile ≠ none ∨ d.outfile ≠ none) →
      dispatch head = .invalid_cmd ∧
      ∀ (raw : String) (sys : Sys) (st : Shell),
        main_body toks raw sys st = { st with err := st.err ++ [ERR_INVALID_CMD] }) ∧
    (dispatch head = .builtin →
      ∃ (c : Cmd) (a0 : String) (args : List String),
        head = [c] ∧ c.argv = a0 :: args ∧ c.infile = none ∧ c.outfile = none ∧
        (a0 = "cd" ∨ a0 = "exit" ∨ a0 = "jobs" ∨ a0 = "fg") ∧
        ∀ (raw : String) (sys : Sys) (st : Shell),
          main_body toks raw sys st = run_builtin c sys st) := by
  obtain ⟨_, _, _, hmsgs⟩ := parse_pipeline_ok toks head msgs h
  subst hmsgs
  constructor
  · intro c rest a0 args hhead hargv hb hcomp
    subst hhead
    have hcomp2 : rest ≠ [] ∨ c.infile ≠ none ∨ c.outfile ≠ none := by
      by_cases hr : rest = []
      · subst hr
        rcases hcomp with hlen | ⟨d, hd, hred⟩
        · simp at hlen
        · simp at hd
          subst hd
          exact Or.inr hred
      · exact Or.inl hr
    have hd := dispatch_builtin_composed c rest a0 args hargv hb hcomp2
    refine ⟨hd, ?_⟩
    intro raw sys st
    simp [main_body, h, hd]
  · intro hd
    cases head with
    | nil => simp [dispatch] at hd
    | cons c next =>
      cases hargv : c.argv with
      | nil => simp [dispatch, hargv] at hd
      | cons a0 args =>
        simp only [dispatch, hargv] at hd
        split at hd
        · rename_i hcond
          obtain ⟨hn, hb, hi, ho⟩ := hcond
          subst hn
          refine ⟨c, a0, args, rfl, hargv, hi, ho, ?_, ?_⟩
          · have hb2 := hb
            simp only [is_builtin_name, Bool.or_eq_true, beq_iff_eq] at hb2
            tauto
          · intro raw sys st
            have hd2 : dispatch [c] = .builtin := by
              simp [dispatch, hargv, hb, hi, ho]
            simp [main_body, h, hd2]
        · split at hd <;> cases hd

theorem C4_first_stage_builtin_dispatch_witness :
    parse_pipeline ["cd", "..", ">", "f"] = (.ok [⟨["cd", ".."], none, some "f", 0⟩], []) ∧
    dispatch [⟨["cd", ".."], none, some "f", 0⟩] = .invalid_cmd :=
  ⟨by decide,
   ((C4_first_stage_builtin_dispatch ["cd", "..", ">", "f"] [⟨["cd", ".."], none, some "f", 0⟩] []
      (by decide)).1 ⟨["cd", ".."], none, some "f", 0⟩ [] "cd" [".."] rfl rfl (by decide)
      (Or.inr ⟨⟨["cd", ".."], none, some "f", 0⟩, by simp, Or.inr (by simp)⟩)).1⟩

/-- C4, as stated, fails: `ls | cd` parses into two stages, the second stage
has the builtin name `cd` and the pipeline has more than one stage, yet the
dispatcher takes the `run_pipeline` branch: both stages are spawned and
nothing is written to the error stream. -/
theorem C4_builtin_in_later_stage_is_run :
    parse_pipeline ["ls", "|", "cd"] =
      (.ok [⟨["ls"], none, none, 0⟩, ⟨["cd"], none, none, 0⟩], []) ∧
    (∃ c ∈ [(⟨["ls"], none, none, 0⟩ : Cmd), ⟨["cd"], none, none, 0⟩],
      ∃ a0 ∈ c.argv.head?, is_builtin_name a0 = true) ∧
    1 < [(⟨["ls"], none, none, 0⟩ : Cmd), ⟨["cd"], none, none, 0⟩].length ∧
    dispatch [⟨["ls"], none, none, 0⟩, ⟨["cd"], none, none, 0⟩] = .run ∧
    (main_body ["ls", "|", "cd"] "ls | cd"
      { access_ok := fun _ => true, chdir_ok := fun _ => true,
        pipe_ret := fun _ => some (3, 4), fork_ret := fun idx => some (100 + idx),
        waits := [.ok 100 (.exited 0), .ok 101 (.exited 127)], strerror := "" }
      Shell.init).err = [] ∧
    (main_body ["ls", "|", "cd"] "ls | cd"
      { access_ok := fun _ => true, chdir_ok := fun _ => true,
        pipe_ret := fun _ => some (3, 4), fork_ret := fun idx => some (100 + idx),
        waits := [.ok 100 (.exited 0), .ok 101 (.exited 127)], strerror := "" }
      Shell.init).trace =
      [.pipe (some (3, 4)), .fork (some 100), .fork (some 101), .close 3, .close 4,
       .waitpid (-1) (.ok 100 (.exited 0)), .waitpid (-1) (.ok 101 (.exited 127))] := by
  refine ⟨by decide, by decide, by decide, by decide, by decide, by decide⟩

/-! ## The job table: helper lemmas -/

theorem for_loop_shift_length (count : Nat) : ∀ (a : Nat) (jl : List Job),
    (for_loop (fun i l => l.set (i - 1) (l.getD i default)) count a jl).length = jl.length := by
  induction count with
  | zero => intro a jl; rfl
  | succ count ih =>
    intro a jl
    simp only [for_loop]
    rw [ih]; simp

theorem for_loop_shift_getElem? (count : Nat) : ∀ (a : Nat) (jl : List Job), 1 ≤ a →
    a + count ≤ jl.length → ∀ k : Nat,
    (for_loop (fun i l => l.set (i - 1) (l.getD i default)) count a jl)[k]? =
      if a - 1 ≤ k ∧ k < a - 1 + count then jl[k + 1]? else jl[k]? := by
  induction count with
  | zero =>
    intro a jl _ _ k
    simp only [for_loop]
    rw [if_neg (by omega)]
  | succ count ih =>
    intro a jl ha hlen k
    simp only [for_loop]
    rw [ih (a + 1) _ (by omega) (by simp; omega) k]
    have hget : jl.getD a default = jl[a] := by
      simp [List.getD_eq_getElem?_getD, List.getElem?_eq_getElem (show a < jl.length by omega)]
    rw [hget]
    by_cases h1 : a ≤ k ∧ k < a + count
    · have h2 : a - 1 ≤ k ∧ k < a - 1 + (count + 1) := by omega
      rw [if_pos (by simpa using h1), if_pos h2, List.getElem?_set, if_neg (by omega)]
    · rw [if_neg (by simpa using h1), List.getElem?_set]
      by_cases h3 : a - 1 = k
      · rw [if_pos h3, if_pos (by omega), if_pos (by omega)]
        have : k + 1 = a := by omega
        rw [this, List.getElem?_eq_getElem]
      · rw [if_neg h3, if_neg (by omega)]

theorem shift_down_getElem? (pos njobs : Nat) (jl : List Job) (h1 : pos < njobs)
    (h2 : njobs ≤ jl.length) (k : Nat) :
    (shift_down pos njobs jl)[k]? = if pos ≤ k ∧ k + 1 < njobs then jl[k + 1]? else jl[k]? := by
  unfold shift_down
  rw [for_loop_shift_getElem? _ _ _ (by omega) (by omega)]
  by_cases h : pos ≤ k ∧ k + 1 < njobs
  · rw [if_pos (by omega), if_pos h]
  · rw [if_neg (by omega), if_neg h]

theorem jobs_remove_at_jobs (pos : Nat) (st : Shell) (h1 : pos < st.njobs)
    (h2 : st.njobs ≤ st.joblist.length) :
    (jobs_remove_at (pos : Int) st).jobs = st.jobs.eraseIdx pos := by
  have hc : ¬ ((pos : Int) < 0 ∨ (pos : Int) ≥ st.njobs) := by omega
  simp only [jobs_remove_at, if_neg hc, Shell.jobs, Int.toNat_ofNat]
  apply List.ext_getElem?
  intro k
  rw [List.getElem?_take, List.getElem?_eraseIdx, List.getElem?_take, List.getElem?_take,
    shift_down_getElem? pos st.njobs st.joblist h1 h2 k]
  by_cases hk : k < st.njobs - 1
  · rw [if_pos hk]
    by_cases hp : k < pos
    · rw [if_pos hp, if_neg (by omega), if_pos (by omega)]
    · rw [if_neg hp, if_pos (by omega), if_pos (by omega)]
  · rw [if_neg hk]
    by_cases hp : k < pos
    · omega
    · rw [if_neg hp, if_neg (by omega)]

theorem jobs_move_to_end_jobs (pos : Nat) (st : Shell) (h1 : pos < st.njobs)
    (h2 : st.njobs ≤ st.joblist.length) :
    (jobs_move_to_end (pos : Int) st).jobs =
      st.jobs.eraseIdx pos ++ [st.joblist.getD pos default] := by
  have hc : ¬ ((pos : Int) < 0 ∨ (pos : Int) ≥ st.njobs) := by omega
  simp only [jobs_move_to_end, if_neg hc, Shell.jobs, Int.toNat_ofNat]
  have hlen : ((List.take st.njobs st.joblist).eraseIdx pos).length = st.njobs - 1 := by
    rw [List.length_eraseIdx_of_lt (by simp; omega)]
    simp; omega
  apply List.ext_getElem?
  intro k
  rw [List.getElem?_take, List.getElem?_set, List.getElem?_append, hlen,
    List.getElem?_eraseIdx, List.getElem?_take, List.getElem?_take,
    shift_down_getElem? pos st.njobs st.joblist h1 h2 k]
  by_cases hk : k < st.njobs - 1
  · rw [if_pos (by omega), if_neg (by omega), if_pos hk]
    by_cases hp : k < pos
    · rw [if_pos hp, if_neg (by omega), if_pos (by omega)]
    · rw [if_neg hp, if_pos (by omega), if_pos (by omega)]
  · by_cases hk2 : k = st.njobs - 1
    · have hl : (shift_down pos st.njobs st.joblist).length = st.joblist.length :=
        for_loop_shift_length _ _ _
      rw [if_pos (by omega), if_pos (by omega), if_pos (by omega), if_neg hk]
      have : k - (st.njobs - 1) = 0 := by omega
      rw [this]; rfl
    · rw [if_neg (by omega), if_neg hk]
      have : k - (st.njobs - 1) = (k - (st.njobs - 1) - 1) + 1 := by omega
      rw [this]; rfl

theorem jobs_push_jobs (pid : Int) (cmdline : String) (st : Shell) (h1 : st.njobs < MAX_JOBS)
    (h2 : st.njobs < st.joblist.length) :
    (jobs_push pid cmdline st).jobs = st.jobs ++ [{ pid := pid, cmdline := cmdline }] ∧
    (jobs_push pid cmdline st).njobs = st.njobs + 1 := by
  have hc : ¬ st.njobs ≥ MAX_JOBS := by omega
  simp only [jobs_push, if_neg hc, Shell.jobs, and_true]
  rw [List.take_succ, List.getElem?_set, if_pos rfl, if_pos h2, List.set_take,
    List.set_eq_of_length_le (by simp)]
  rfl

theorem jobs_index_in_range (i : Nat) (st : Shell) (h1 : 1 ≤ i) (h2 : i ≤ st.njobs)
    (h3 : st.njobs ≤ MAX_JOBS) :
    jobs_index_from_print_index (i : Int) st = ((i - 1 : Nat) : Int) := by
  have hM : MAX_JOBS = 100 := rfl
  have hpos : toInt32 ((i : Int) - 1) = ((i - 1 : Nat) : Int) := by
    unfold toInt32; omega
  have hc : ¬ (((i - 1 : Nat) : Int) < 0 ∨ ((i - 1 : Nat) : Int) ≥ st.njobs) := by omega
  simp only [jobs_index_from_print_index, hpos, if_neg hc]

theorem jobs_remove_at_frame (pos : Int) (st : Shell) :
    (jobs_remove_at pos st).err = st.err ∧ (jobs_remove_at pos st).trace = st.trace ∧
    (jobs_remove_at pos st).out = st.out ∧ (jobs_remove_at pos st).exited = st.exited ∧
    (jobs_remove_at pos st).fds = st.fds := by
  unfold jobs_remove_at
  split <;> simp

theorem jobs_move_to_end_frame (pos : Int) (st : Shell) :
    (jobs_move_to_end pos st).err = st.err ∧ (jobs_move_to_end pos st).trace = st.trace ∧
    (jobs_move_to_end pos st).out = st.out ∧ (jobs_move_to_end pos st).exited = st.exited ∧
    (jobs_move_to_end pos st).fds = st.fds := by
  unfold jobs_move_to_end
  split <;> simp

/-- The value of `builtin_fg` once its argument has passed `is_number`. -/
theorem builtin_fg_number (c : Cmd) (a0 a1 : String) (sys : Sys) (st : Shell)
    (hargv : c.argv = [a0, a1]) (hnum : is_number a1 = true) :
    builtin_fg c sys st =
      if jobs_index_from_print_index (atoi a1) st < 0 then
        { st with err := st.err ++ [ERR_INVALID_JOB] }
      else
        match sys.waits.headD .failed with
        | .ok _ status =>
          if WIFSTOPPED status then
            jobs_move_to_end (jobs_index_from_print_index (atoi a1) st)
              { st with trace := st.trace ++
                  [.kill (st.joblist.getD (jobs_index_from_print_index (atoi a1) st).toNat
                      default).pid SIGCONT,
                   .waitpid (st.joblist.getD (jobs_index_from_print_index (atoi a1) st).toNat
                      default).pid (sys.waits.headD .failed)] }
          else
            jobs_remove_at (jobs_index_from_print_index (atoi a1) st)
              { st with trace := st.trace ++
                  [.kill (st.joblist.getD (jobs_index_from_print_index (atoi a1) st).toNat
                      default).pid SIGCONT,
                   .waitpid (st.joblist.getD (jobs_index_from_print_index (atoi a1) st).toNat
                      default).pid (sys.waits.headD .failed)] }
        | _ =>
          { st with trace := st.trace ++
              [.kill (st.joblist.getD (jobs_index_from_print_index (atoi a1) st).toNat
                  default).pid SIGCONT,
               .waitpid (st.joblist.getD (jobs_index_from_print_index (atoi a1) st).toNat
                  default).pid (sys.waits.headD .failed)] } := by
  simp only [builtin_fg, hargv, hnum]
  rfl

/-! ## The job table and the builtins: claims -/

/-- C5: for a job table and a valid 1-based index `i` given to `fg`, when the
wait on the job's process succeeds the new table is the old one with the job
at position `i-1` removed, followed by that same job if the process was
reported stopped and by nothing otherwise; the process resumed and waited for
is that job's. -/
theorem C5_fg_moves_or_removes (c : Cmd) (a0 a1 : String) (sys : Sys) (st : Shell) (i : Nat)
    (w : Int) (status : WStatus) (hargv : c.argv = [a0, a1]) (hnum : is_number a1 = true)
    (hidx : atoi a1 = (i : Int)) (hi1 : 1 ≤ i) (hi2 : i ≤ st.njobs)
    (hn : st.njobs ≤ MAX_JOBS) (hlen : st.joblist.length = MAX_JOBS)
    (hwait : sys.waits.head? = some (.ok w status)) :
    st.jobs[i - 1]? = some (st.joblist.getD (i - 1) default) ∧
    (builtin_fg c sys st).jobs =
      st.jobs.eraseIdx (i - 1) ++
        (if WIFSTOPPED status then [st.joblist.getD (i - 1) default] else []) ∧
    (builtin_fg c sys st).trace =
      st.trace ++ [.kill (st.joblist.getD (i - 1) default).pid SIGCONT,
                   .waitpid (st.joblist.getD (i - 1) default).pid (.ok w status)] ∧
    (builtin_fg c sys st).err = st.err := by
  have hpos := jobs_index_in_range i st hi1 hi2 hn
  have hhead : sys.waits.headD .failed = .ok w status := by
    cases hw : sys.waits with
    | nil => rw [hw] at hwait; cases hwait
    | cons r rs => rw [hw] at hwait; simp at hwait; simp [hwait]
  have hlt : i - 1 < st.njobs := by omega
  have hle : st.njobs ≤ st.joblist.length := by omega
  have hneg : ¬ (((i - 1 : Nat) : Int) < 0) := by omega
  rw [builtin_fg_number c a0 a1 sys st hargv hnum, hidx, hpos, if_neg hneg, hhead]
  simp only [Int.toNat_ofNat]
  refine ⟨?_, ?_⟩
  · simp only [Shell.jobs]
    rw [List.getElem?_take, if_pos hlt, List.getD_eq_getElem?_getD,
      List.getElem?_eq_getElem (by omega)]
    rfl
  · by_cases hs : WIFSTOPPED status = true
    · simp only [hs, if_true]
      refine ⟨?_, ?_, ?_⟩
      · exact jobs_move_to_end_jobs (i - 1) _ hlt hle
      · exact (jobs_move_to_end_frame _ _).2.1
      · exact (jobs_move_to_end_frame _ _).1
    · simp only [hs, if_false, Bool.false_eq_true, List.append_nil]
      refine ⟨?_, ?_, ?_⟩
      · exact jobs_remove_at_jobs (i - 1) _ hlt hle
      · exact (jobs_remove_at_frame _ _).2.1
      · exact (jobs_remove_at_frame _ _).1

theorem C5_fg_moves_or_removes_witness :
    (builtin_fg ⟨["fg", "2"], none, none, 0⟩ (sys_of [.ok 12 (.stopped 20)])
      (table_of [⟨11, "A"⟩, ⟨12, "B"⟩, ⟨13, "C"⟩])).jobs =
      [⟨11, "A"⟩, ⟨13, "C"⟩, ⟨12, "B"⟩] ∧
    (builtin_fg ⟨["fg", "1"], none, none, 0⟩ (sys_of [.ok 11 (.exited 0)])
      (builtin_fg ⟨["fg", "2"], none, none, 0⟩ (sys_of [.ok 12 (.stopped 20)])
        (table_of [⟨11, "A"⟩, ⟨12, "B"⟩, ⟨13, "C"⟩]))).jobs =
      [⟨13, "C"⟩, ⟨12, "B"⟩] :=
  ⟨(C5_fg_moves_or_removes ⟨["fg", "2"], none, none, 0⟩ "fg" "2"
      (sys_of [.ok 12 (.stopped 20)]) (table_of [⟨11, "A"⟩, ⟨12, "B"⟩, ⟨13, "C"⟩]) 2 12
      (.stopped 20) rfl (by decide) (by decide) (by decide) (by decide) (by decide)
      (by decide) rfl).2.1.trans (by decide),
   (C5_fg_moves_or_removes ⟨["fg", "1"], none, none, 0⟩ "fg" "1"
      (sys_of [.ok 11 (.exited 0)])
      (builtin_fg ⟨["fg", "2"], none, none, 0⟩ (sys_of [.ok 12 (.stopped 20)])
        (table_of [⟨11, "A"⟩, ⟨12, "B"⟩, ⟨13, "C"⟩])) 1 11
      (.exited 0) rfl (by decide) (by decide) (by decide) (by decide) (by decide)
      (by decide) rfl).2.1.trans (by decide)⟩

theorem is_number_iff (s : String) : is_number s = true ↔ all_digits s := by
  unfold is_number all_digits
  cases hs : s.toList with
  | nil => simp
  | cons ch cs =>
    simp only [List.all_eq_true, ne_eq, reduceCtorEq, not_false_eq_true, true_and]
    constructor
    · intro h x hx
      have := h x hx
      simp only [Bool.not_eq_true', Bool.or_eq_false_iff, decide_eq_false_iff_not, not_lt] at this
      exact this
    · intro h x hx
      have := h x hx
      simp only [Bool.not_eq_true', Bool.or_eq_false_iff, decide_eq_false_iff_not, not_lt]
      exact this

theorem builtin_fg_number_err (c : Cmd) (a0 a1 : String) (sys : Sys) (st : Shell)
    (hargv : c.argv = [a0, a1]) (hnum : is_number a1 = true) :
    (builtin_fg c sys st).err = st.err ++ [ERR_INVALID_JOB] ∨
    (builtin_fg c sys st).err = st.err := by
  rw [builtin_fg_number c a0 a1 sys st hargv hnum]
  split
  · left; rfl
  · right
    split
    · split
      · exact (jobs_move_to_end_frame _ _).1
      · exact (jobs_remove_at_frame _ _).1
    · rfl

theorem builtin_fg_not_number (c : Cmd) (sys : Sys) (st : Shell)
    (h : c.argc ≠ 2 ∨ ∀ a1, c.argv[1]? = some a1 → is_number a1 = false) :
    builtin_fg c sys st = { st with err := st.err ++ [ERR_INVALID_CMD] } := by
  unfold builtin_fg
  split
  · rename_i a0 a1 hargv
    rcases h with h | h
    · simp [Cmd.argc, hargv] at h
    · have := h a1 (by simp [hargv])
      simp [this]
  · rfl

/-- C7: `builtin_fg` writes `Error: invalid command` and leaves the job table
as it is exactly when it is not given exactly one argument or that argument
is not a non-empty string of the digits 0-9; `is_number` accepts exactly the
non-empty all-digit strings, so `abc`, `-1`, `+1`, `1a` and the empty string
are rejected. -/
theorem C7_fg_invalid_command_iff (c : Cmd) (sys : Sys) (st : Shell) :
    (((builtin_fg c sys st).err = st.err ++ [ERR_INVALID_CMD] ∧
        (builtin_fg c sys st).joblist = st.joblist ∧
        (builtin_fg c sys st).njobs = st.njobs) ↔
      (c.argc ≠ 2 ∨ ∀ a1, c.argv[1]? = some a1 → ¬ all_digits a1)) ∧
    (∀ s : String, is_number s = true ↔ all_digits s) ∧
    is_number "abc" = false ∧ is_number "-1" = false ∧ is_number "+1" = false ∧
    is_number "1a" = false ∧ is_number "" = false ∧
    builtin_fg ⟨["fg", "abc"], none, none, 0⟩ sys st =
      { st with err := st.err ++ [ERR_INVALID_CMD] } := by
  refine ⟨?_, is_number_iff, by decide, by decide, by decide, by decide, by decide, ?_⟩
  · constructor
    · intro hl
      by_contra hr
      push_neg at hr
      obtain ⟨hargc, a1, ha1, hd⟩ := hr
      have hnum : is_number a1 = true := (is_number_iff a1).mpr hd
      obtain ⟨a0, hargv⟩ : ∃ a0, c.argv = [a0, a1] := by
        unfold Cmd.argc at hargc
        match hc : c.argv, hargc, ha1 with
        | [x, y], _, h1 =>
          rw [hc] at ha1
          simp at ha1
          exact ⟨x, by rw [ha1]⟩
      rcases builtin_fg_number_err c a0 a1 sys st hargv hnum with he | he
      · rw [he] at hl
        have := List.append_cancel_left hl.1
        revert this; decide
      · rw [he] at hl
        have := congrArg List.length hl.1
        simp at this
    · intro hr
      have hr2 : c.argc ≠ 2 ∨ ∀ a1, c.argv[1]? = some a1 → is_number a1 = false := by
        rcases hr with h | h
        · exact Or.inl h
        · right
          intro a1 ha1
          cases hn : is_number a1 with
          | false => rfl
          | true => exact absurd ((is_number_iff a1).mp hn) (h a1 ha1)
      rw [builtin_fg_not_number c sys st hr2]
      exact ⟨rfl, rfl, rfl⟩
  · exact builtin_fg_not_number _ sys st (Or.inr (by
      intro a1 h
      simp at h
      subst h
      decide))

/-- C8: `exit` without argument: with at least one job in the table it writes
`Error: there are suspended jobs` and changes nothing else (the shell is not
terminated, the job table is as before); with an empty table it terminates
the process with status 0. -/
theorem C8_exit_refuses_with_jobs (c : Cmd) (st : Shell) (hargc : c.argc = 1) :
    (0 < st.njobs → builtin_exit c st = { st with err := st.err ++ [ERR_SUSP_JOBS] }) ∧
    (st.njobs = 0 → builtin_exit c st = { st with exited := some 0 }) := by
  constructor
  · intro h
    simp [builtin_exit, hargc, jobs_count, h]
  · intro h
    simp [builtin_exit, hargc, jobs_count, h]

theorem C8_exit_refuses_with_jobs_witness :
    (⟨["exit"], none, none, 0⟩ : Cmd).argc = 1 ∧
    builtin_exit ⟨["exit"], none, none, 0⟩ (table_of [⟨11, "A"⟩]) =
      { table_of [⟨11, "A"⟩] with err := (table_of [⟨11, "A"⟩]).err ++ [ERR_SUSP_JOBS] } ∧
    builtin_exit ⟨["exit"], none, none, 0⟩ Shell.init = { Shell.init with exited := some 0 } :=
  ⟨rfl,
   (C8_exit_refuses_with_jobs ⟨["exit"], none, none, 0⟩ (table_of [⟨11, "A"⟩]) rfl).1
     (by decide),
   (C8_exit_refuses_with_jobs ⟨["exit"], none, none, 0⟩ Shell.init rfl).2 rfl⟩

theorem strtol_of_digits (s : String) (h : all_digits s) :
    strtol s = min (numeric_value s : Int) LONG_MAX := by
  obtain ⟨hne, hall⟩ := h
  cases hs : s.toList with
  | nil => exact absurd hs hne
  | cons ch cs =>
    rw [hs] at hall
    have hch := hall ch (by simp)
    have hsp : is_space ch = false := by
      simp only [is_space, Bool.or_eq_false_iff, beq_eq_false_iff_ne]
      refine ⟨⟨⟨⟨⟨?_, ?_⟩, ?_⟩, ?_⟩, ?_⟩, ?_⟩ <;> (rintro rfl; exact absurd hch.1 (by decide))
    have hdrop : List.dropWhile is_space (ch :: cs) = ch :: cs := by
      simp [List.dropWhile, hsp]
    have htake : List.takeWhile Char.isDigit (ch :: cs) = ch :: cs := by
      rw [List.takeWhile_eq_self_iff]
      intro x hx
      have := hall x hx
      simp only [Char.isDigit, Bool.and_eq_true, decide_eq_true_eq]
      exact this
    have hval : (digits_value (ch :: cs) : Int) = (numeric_value s : Int) := by
      simp only [digits_value, numeric_value, htake, hs]
    unfold strtol
    rw [hs, hdrop]
    split
    · rename_i ds heq
      injection heq with h1 _
      subst h1
      exact absurd hch.1 (by decide)
    · rename_i ds heq
      injection heq with h1 _
      subst h1
      exact absurd hch.1 (by decide)
    · rw [hval]

/-- On a digit string whose value fits in an `int`, `atoi` is that value. -/
theorem atoi_of_digits (s : String) (h : all_digits s) (hint : numeric_value s ≤ 2147483647) :
    atoi s = (numeric_value s : Int) := by
  unfold atoi
  rw [strtol_of_digits s h]
  have : min (numeric_value s : Int) LONG_MAX = (numeric_value s : Int) := by
    apply min_eq_left
    unfold LONG_MAX
    omega
  rw [this]
  unfold toInt32
  omega

/-- On a digit string, `atoi` is the value, capped at `LONG_MAX` by `strtol`
and then converted to `int`. -/
theorem atoi_of_digit_string (s : String) (h : all_digits s) :
    atoi s = toInt32 (min (numeric_value s : Int) LONG_MAX) := by
  unfold atoi
  rw [strtol_of_digits s h]

/-- The range check of `builtin_fg`, in terms of the `int` that `atoi` hands
back: for an all-digit argument whose converted value is below 1 or above the
number of jobs, `builtin_fg` writes `Error: invalid job` and changes nothing
else. -/
theorem fg_invalid_job_of_converted_index (c : Cmd) (a0 a1 : String) (sys : Sys) (st : Shell)
    (hargv : c.argv = [a0, a1]) (hdigits : all_digits a1) (hn : st.njobs ≤ MAX_JOBS)
    (hk : atoi a1 < 1 ∨ (st.njobs : Int) < atoi a1) :
    builtin_fg c sys st = { st with err := st.err ++ [ERR_INVALID_JOB] } := by
  have hnum : is_number a1 = true := (is_number_iff a1).mpr hdigits
  have hM : MAX_JOBS = 100 := rfl
  have hneg : jobs_index_from_print_index (atoi a1) st < 0 := by
    have hr : -2147483648 ≤ atoi a1 ∧ atoi a1 ≤ 2147483647 := by
      unfold atoi toInt32; omega
    generalize atoi a1 = k at hk hr
    unfold jobs_index_from_print_index
    have hc : toInt32 (k - 1) < 0 ∨ toInt32 (k - 1) ≥ st.njobs := by
      unfold toInt32; omega
    simp only [if_pos hc]
    decide
  rw [builtin_fg_number c a0 a1 sys st hargv hnum, if_pos hneg]

/-- The range check of `builtin_fg` on values that fit in an `int`: for an
all-digit argument whose numeric value is 0, or is greater than the number of
jobs and at most 2147483647, `builtin_fg` writes `Error: invalid job` and
changes nothing else. -/
theorem fg_out_of_range_within_int (c : Cmd) (a0 a1 : String) (sys : Sys) (st : Shell)
    (hargv : c.argv = [a0, a1]) (hdigits : all_digits a1) (hn : st.njobs ≤ MAX_JOBS)
    (hval : numeric_value a1 = 0 ∨ st.njobs < numeric_value a1)
    (hint : numeric_value a1 ≤ 2147483647) :
    builtin_fg c sys st = { st with err := st.err ++ [ERR_INVALID_JOB] } := by
  apply fg_invalid_job_of_converted_index c a0 a1 sys st hargv hdigits hn
  rw [atoi_of_digits a1 hdigits hint]
  omega

/-- The range check of `builtin_fg` on values from 2147483648 to 4294967296:
the conversion to `int` makes them zero or negative, and `builtin_fg` writes
`Error: invalid job` and changes nothing else. -/
theorem fg_out_of_range_negative_int (c : Cmd) (a0 a1 : String) (sys : Sys) (st : Shell)
    (hargv : c.argv = [a0, a1]) (hdigits : all_digits a1) (hn : st.njobs ≤ MAX_JOBS)
    (hlo : 2147483648 ≤ numeric_value a1) (hhi : numeric_value a1 ≤ 4294967296) :
    builtin_fg c sys st = { st with err := st.err ++ [ERR_INVALID_JOB] } := by
  apply fg_invalid_job_of_converted_index c a0 a1 sys st hargv hdigits hn
  left
  rw [atoi_of_digit_string a1 hdigits]
  have : min (numeric_value a1 : Int) LONG_MAX = (numeric_value a1 : Int) := by
    apply min_eq_left
    unfold LONG_MAX
    omega
  rw [this]
  unfold toInt32
  omega

/-- C6 fails in the code: the range check of `builtin_fg` is made on the
`int` that `atoi` returns.  With one job in the table (process 500),
`fg 4294967297` has an all-digit argument whose value exceeds the job count,
but `atoi` hands back 1 after the conversion to `int`; no `Error: invalid
job` is written, the job's process is sent `SIGCONT` and waited for, and (the
process having exited) the job leaves the table. -/
theorem C6_fg_index_wraps_around :
    is_number "4294967297" = true ∧
    numeric_value "4294967297" = 4294967297 ∧
    (table_of [⟨500, "sleep 9"⟩]).njobs = 1 ∧
    atoi "4294967297" = 1 ∧
    (builtin_fg ⟨["fg", "4294967297"], none, none, 0⟩ (sys_of [.ok 500 (.exited 0)])
      (table_of [⟨500, "sleep 9"⟩])).err = [] ∧
    (builtin_fg ⟨["fg", "4294967297"], none, none, 0⟩ (sys_of [.ok 500 (.exited 0)])
      (table_of [⟨500, "sleep 9"⟩])).trace =
      [.kill 500 SIGCONT, .waitpid 500 (.ok 500 (.exited 0))] ∧
    (builtin_fg ⟨["fg", "4294967297"], none, none, 0⟩ (sys_of [.ok 500 (.exited 0)])
      (table_of [⟨500, "sleep 9"⟩])).jobs = [] := by
  refine ⟨by decide, by decide, by decide, by decide, by decide, by decide, by decide⟩

/-! ## The execution engine: helper lemmas -/

theorem extends_by_refl (st : Shell) : extends_by st st [] := by
  simp [extends_by]

theorem extends_by_trans (a b c : Shell) (e1 e2 : List SysCall) (h1 : extends_by a b e1)
    (h2 : extends_by b c e2) : extends_by a c (e1 ++ e2) := by
  obtain ⟨h11, h12, h13⟩ := h1
  obtain ⟨h21, h22, h23⟩ := h2
  refine ⟨h21.trans h11, h22.trans h12, ?_⟩
  rw [h23, h13, List.append_assoc]

theorem after_access_frame (c0 : Cmd) (sys : Sys) (st : Shell) :
    ∃ evs, extends_by st (after_access c0 sys st) evs ∧ (∀ e ∈ evs, is_stop e = false) ∧
      (after_access c0 sys st).err = st.err := by
  unfold after_access
  cases c0.infile with
  | none => exact ⟨[], extends_by_refl st, by simp, rfl⟩
  | some f =>
    refine ⟨[.access f (sys.access_ok f)], ⟨rfl, rfl, rfl⟩, ?_, rfl⟩
    intro e he
    simp at he
    subst he
    rfl

theorem pipe_loop_frame (sys : Sys) (count : Nat) : ∀ (i : Nat) (pipes : List (Nat × Nat))
    (st : Shell), ∃ evs, extends_by st (pipe_loop sys count i pipes st).2 evs ∧
      ∀ e ∈ evs, is_stop e = false := by
  induction count with
  | zero => intro i pipes st; exact ⟨[], extends_by_refl st, by simp⟩
  | succ count ih =>
    intro i pipes st
    simp only [pipe_loop]
    cases hp : sys.pipe_ret i with
    | none =>
      refine ⟨[.pipe none], ⟨rfl, rfl, rfl⟩, ?_⟩
      intro e he
      simp at he
      subst he
      rfl
    | some rw =>
      obtain ⟨r, w⟩ := rw
      obtain ⟨evs, hext, hns⟩ := ih (i + 1) (pipes ++ [(r, w)])
        { st with trace := st.trace ++ [.pipe (some (r, w))], fds := st.fds ++ [r, w] }
      refine ⟨[.pipe (some (r, w))] ++ evs,
        extends_by_trans st _ _ [.pipe (some (r, w))] evs ?_ hext, ?_⟩
      · exact ⟨rfl, rfl, rfl⟩
      intro e he
      simp only [List.mem_append, List.mem_singleton] at he
      rcases he with he | he
      · subst he; rfl
      · exact hns e he

theorem pipe_loop_ok (sys : Sys) (count : Nat) : ∀ (i : Nat) (pipes : List (Nat × Nat))
    (st : Shell), (∀ k, k < count → (sys.pipe_ret (i + k)).isSome = true) →
    ∃ pipes', (pipe_loop sys count i pipes st).1 = some pipes' := by
  induction count with
  | zero => intro i pipes st _; exact ⟨pipes, rfl⟩
  | succ count ih =>
    intro i pipes st h
    simp only [pipe_loop]
    have h0 := h 0 (by omega)
    cases hp : sys.pipe_ret i with
    | none => simp [hp] at h0
    | some rw =>
      obtain ⟨r, w⟩ := rw
      apply ih
      intro k hk
      have := h (k + 1) (by omega)
      rw [← this]
      congr 2
      omega

theorem fork_loop_frame (sys : Sys) (cs : List Cmd) : ∀ (idx : Nat) (pids : List Int)
    (st : Shell), ∃ evs, extends_by st (fork_loop sys cs idx pids st).2 evs ∧
      ∀ e ∈ evs, is_stop e = false := by
  induction cs with
  | nil => intro idx pids st; exact ⟨[], extends_by_refl st, by simp⟩
  | cons c cs ih =>
    intro idx pids st
    simp only [fork_loop]
    cases hf : sys.fork_ret idx with
    | none =>
      refine ⟨[.fork none], ⟨rfl, rfl, rfl⟩, ?_⟩
      intro e he
      simp at he
      subst he
      rfl
    | some pid =>
      obtain ⟨evs, hext, hns⟩ := ih (idx + 1) (pids ++ [pid])
        { st with trace := st.trace ++ [.fork (some pid)] }
      refine ⟨[.fork (some pid)] ++ evs,
        extends_by_trans st _ _ [.fork (some pid)] evs ?_ hext, ?_⟩
      · exact ⟨rfl, rfl, rfl⟩
      intro e he
      simp only [List.mem_append, List.mem_singleton] at he
      rcases he with he | he
      · subst he; rfl
      · exact hns e he

theorem fork_loop_ok (sys : Sys) (cs : List Cmd) : ∀ (idx : Nat) (pids : List Int)
    (st : Shell), (∀ k, k < cs.length → (sys.fork_ret (idx + k)).isSome = true) →
    ∃ pids', (fork_loop sys cs idx pids st).1 = some pids' := by
  induction cs with
  | nil => intro idx pids st _; exact ⟨pids, rfl⟩
  | cons c cs ih =>
    intro idx pids st h
    simp only [fork_loop]
    have h0 := h 0 (by simp)
    cases hf : sys.fork_ret idx with
    | none => simp [hf] at h0
    | some pid =>
      apply ih
      intro k hk
      have := h (k + 1) (by simp; omega)
      rw [← this]
      congr 2
      omega

theorem close_pipes_frame (pipes : List (Nat × Nat)) : ∀ (st : Shell),
    ∃ evs, extends_by st (close_pipes pipes st) evs ∧ ∀ e ∈ evs, is_stop e = false := by
  induction pipes with
  | nil => intro st; exact ⟨[], extends_by_refl st, by simp⟩
  | cons p ps ih =>
    intro st
    obtain ⟨evs, hext, hns⟩ := ih (close_fd p.2 (close_fd p.1 st))
    refine ⟨[.close p.1, .close p.2] ++ evs, extends_by_trans st _ _ _ _ ?_ hext, ?_⟩
    · refine ⟨rfl, rfl, ?_⟩
      simp [close_fd]
    · intro e he
      simp only [List.mem_append, List.mem_cons, List.mem_singleton, List.not_mem_nil,
        or_false] at he
      rcases he with (he | he) | he
      · subst he; rfl
      · subst he; rfl
      · exact hns e he

/-- The wait loop: the calls it adds to the trace are `waitpid(-1, ...)`
calls whose results come from the oracle (or the failure that follows its
last result), and `stopped_pid` is either left as it was, no stop having been
reported, or the process id of a reported stop. -/
theorem wait_loop_spec (n : Nat) (ws : List WaitRet) : ∀ (sp0 : Int) (done : Nat)
    (st : Shell), ∃ evs, extends_by st (wait_loop n ws sp0 done st).2 evs ∧
      (∀ e ∈ evs, ∃ r, e = .waitpid (-1) r ∧ (r = .failed ∨ r ∈ ws)) ∧
      (((wait_loop n ws sp0 done st).1 = sp0 ∧ ∀ e ∈ evs, is_stop e = false) ∨
       (∃ w status, WIFSTOPPED status = true ∧ SysCall.waitpid (-1) (.ok w status) ∈ evs ∧
          (wait_loop n ws sp0 done st).1 = w)) := by
  induction ws with
  | nil =>
    intro sp0 done st
    simp only [wait_loop]
    split
    · refine ⟨[.waitpid (-1) .failed], ⟨rfl, rfl, rfl⟩, ?_, Or.inl ⟨rfl, ?_⟩⟩
      · intro e he
        simp at he
        exact ⟨.failed, he, Or.inl rfl⟩
      · intro e he
        simp at he
        subst he
        rfl
    · exact ⟨[], extends_by_refl st, by simp, Or.inl ⟨rfl, by simp⟩⟩
  | cons r rs ih =>
    intro sp0 done st
    simp only [wait_loop]
    split
    · have hstep : ∀ (sp1 : Int) (done1 : Nat),
          (is_stop (.waitpid (-1) r) = false ∧ sp1 = sp0 ∨
            ∃ status, r = .ok sp1 status ∧ WIFSTOPPED status = true) →
          ∃ evs, extends_by st (wait_loop n rs sp1 done1
              { st with trace := st.trace ++ [.waitpid (-1) r] }).2 evs ∧
            (∀ e ∈ evs, ∃ r', e = .waitpid (-1) r' ∧ (r' = .failed ∨ r' ∈ r :: rs)) ∧
            (((wait_loop n rs sp1 done1
                { st with trace := st.trace ++ [.waitpid (-1) r] }).1 = sp0 ∧
                ∀ e ∈ evs, is_stop e = false) ∨
             (∃ w status, WIFSTOPPED status = true ∧
                SysCall.waitpid (-1) (.ok w status) ∈ evs ∧
                (wait_loop n rs sp1 done1
                  { st with trace := st.trace ++ [.waitpid (-1) r] }).1 = w)) := by
        intro sp1 done1 hr
        obtain ⟨evs, hext, hall, hres⟩ := ih sp1 done1
          { st with trace := st.trace ++ [.waitpid (-1) r] }
        refine ⟨[.waitpid (-1) r] ++ evs,
          extends_by_trans st _ _ [.waitpid (-1) r] evs ?_ hext, ?_, ?_⟩
        · exact ⟨rfl, rfl, rfl⟩
        · intro e he
          simp only [List.mem_append, List.mem_singleton] at he
          rcases he with he | he
          · exact ⟨r, he, Or.inr (by simp)⟩
          · obtain ⟨r', hr1, hr2⟩ := hall e he
            refine ⟨r', hr1, ?_⟩
            rcases hr2 with h | h
            · exact Or.inl h
            · exact Or.inr (List.mem_cons_of_mem _ h)
        · rcases hres with ⟨h1, h2⟩ | ⟨w, status, hw1, hw2, hw3⟩
          · rcases hr with ⟨hns, hsp⟩ | ⟨status, hrs, hst⟩
            · left
              refine ⟨by rw [h1, hsp], ?_⟩
              intro e he
              simp only [List.mem_append, List.mem_singleton] at he
              rcases he with he | he
              · subst he; exact hns
              · exact h2 e he
            · right
              refine ⟨sp1, status, hst, ?_, h1⟩
              simp [hrs]
          · right
            exact ⟨w, status, hw1, by simp [hw2], hw3⟩
      cases r with
      | eintr => exact hstep sp0 done (Or.inl ⟨rfl, rfl⟩)
      | failed =>
        refine ⟨[.waitpid (-1) .failed], ⟨rfl, rfl, rfl⟩, ?_, Or.inl ⟨rfl, ?_⟩⟩
        · intro e he
          simp at he
          exact ⟨.failed, he, Or.inl rfl⟩
        · intro e he
          simp at he
          subst he
          rfl
      | ok w status =>
        by_cases hs : WIFSTOPPED status = true
        · simp only [hs, if_true]
          exact hstep w (done + 1) (Or.inr ⟨status, rfl, hs⟩)
        · have hns : is_stop (.waitpid (-1) (.ok w status)) = false := by
            simpa [is_stop] using hs
          simp only [hs, if_false, Bool.false_eq_true]
          split
          · exact hstep sp0 (done + 1) (Or.inl ⟨hns, rfl⟩)
          · exact hstep sp0 done (Or.inl ⟨hns, rfl⟩)
    · exact ⟨[], extends_by_refl st, by simp, Or.inl ⟨rfl, by simp⟩⟩

theorem jobs_push_frame (pid : Int) (cmdline : String) (st : Shell) :
    (jobs_push pid cmdline st).trace = st.trace ∧ (jobs_push pid cmdline st).err = st.err := by
  unfold jobs_push
  split <;> simp

theorem new_calls_of_extends (st st' : Shell) (evs : List SysCall)
    (h : st'.trace = st.trace ++ evs) : new_calls st st' = evs := by
  simp [new_calls, h]

/-- The value of `run_pipeline` when the input file (if any) is readable and
every `pipe` and `fork` call succeeds: the wait loop is reached in a state
that differs from the initial one by calls other than reported stops. -/
theorem run_pipeline_spawned (head : List Cmd) (raw : String) (sys : Sys) (st : Shell)
    (hne : head ≠ [])
    (haccess : ∀ f, head.head?.bind Cmd.infile = some f → sys.access_ok f = true)
    (hpipes : ∀ i, i + 1 < head.length → (sys.pipe_ret i).isSome = true)
    (hforks : ∀ idx, idx < head.length → (sys.fork_ret idx).isSome = true) :
    ∃ st3 pre, extends_by st st3 pre ∧ (∀ e ∈ pre, is_stop e = false) ∧
      run_pipeline head raw sys st =
        if head.length = 1 ∧ (wait_loop head.length sys.waits 0 0 st3).1 > 0 then
          (1, jobs_push (wait_loop head.length sys.waits 0 0 st3).1 raw
                (wait_loop head.length sys.waits 0 0 st3).2)
        else (0, (wait_loop head.length sys.waits 0 0 st3).2) := by
  cases head with
  | nil => exact absurd rfl hne
  | cons c0 rest =>
    obtain ⟨e0, hext0, hns0, _⟩ := after_access_frame c0 sys st
    obtain ⟨pipes, hpl⟩ := pipe_loop_ok sys ((c0 :: rest).length - 1) 0 []
      (after_access c0 sys st) (by
        intro k hk
        rw [Nat.zero_add]
        exact hpipes k (by simp at hk ⊢; omega))
    obtain ⟨e1, hext1, hns1⟩ := pipe_loop_frame sys ((c0 :: rest).length - 1) 0 []
      (after_access c0 sys st)
    obtain ⟨pids, hfl⟩ := fork_loop_ok sys (c0 :: rest) 0 []
      (pipe_loop sys ((c0 :: rest).length - 1) 0 [] (after_access c0 sys st)).2 (by
        intro k hk
        rw [Nat.zero_add]
        exact hforks k hk)
    obtain ⟨e2, hext2, hns2⟩ := fork_loop_frame sys (c0 :: rest) 0 []
      (pipe_loop sys ((c0 :: rest).length - 1) 0 [] (after_access c0 sys st)).2
    obtain ⟨e3, hext3, hns3⟩ := close_pipes_frame pipes
      (fork_loop sys (c0 :: rest) 0 []
        (pipe_loop sys ((c0 :: rest).length - 1) 0 [] (after_access c0 sys st)).2).2
    refine ⟨_, e0 ++ e1 ++ e2 ++ e3,
      extends_by_trans _ _ _ _ _
        (extends_by_trans _ _ _ _ _ (extends_by_trans _ _ _ _ _ hext0 hext1) hext2) hext3,
      ?_, ?_⟩
    · intro e he
      simp only [List.mem_append] at he
      rcases he with ((he | he) | he) | he
      · exact hns0 e he
      · exact hns1 e he
      · exact hns2 e he
      · exact hns3 e he
    · have hacc : ¬ (c0.infile.isSome = true ∧ ¬ sys.access_ok (c0.infile.getD "") = true) := by
        rintro ⟨h1, h2⟩
        cases hi : c0.infile with
        | none => simp [hi] at h1
        | some f =>
          apply h2
          have := haccess f (by simp [hi])
          simpa [hi] using this
      have hpl2 : pipe_loop sys ((c0 :: rest).length - 1) 0 [] (after_access c0 sys st) =
          (some pipes, (pipe_loop sys ((c0 :: rest).length - 1) 0 []
            (after_access c0 sys st)).2) := by
        rw [← hpl]
      have hfl2 : fork_loop sys (c0 :: rest) 0 []
            (pipe_loop sys ((c0 :: rest).length - 1) 0 [] (after_access c0 sys st)).2 =
          (some pids, (fork_loop sys (c0 :: rest) 0 []
            (pipe_loop sys ((c0 :: rest).length - 1) 0 [] (after_access c0 sys st)).2).2) := by
        rw [← hfl]
      simp only [run_pipeline]
      rw [if_neg hacc]
      rw [hpl2]
      simp only []
      rw [hfl2]

/-- Whatever the system answers, `run_pipeline` either returns 0 in a state
with the job table it started with, or returns 1 after a call of
`jobs_push` on such a state. -/
theorem run_pipeline_shape (head : List Cmd) (raw : String) (sys : Sys) (st : Shell) :
    ∃ st4 evs, extends_by st st4 evs ∧
      (run_pipeline head raw sys st = (0, st4) ∨
       ∃ sp, run_pipeline head raw sys st = (1, jobs_push sp raw st4)) := by
  cases head with
  | nil => exact ⟨st, [], extends_by_refl st, Or.inl rfl⟩
  | cons c0 rest =>
    obtain ⟨e0, hext0, _, _⟩ := after_access_frame c0 sys st
    simp only [run_pipeline]
    split
    · refine ⟨_, e0, ?_, Or.inl rfl⟩
      exact ⟨hext0.1, hext0.2.1, hext0.2.2⟩
    · obtain ⟨e1, hext1, _⟩ := pipe_loop_frame sys ((c0 :: rest).length - 1) 0 []
        (after_access c0 sys st)
      have h01 := extends_by_trans _ _ _ _ _ hext0 hext1
      rcases hpl : pipe_loop sys ((c0 :: rest).length - 1) 0 [] (after_access c0 sys st)
        with ⟨_ | pipes, st1⟩
      · rw [hpl] at h01
        exact ⟨st1, _, h01, Or.inl rfl⟩
      · rw [hpl] at h01
        simp only []
        obtain ⟨e2, hext2, _⟩ := fork_loop_frame sys (c0 :: rest) 0 [] st1
        have h02 := extends_by_trans _ _ _ _ _ h01 hext2
        rcases hfl : fork_loop sys (c0 :: rest) 0 [] st1 with ⟨_ | pids, st2⟩
        · rw [hfl] at h02
          exact ⟨st2, _, h02, Or.inl rfl⟩
        · rw [hfl] at h02
          simp only []
          obtain ⟨e3, hext3, _⟩ := close_pipes_frame pipes st2
          obtain ⟨e4, hext4, _, _⟩ := wait_loop_spec (c0 :: rest).length sys.waits 0 0
            (close_pipes pipes st2)
          have h04 := extends_by_trans _ _ _ _ _ (extends_by_trans _ _ _ _ _ h02 hext3) hext4
          split
          · exact ⟨_, _, h04, Or.inr ⟨_, rfl⟩⟩
          · exact ⟨_, _, h04, Or.inl rfl⟩

/-! ## The execution engine: claims -/

theorem wait_loop_done (n : Nat) (ws : List WaitRet) (sp : Int) (done : Nat) (st : Shell)
    (h : n ≤ done) : wait_loop n ws sp done st = (sp, st) := by
  cases ws with
  | nil => simp only [wait_loop]; rw [if_neg (by omega)]
  | cons r rs => simp only [wait_loop]; rw [if_neg (by omega)]

/-- The wait loop of a single-stage pipeline leaves in `stopped_pid` the
process id that the first settling `waitpid` result reports stopped. -/
theorem wait_loop_single (ws : List WaitRet) :
    ∀ st : Shell, (wait_loop 1 ws 0 0 st).1 = reported_stop ws := by
  induction ws with
  | nil =>
    intro st
    simp [wait_loop, reported_stop, first_report]
  | cons r rs ih =>
    intro st
    cases r with
    | eintr =>
      simp only [wait_loop, Nat.lt_one_iff, if_true]
      rw [ih]
      simp [reported_stop, first_report]
    | failed =>
      simp [wait_loop, reported_stop, first_report]
    | ok w status =>
      simp only [wait_loop, Nat.lt_one_iff, if_true]
      cases status with
      | stopped sig =>
        simp only [WIFSTOPPED, if_true]
        rw [wait_loop_done 1 rs w 1 _ (by omega)]
        simp [reported_stop, first_report, WIFSTOPPED]
      | exited code =>
        simp only [WIFSTOPPED, WIFEXITED, Bool.true_or, if_true, Bool.false_eq_true, if_false]
        rw [wait_loop_done 1 rs 0 1 _ (by omega)]
        simp [reported_stop, first_report, WIFSTOPPED, WIFEXITED]
      | signaled sig =>
        simp only [WIFSTOPPED, WIFEXITED, WIFSIGNALED, Bool.or_true, if_true,
          Bool.false_eq_true, if_false]
        rw [wait_loop_done 1 rs 0 1 _ (by omega)]
        simp [reported_stop, first_report, WIFSTOPPED, WIFEXITED, WIFSIGNALED]
      | other =>
        simp only [WIFSTOPPED, WIFEXITED, WIFSIGNALED, Bool.or_self, Bool.false_eq_true,
          if_false]
        rw [ih]
        simp [reported_stop, first_report, WIFSTOPPED, WIFEXITED, WIFSIGNALED]

/-- What `run_pipeline` records, in terms of what the system reports: when
all stages are spawned and the table is below capacity, a pipeline of exactly
one stage whose first settling `waitpid` result is a stop of a process with a
positive id makes `run_pipeline` return 1 and append exactly one job, which
holds that reported process id and the unmodified line text; in every other
case (the first settling result is an exit, a kill or a failure, or the
pipeline has two or more stages) it returns 0 and the job table is
unchanged. -/
theorem run_pipeline_records_reported_stop (head : List Cmd) (raw : String) (sys : Sys)
    (st : Shell) (hne : head ≠ []) (hcap : st.njobs < MAX_JOBS)
    (hlen : st.joblist.length = MAX_JOBS)
    (haccess : ∀ f, head.head?.bind Cmd.infile = some f → sys.access_ok f = true)
    (hpipes : ∀ i, i + 1 < head.length → (sys.pipe_ret i).isSome = true)
    (hforks : ∀ idx, idx < head.length → (sys.fork_ret idx).isSome = true) :
    ((head.length = 1 ∧ 0 < reported_stop sys.waits) →
      (run_pipeline head raw sys st).1 = 1 ∧
      (run_pipeline head raw sys st).2.jobs =
        st.jobs ++ [{ pid := reported_stop sys.waits, cmdline := raw }] ∧
      (run_pipeline head raw sys st).2.njobs = st.njobs + 1) ∧
    (¬ (head.length = 1 ∧ 0 < reported_stop sys.waits) →
      (run_pipeline head raw sys st).1 = 0 ∧
      (run_pipeline head raw sys st).2.joblist = st.joblist ∧
      (run_pipeline head raw sys st).2.njobs = st.njobs) := by
  obtain ⟨st3, pre, hext, _, heq⟩ := run_pipeline_spawned head raw sys st hne haccess hpipes
    hforks
  obtain ⟨wevs, hextw, _, _⟩ := wait_loop_spec head.length sys.waits 0 0 st3
  have hext4 := extends_by_trans _ _ _ _ _ hext hextw
  constructor
  · rintro ⟨hn, hpos⟩
    have hsp : (wait_loop head.length sys.waits 0 0 st3).1 = reported_stop sys.waits := by
      rw [hn]
      exact wait_loop_single sys.waits st3
    have hcond : head.length = 1 ∧ (wait_loop head.length sys.waits 0 0 st3).1 > 0 := by
      refine ⟨hn, ?_⟩
      rw [hsp]
      exact hpos
    rw [if_pos hcond] at heq
    rw [heq, hsp]
    have hj := jobs_push_jobs (reported_stop sys.waits) raw
      (wait_loop head.length sys.waits 0 0 st3).2
      (by rw [hext4.2.1]; exact hcap) (by rw [hext4.2.1, hext4.1, hlen]; exact hcap)
    refine ⟨rfl, ?_, ?_⟩
    · rw [hj.1]
      simp only [Shell.jobs, hext4.1, hext4.2.1]
    · rw [hj.2, hext4.2.1]
  · intro hno
    have hcond : ¬ (head.length = 1 ∧ (wait_loop head.length sys.waits 0 0 st3).1 > 0) := by
      rintro ⟨hn, hpos⟩
      apply hno
      refine ⟨hn, ?_⟩
      rw [hn, wait_loop_single sys.waits st3] at hpos
      exact hpos
    rw [if_neg hcond] at heq
    rw [heq]
    exact ⟨rfl, hext4.1, hext4.2.1⟩

/-- The stop of the pipeline's own process is recorded: when the single stage
is spawned as process `pid0` and the first settling `waitpid` result reports
`pid0` stopped, the job appended holds `pid0` and the line text; when that
result reports `pid0` exited or killed, the job table is unchanged. -/
theorem run_pipeline_own_process (head : List Cmd) (raw : String) (sys : Sys)
    (st : Shell) (hone : head.length = 1) (hcap : st.njobs < MAX_JOBS)
    (hlen : st.joblist.length = MAX_JOBS)
    (haccess : ∀ f, head.head?.bind Cmd.infile = some f → sys.access_ok f = true)
    (pid0 : Int) (hpid0 : sys.fork_ret 0 = some pid0) (hpos : 0 < pid0) (status : WStatus)
    (hfirst : first_report sys.waits = some (.ok pid0 status)) :
    (WIFSTOPPED status = true →
      (run_pipeline head raw sys st).2.jobs = st.jobs ++ [{ pid := pid0, cmdline := raw }] ∧
      (run_pipeline head raw sys st).2.njobs = st.njobs + 1) ∧
    (WIFSTOPPED status = false →
      (run_pipeline head raw sys st).2.joblist = st.joblist ∧
      (run_pipeline head raw sys st).2.njobs = st.njobs) := by
  have hne : head ≠ [] := by
    intro h
    rw [h] at hone
    cases hone
  have hrec := run_pipeline_records_reported_stop head raw sys st hne hcap hlen haccess
    (by intro i hi; omega)
    (by
      intro idx hidx
      have h0 : idx = 0 := by omega
      rw [h0, hpid0]
      rfl)
  constructor
  · intro hs
    have hr : reported_stop sys.waits = pid0 := by
      simp [reported_stop, hfirst, hs]
    have := hrec.1 ⟨hone, by rw [hr]; exact hpos⟩
    rw [hr] at this
    exact this.2
  · intro hs
    have hr : reported_stop sys.waits = 0 := by
      simp [reported_stop, hfirst, hs]
    have := hrec.2 (by rw [hr]; rintro ⟨_, h⟩; exact absurd h (by decide))
    exact this.2

/-- C9 fails in the code: the wait loop of `run_pipeline` waits for any child
(`waitpid(-1, ...)`) and never compares the reported process id with the ids
it stored in `pids`.  The single stage of the pipeline is spawned as process
100 and the job table is empty, but the first `waitpid(-1, ...)` call reports
another child of the shell, process 5, as stopped.  Process 100 was never
observed stopped, yet `run_pipeline` returns 1 and a job is appended, and it
holds process id 5 with the text of this command line. -/
theorem C9_stop_of_other_child_is_recorded :
    (sys_of [.ok 5 (.stopped 20)]).fork_ret 0 = some 100 ∧
    [(⟨["kill", "-TSTP", "5"], none, none, 0⟩ : Cmd)].length = 1 ∧
    Shell.init.njobs < MAX_JOBS ∧
    observed_stopped 100 Shell.init
      (run_pipeline [⟨["kill", "-TSTP", "5"], none, none, 0⟩] "kill -TSTP 5"
        (sys_of [.ok 5 (.stopped 20)]) Shell.init).2 = false ∧
    (run_pipeline [⟨["kill", "-TSTP", "5"], none, none, 0⟩] "kill -TSTP 5"
      (sys_of [.ok 5 (.stopped 20)]) Shell.init).2.trace =
      [.fork (some 100), .waitpid (-1) (.ok 5 (.stopped 20))] ∧
    (run_pipeline [⟨["kill", "-TSTP", "5"], none, none, 0⟩] "kill -TSTP 5"
      (sys_of [.ok 5 (.stopped 20)]) Shell.init).2.jobs = [⟨5, "kill -TSTP 5"⟩] ∧
    Shell.init.jobs = [] ∧
    (run_pipeline [⟨["kill", "-TSTP", "5"], none, none, 0⟩] "kill -TSTP 5"
      (sys_of [.ok 5 (.stopped 20)]) Shell.init).1 = 1 := by
  refine ⟨by decide, by decide, by decide, by decide, by decide, by decide, by decide,
    by decide⟩

/-- C10, at the failing input: with 100 jobs in the table, a single-stage
pipeline whose process is reported stopped makes `run_pipeline` return 1
although `jobs_push` drops the job: the table is exactly as before. -/
theorem C10_returns_one_at_full_capacity :
    (table_of (List.replicate 100 ⟨1, "x"⟩)).njobs = MAX_JOBS ∧
    (run_pipeline [⟨["sleep", "9"], none, none, 0⟩] "sleep 9"
      (sys_of [.ok 100 (.stopped 20)]) (table_of (List.replicate 100 ⟨1, "x"⟩))).1 = 1 ∧
    (run_pipeline [⟨["sleep", "9"], none, none, 0⟩] "sleep 9"
      (sys_of [.ok 100 (.stopped 20)]) (table_of (List.replicate 100 ⟨1, "x"⟩))).2.joblist =
      (table_of (List.replicate 100 ⟨1, "x"⟩)).joblist ∧
    (run_pipeline [⟨["sleep", "9"], none, none, 0⟩] "sleep 9"
      (sys_of [.ok 100 (.stopped 20)]) (table_of (List.replicate 100 ⟨1, "x"⟩))).2.njobs =
      (table_of (List.replicate 100 ⟨1, "x"⟩)).njobs ∧
    observed_stopped 100 (table_of (List.replicate 100 ⟨1, "x"⟩))
      (run_pipeline [⟨["sleep", "9"], none, none, 0⟩] "sleep 9"
        (sys_of [.ok 100 (.stopped 20)]) (table_of (List.replicate 100 ⟨1, "x"⟩))).2 = true := by
  refine ⟨by decide, by decide, by decide, by decide, by decide⟩

/-- The part of C10 that holds on the code: for a job table below capacity
and whatever the system answers, `run_pipeline` returns 1 exactly when it
has appended one job to the table and 0 exactly when the table is unchanged. -/
theorem run_pipeline_return_below_capacity (head : List Cmd) (raw : String) (sys : Sys)
    (st : Shell) (hcap : st.njobs < MAX_JOBS) (hlen : st.joblist.length = MAX_JOBS) :
    ((run_pipeline head raw sys st).1 = 1 ↔
      ∃ job, (run_pipeline head raw sys st).2.jobs = st.jobs ++ [job] ∧
        (run_pipeline head raw sys st).2.njobs = st.njobs + 1) ∧
    ((run_pipeline head raw sys st).1 = 0 ↔
      (run_pipeline head raw sys st).2.joblist = st.joblist ∧
        (run_pipeline head raw sys st).2.njobs = st.njobs) ∧
    ((run_pipeline head raw sys st).1 = 0 ∨ (run_pipeline head raw sys st).1 = 1) := by
  obtain ⟨st4, evs, hext, hres⟩ := run_pipeline_shape head raw sys st
  rcases hres with h | ⟨sp, h⟩
  · rw [h]
    have h01 : ¬ ((0 : Int) = 1) := by decide
    refine ⟨⟨fun h1 => absurd h1 h01, ?_⟩,
      ⟨fun _ => ⟨hext.1, hext.2.1⟩, fun _ => rfl⟩, Or.inl rfl⟩
    rintro ⟨job, _, hn⟩
    simp only [] at hn
    rw [hext.2.1] at hn
    omega
  · rw [h]
    have hj := jobs_push_jobs sp raw st4 (by rw [hext.2.1]; exact hcap)
      (by rw [hext.2.1, hext.1, hlen]; exact hcap)
    have h10 : ¬ ((1 : Int) = 0) := by decide
    refine ⟨⟨fun _ => ⟨{ pid := sp, cmdline := raw }, ?_, ?_⟩, fun _ => rfl⟩,
      ⟨fun h1 => absurd h1 h10, ?_⟩,
      Or.inr rfl⟩
    · rw [hj.1]
      simp only [Shell.jobs, hext.1, hext.2.1]
    · rw [hj.2, hext.2.1]
    · rintro ⟨_, hn⟩
      simp only [] at hn
      rw [hj.2, hext.2.1] at hn
      omega

/-! ## The job table: capacity and listing -/

theorem shift_down_length (pos njobs : Nat) (jl : List Job) :
    (shift_down pos njobs jl).length = jl.length :=
  for_loop_shift_length _ _ _

theorem jobs_push_table_ok (pid : Int) (cmdline : String) (st : Shell) (h : table_ok st) :
    table_ok (jobs_push pid cmdline st) := by
  obtain ⟨h1, h2⟩ := h
  unfold jobs_push
  split
  · exact ⟨h1, h2⟩
  · refine ⟨by simpa using h1, ?_⟩
    show st.njobs + 1 ≤ MAX_JOBS
    omega

theorem jobs_remove_at_table_ok (pos : Int) (st : Shell) (h : table_ok st) :
    table_ok (jobs_remove_at pos st) := by
  obtain ⟨h1, h2⟩ := h
  unfold jobs_remove_at
  split
  · exact ⟨h1, h2⟩
  · refine ⟨by simpa [shift_down_length] using h1, ?_⟩
    show st.njobs - 1 ≤ MAX_JOBS
    omega

theorem jobs_move_to_end_table_ok (pos : Int) (st : Shell) (h : table_ok st) :
    table_ok (jobs_move_to_end pos st) := by
  obtain ⟨h1, h2⟩ := h
  unfold jobs_move_to_end
  split
  · exact ⟨h1, h2⟩
  · exact ⟨by simpa [shift_down_length] using h1, h2⟩

/-- What the printing loop of `jobs_print` does to a state: one line per
index is added to the standard output, nothing else changes. -/
theorem jobs_print_loop (count : Nat) : ∀ (a : Nat) (st : Shell),
    for_loop (fun i s =>
        { s with out := s.out ++
            ["[" ++ toString (i + 1) ++ "] " ++ (s.joblist.getD i default).cmdline ++ "\n"] })
      count a st =
    { st with out := st.out ++ (List.range' a count).map (fun i =>
        "[" ++ toString (i + 1) ++ "] " ++ (st.joblist.getD i default).cmdline ++ "\n") } := by
  induction count with
  | zero => intro a st; simp [for_loop]
  | succ count ih =>
    intro a st
    simp only [for_loop]
    rw [ih]
    simp [List.range'_succ]

theorem jobs_print_eq (st : Shell) :
    jobs_print st =
      { st with out := st.out ++ (List.range' 0 st.njobs).map (fun i =>
          "[" ++ toString (i + 1) ++ "] " ++ (st.joblist.getD i default).cmdline ++ "\n") } :=
  jobs_print_loop st.njobs 0 st

theorem builtin_fg_table_ok (c : Cmd) (sys : Sys) (st : Shell) (h : table_ok st) :
    table_ok (builtin_fg c sys st) := by
  unfold builtin_fg
  split
  · split
    · exact h
    · simp only []
      split
      · exact h
      · split
        · split
          · exact jobs_move_to_end_table_ok _ _ h
          · exact jobs_remove_at_table_ok _ _ h
        · exact h
  · exact h

theorem run_builtin_table_ok (c : Cmd) (sys : Sys) (st : Shell) (h : table_ok st) :
    table_ok (run_builtin c sys st) := by
  unfold run_builtin
  split
  · exact h
  · split
    · unfold builtin_cd
      split
      · simp only []
        split <;> exact h
      · exact h
    · split
      · unfold builtin_exit
        split
        · exact h
        · split <;> exact h
      · split
        · unfold builtin_jobs
          split
          · exact h
          · rw [jobs_print_eq]; exact h
        · split
          · exact builtin_fg_table_ok c sys st h
          · exact h

theorem run_pipeline_table_ok (head : List Cmd) (raw : String) (sys : Sys) (st : Shell)
    (h : table_ok st) : table_ok (run_pipeline head raw sys st).2 := by
  obtain ⟨st4, evs, hext, hres⟩ := run_pipeline_shape head raw sys st
  have h4 : table_ok st4 := by
    unfold table_ok
    rw [hext.1, hext.2.1]
    exact h
  rcases hres with hr | ⟨sp, hr⟩
  · rw [hr]; exact h4
  · rw [hr]; exact jobs_push_table_ok sp raw st4 h4

theorem main_body_table_ok (toks : List String) (raw : String) (sys : Sys) (st : Shell)
    (h : table_ok st) : table_ok (main_body toks raw sys st) := by
  unfold main_body
  split
  · exact h
  · exact h
  · simp only []
    split
    · exact run_builtin_table_ok _ sys _ h
    · exact h
    · exact run_pipeline_table_ok _ raw sys _ h

/-- C11: with fewer than 100 jobs in the table, `jobs_push(pid, cmdline)`
appends one job, holding that process id and that text, after the existing
jobs, which stay as they are and in the same order; with exactly 100 jobs it
changes nothing.  Hence it keeps the job count at 100 or below, and so does
every iteration of the loop of `main`. -/
theorem C11_jobs_push_bounded (pid : Int) (cmdline : String) (st : Shell)
    (hlen : st.joblist.length = MAX_JOBS) :
    (st.njobs < MAX_JOBS →
      (jobs_push pid cmdline st).jobs = st.jobs ++ [{ pid := pid, cmdline := cmdline }] ∧
      (jobs_push pid cmdline st).njobs = st.njobs + 1) ∧
    (st.njobs = MAX_JOBS → jobs_push pid cmdline st = st) ∧
    (st.njobs ≤ MAX_JOBS → (jobs_push pid cmdline st).njobs ≤ MAX_JOBS) ∧
    (st.njobs ≤ MAX_JOBS → ∀ (input : String) (sys : Sys),
      (main_iter input sys st).njobs ≤ MAX_JOBS ∧
      (main_iter input sys st).joblist.length = MAX_JOBS) := by
  refine ⟨?_, ?_, ?_, ?_⟩
  · intro h
    exact jobs_push_jobs pid cmdline st h (by omega)
  · intro h
    simp [jobs_push, h]
  · intro h
    exact (jobs_push_table_ok pid cmdline st ⟨hlen, h⟩).2
  · intro h input sys
    have key : ∀ line : String,
        table_ok (if is_blank line then st else main_body (tokenize line) line sys st) := by
      intro line
      split
      · exact ⟨hlen, h⟩
      · exact main_body_table_ok _ _ sys st ⟨hlen, h⟩
    have hok : table_ok (main_iter input sys st) := key _
    exact ⟨hok.2, hok.1⟩

theorem C11_jobs_push_bounded_witness :
    (jobs_push 13 "C" (table_of [⟨11, "A"⟩, ⟨12, "B"⟩])).jobs =
      (table_of [⟨11, "A"⟩, ⟨12, "B"⟩]).jobs ++ [{ pid := 13, cmdline := "C" }] ∧
    jobs_push 13 "C" (table_of (List.replicate 100 ⟨1, "x"⟩)) =
      table_of (List.replicate 100 ⟨1, "x"⟩) :=
  ⟨((C11_jobs_push_bounded 13 "C" (table_of [⟨11, "A"⟩, ⟨12, "B"⟩]) (by decide)).1
      (by decide)).1,
   (C11_jobs_push_bounded 13 "C" (table_of (List.replicate 100 ⟨1, "x"⟩))
      (by simp [table_of, Shell.init, MAX_JOBS])).2.1 (by simp [table_of, MAX_JOBS])⟩

/-- C12: for a job table of `count` jobs and `1 <= i <= count`, the `i`-th
line that `jobs_print` writes is `[i] ` followed by the command-line text of
the job at table position `i-1` (and the newline), `jobs_print` writes
`count` lines in all, and `jobs_index_from_print_index(i)` is that same
position `i-1`. -/
theorem C12_listing_index_is_fg_index (st : Shell) (i : Nat) (h1 : 1 ≤ i) (h2 : i ≤ st.njobs)
    (hn : st.njobs ≤ MAX_JOBS) (hlen : st.joblist.length = MAX_JOBS) :
    st.jobs[i - 1]? = some (st.joblist.getD (i - 1) default) ∧
    (new_out st (jobs_print st))[i - 1]? =
      some ("[" ++ toString i ++ "] " ++ (st.joblist.getD (i - 1) default).cmdline ++ "\n") ∧
    (new_out st (jobs_print st)).length = st.njobs ∧
    jobs_index_from_print_index (i : Int) st = ((i - 1 : Nat) : Int) := by
  refine ⟨?_, ?_, ?_, jobs_index_in_range i st h1 h2 hn⟩
  · simp only [Shell.jobs]
    rw [List.getElem?_take, if_pos (by omega), List.getD_eq_getElem?_getD,
      List.getElem?_eq_getElem (by omega)]
    rfl
  · rw [jobs_print_eq]
    simp only [new_out, List.drop_left]
    rw [List.getElem?_map, List.getElem?_range' _ 1 (by omega)]
    simp only [Option.map_some']
    rw [show 0 + 1 * (i - 1) = i - 1 by omega, show i - 1 + 1 = i by omega]
  · rw [jobs_print_eq]
    simp [new_out]

theorem C12_listing_index_is_fg_index_witness :
    (new_out (table_of [⟨11, "sleep 5"⟩, ⟨12, "cat"⟩])
        (jobs_print (table_of [⟨11, "sleep 5"⟩, ⟨12, "cat"⟩])))[2 - 1]? =
      some ("[" ++ toString 2 ++ "] " ++
        ((table_of [⟨11, "sleep 5"⟩, ⟨12, "cat"⟩]).joblist.getD (2 - 1) default).cmdline ++
        "\n") ∧
    jobs_index_from_print_index ((2 : Nat) : Int) (table_of [⟨11, "sleep 5"⟩, ⟨12, "cat"⟩]) =
      ((2 - 1 : Nat) : Int) :=
  ⟨(C12_listing_index_is_fg_index (table_of [⟨11, "sleep 5"⟩, ⟨12, "cat"⟩]) 2 (by decide)
      (by decide) (by decide) (by decide)).2.1,
   (C12_listing_index_is_fg_index (table_of [⟨11, "sleep 5"⟩, ⟨12, "cat"⟩]) 2 (by decide)
      (by decide) (by decide) (by decide)).2.2.2⟩

/-! ## The parser: stages, redirections and bounds -/

theorem split_pipes_eq_splitOn (toks : List String) : split_pipes toks = toks.splitOn "|" := by
  induction toks with
  | nil => rfl
  | cons t rest ih =>
    unfold List.splitOn at ih ⊢
    rw [List.splitOnP_cons]
    by_cases ht : t = "|"
    · simp [split_pipes, ht, ih]
    · have hb : (t == "|") = false := by simpa using ht
      cases hs : split_pipes rest with
      | nil => exact absurd hs (split_pipes_ne_nil rest)
      | cons seg segs =>
        rw [split_pipes_cons_of_ne t rest ht seg segs hs, hb, ← ih, hs]
        rfl

theorem split_pipes_length (toks : List String) :
    (split_pipes toks).length = 1 + toks.count "|" := by
  induction toks with
  | nil => rfl
  | cons t rest ih =>
    by_cases ht : t = "|"
    · subst ht
      simp [split_pipes, ih]
      omega
    · cases hs : split_pipes rest with
      | nil => exact absurd hs (split_pipes_ne_nil rest)
      | cons seg segs =>
        rw [split_pipes_cons_of_ne t rest ht seg segs hs, List.count_cons_of_ne (Ne.symm ht),
          ← ih, hs]
        rfl

theorem arg_tokens_from_by_position (seg : List String) : ∀ after : Bool,
    arg_tokens_from after seg =
      ((seg.zip (after :: seg.map is_redir)).filter
        (fun p => !is_redir p.1 && !p.2)).map Prod.fst := by
  induction seg with
  | nil => intro after; rfl
  | cons t rest ih =>
    intro after
    simp only [arg_tokens_from, List.map_cons, List.zip_cons_cons, List.filter_cons]
    cases hr : is_redir t with
    | true => simp [ih]
    | false =>
      cases after with
      | true => simp [ih]
      | false => simp [ih]

/-- C13: when `parse_pipeline` returns a chain, its stages are, one for one
and in order, the segments obtained by splitting the token sequence at its
`|` tokens (the library's `splitOn`), so there is one stage more than there
are `|` tokens, and the argument list of each stage consists, in the
original order, of the tokens of its segment that are neither `<`, `>`, `>>`
nor the token right after one of these. -/
theorem C13_stages_are_segments (toks : List String) (head : List Cmd) (msgs : List String)
    (h : parse_pipeline toks = (.ok head, msgs)) :
    head.map Cmd.argv = (toks.splitOn "|").map arg_tokens_by_position ∧
    head.length = (toks.splitOn "|").length ∧
    head.length = 1 + toks.count "|" ∧
    (∀ (k : Nat) (c : Cmd) (seg : List String), head[k]? = some c →
      (toks.splitOn "|")[k]? = some seg →
      c.argv = arg_tokens seg ∧ arg_tokens seg = arg_tokens_by_position seg) := by
  obtain ⟨_, hl, _, _⟩ := parse_pipeline_ok toks head msgs h
  obtain ⟨seg, segs, hs, hm⟩ := parse_loop_argv toks [] cmd_new head hl
  have hm2 : head.map Cmd.argv = (split_pipes toks).map arg_tokens := by
    rw [hm, hs]; simp [cmd_new]
  have hpos : ∀ sg : List String, arg_tokens sg = arg_tokens_by_position sg :=
    fun sg => arg_tokens_from_by_position sg false
  have hlen : head.length = (split_pipes toks).length := by
    have := congrArg List.length hm2
    simpa using this
  refine ⟨?_, ?_, ?_, ?_⟩
  · rw [hm2, split_pipes_eq_splitOn]
    apply List.map_congr_left
    intro sg _
    exact hpos sg
  · rw [hlen, split_pipes_eq_splitOn]
  · rw [hlen, split_pipes_length]
  · intro k c sg hk hsg
    refine ⟨?_, hpos sg⟩
    have h1 : (head.map Cmd.argv)[k]? = some c.argv := by
      rw [List.getElem?_map, hk]; rfl
    rw [hm2, split_pipes_eq_splitOn, List.getElem?_map, hsg] at h1
    simpa using h1.symm

theorem C13_stages_are_segments_witness :
    [(⟨["a", "b"], some "x", none, 0⟩ : Cmd), ⟨["c"], none, some "y", 1⟩].map Cmd.argv =
      (["a", "<", "x", "b", "|", ">>", "y", "c"].splitOn "|").map arg_tokens_by_position ∧
    [(⟨["a", "b"], some "x", none, 0⟩ : Cmd), ⟨["c"], none, some "y", 1⟩].length =
      1 + ["a", "<", "x", "b", "|", ">>", "y", "c"].count "|" :=
  ⟨(C13_stages_are_segments ["a", "<", "x", "b", "|", ">>", "y", "c"]
      [⟨["a", "b"], some "x", none, 0⟩, ⟨["c"], none, some "y", 1⟩] [] (by decide)).1,
   (C13_stages_are_segments ["a", "<", "x", "b", "|", ">>", "y", "c"]
      [⟨["a", "b"], some "x", none, 0⟩, ⟨["c"], none, some "y", 1⟩] [] (by decide)).2.2.1⟩

theorem head?_append_singleton_infile (done : List Cmd) (cur cur' : Cmd)
    (h : cur'.infile = cur.infile) :
    (done ++ [cur']).head?.bind Cmd.infile = (done ++ [cur]).head?.bind Cmd.infile := by
  cases done with
  | nil => simp [h]
  | cons d ds => simp

/-- On success: the input file of the first stage, once recorded, is the one
of the chain returned; and every `<` token is met while the first stage is
being filled and has no input file yet, no `|` or `<` comes before it, and
the token after it is the input file of the first stage of the chain. -/
theorem parse_loop_in_spec (toks : List String) (done : List Cmd) (cur : Cmd)
    (chain : List Cmd) (h : parse_loop toks done cur = .ok chain) :
    (∀ f, (done ++ [cur]).head?.bind Cmd.infile = some f →
      chain.head?.bind Cmd.infile = some f) ∧
    (∀ i : Nat, toks[i]? = some "<" →
      done = [] ∧ cur.infile = none ∧
      (∀ k : Nat, k < i → toks[k]? ≠ some "|" ∧ toks[k]? ≠ some "<") ∧
      ∃ fn, toks[i + 1]? = some fn ∧ is_special fn = false ∧
        chain.head?.bind Cmd.infile = some fn) := by
  refine parse_loop_ok_induct
    (fun toks done cur chain =>
      (∀ f, (done ++ [cur]).head?.bind Cmd.infile = some f →
        chain.head?.bind Cmd.infile = some f) ∧
      (∀ i : Nat, toks[i]? = some "<" →
        done = [] ∧ cur.infile = none ∧
        (∀ k : Nat, k < i → toks[k]? ≠ some "|" ∧ toks[k]? ≠ some "<") ∧
        ∃ fn, toks[i + 1]? = some fn ∧ is_special fn = false ∧
          chain.head?.bind Cmd.infile = some fn))
    ?_ ?_ ?_ ?_ ?_ toks done cur chain h
  · intro done cur
    refine ⟨fun f hf => hf, ?_⟩
    intro i hi
    simp at hi
  · intro rest done cur chain _ _ ih
    obtain ⟨ih1, ih2⟩ := ih
    constructor
    · intro f hf
      apply ih1 f
      rw [List.head?_append_of_ne_nil _ (by simp)]
      exact hf
    · intro i hi
      rcases i with _ | i
      · simp at hi
      · have := (ih2 i (by simpa using hi)).1
        simp at this
  · intro fn rest cur chain hinf hfn ih
    obtain ⟨ih1, ih2⟩ := ih
    obtain ⟨f1, f2, f3, f4⟩ := is_special_false fn hfn
    constructor
    · intro f hf
      simp [hinf] at hf
    · intro i hi
      rcases i with _ | _ | i
      · refine ⟨rfl, hinf, fun k hk => absurd hk (Nat.not_lt_zero k), fn, by simp, hfn, ?_⟩
        exact ih1 fn (by simp)
      · simp at hi
        exact absurd hi f2
      · have := (ih2 i (by simpa using hi)).2.1
        simp at this
  · intro tk fn rest done cur chain htk _ hfn _ ih
    obtain ⟨ih1, ih2⟩ := ih
    obtain ⟨f1, f2, f3, f4⟩ := is_special_false fn hfn
    have htk1 : tk ≠ "|" := by rcases htk with h | h <;> subst h <;> decide
    have htk2 : tk ≠ "<" := by rcases htk with h | h <;> subst h <;> decide
    constructor
    · intro f hf
      apply ih1 f
      refine (head?_append_singleton_infile done cur _ ?_).trans hf
      rfl
    · intro i hi
      rcases i with _ | _ | i
      · simp at hi
        exact absurd hi htk2
      · simp at hi
        exact absurd hi f2
      · obtain ⟨hd, hc, hk, fn', hfn1, hfn2, hfn3⟩ := ih2 i (by simpa using hi)
        refine ⟨hd, hc, ?_, fn', by simpa using hfn1, hfn2, hfn3⟩
        intro k hk2
        rcases k with _ | _ | k
        · simp [htk1, htk2]
        · simp [f1, f2]
        · have := hk k (by omega)
          simpa using this
  · intro tk rest done cur chain h1 h2 _ _ _ ih
    obtain ⟨ih1, ih2⟩ := ih
    constructor
    · intro f hf
      apply ih1 f
      refine (head?_append_singleton_infile done cur _ ?_).trans hf
      rfl
    · intro i hi
      rcases i with _ | i
      · simp at hi
        exact absurd hi h2
      · obtain ⟨hd, hc, hk, fn', hfn1, hfn2, hfn3⟩ := ih2 i (by simpa using hi)
        refine ⟨hd, hc, ?_, fn', by simpa using hfn1, hfn2, hfn3⟩
        intro k hk2
        rcases k with _ | k
        · simp [h1, h2]
        · have := hk k (by omega)
          simpa using this

theorem getLast?_append_singleton_outfile (done : List Cmd) (cur : Cmd) :
    (done ++ [cur]).getLast? = some cur := by
  simp

/-- On success: an output file recorded on the current stage is the one of
the last stage of the chain returned, with its append flag; and every `>` or
`>>` token is met while the current stage has no output file, no other such
token comes before it, and the token after it is the output file of the last
stage of the chain, whose append flag tells `>>` from `>`. -/
theorem parse_loop_out_spec (toks : List String) (done : List Cmd) (cur : Cmd)
    (chain : List Cmd) (h : parse_loop toks done cur = .ok chain) :
    (∀ f, cur.outfile = some f →
      chain.getLast?.bind Cmd.outfile = some f ∧
      chain.getLast?.map Cmd.append = some cur.append) ∧
    (∀ i : Nat, (toks[i]? = some ">" ∨ toks[i]? = some ">>") →
      cur.outfile = none ∧
      (∀ k : Nat, k < i → toks[k]? ≠ some ">" ∧ toks[k]? ≠ some ">>") ∧
      ∃ fn, toks[i + 1]? = some fn ∧ is_special fn = false ∧
        chain.getLast?.bind Cmd.outfile = some fn ∧
        chain.getLast?.map Cmd.append = some (if toks[i]? = some ">>" then 1 else 0)) := by
  refine parse_loop_ok_induct
    (fun toks _ cur chain =>
      (∀ f, cur.outfile = some f →
        chain.getLast?.bind Cmd.outfile = some f ∧
        chain.getLast?.map Cmd.append = some cur.append) ∧
      (∀ i : Nat, (toks[i]? = some ">" ∨ toks[i]? = some ">>") →
        cur.outfile = none ∧
        (∀ k : Nat, k < i → toks[k]? ≠ some ">" ∧ toks[k]? ≠ some ">>") ∧
        ∃ fn, toks[i + 1]? = some fn ∧ is_special fn = false ∧
          chain.getLast?.bind Cmd.outfile = some fn ∧
          chain.getLast?.map Cmd.append = some (if toks[i]? = some ">>" then 1 else 0)))
    ?_ ?_ ?_ ?_ ?_ toks done cur chain h
  · intro done cur
    refine ⟨fun f hf => by simp [hf], ?_⟩
    intro i hi
    simp at hi
  · intro rest done cur chain _ hout ih
    obtain ⟨_, ih2⟩ := ih
    constructor
    · intro f hf
      rw [hout] at hf
      cases hf
    · intro i hi
      rcases i with _ | i
      · simp at hi
      · obtain ⟨_, hk, fn', hfn1, hfn2, hfn3, hfn4⟩ := ih2 i (by simpa using hi)
        refine ⟨hout, ?_, fn', by simpa using hfn1, hfn2, hfn3, by simpa using hfn4⟩
        intro k hk2
        rcases k with _ | k
        · simp
        · have := hk k (by omega)
          simpa using this
  · intro fn rest cur chain _ hfn ih
    obtain ⟨ih1, ih2⟩ := ih
    obtain ⟨f1, f2, f3, f4⟩ := is_special_false fn hfn
    constructor
    · intro f hf
      exact ih1 f hf
    · intro i hi
      rcases i with _ | _ | i
      · simp at hi
      · simp at hi
        rcases hi with hi | hi
        · exact absurd hi f3
        · exact absurd hi f4
      · obtain ⟨hc, hk, fn', hfn1, hfn2, hfn3, hfn4⟩ := ih2 i (by simpa using hi)
        refine ⟨hc, ?_, fn', by simpa using hfn1, hfn2, hfn3, by simpa using hfn4⟩
        intro k hk2
        rcases k with _ | _ | k
        · simp
        · simp [f3, f4]
        · have := hk k (by omega)
          simpa using this
  · intro tk fn rest done cur chain htk hout hfn _ ih
    obtain ⟨ih1, ih2⟩ := ih
    obtain ⟨f1, f2, f3, f4⟩ := is_special_false fn hfn
    constructor
    · intro f hf
      rw [hout] at hf
      cases hf
    · intro i hi
      rcases i with _ | _ | i
      · refine ⟨hout, fun k hk => absurd hk (Nat.not_lt_zero k), fn, by simp, hfn, ?_⟩
        have := ih1 fn rfl
        refine ⟨this.1, ?_⟩
        rw [this.2]
        simp
      · simp at hi
        rcases hi with hi | hi
        · exact absurd hi f3
        · exact absurd hi f4
      · have := (ih2 i (by simpa using hi)).1
        simp at this
  · intro tk rest done cur chain _ _ h3 h4 _ ih
    obtain ⟨ih1, ih2⟩ := ih
    constructor
    · intro f hf
      exact ih1 f hf
    · intro i hi
      rcases i with _ | i
      · simp at hi
        rcases hi with hi | hi
        · exact absurd hi h3
        · exact absurd hi h4
      · obtain ⟨hc, hk, fn', hfn1, hfn2, hfn3, hfn4⟩ := ih2 i (by simpa using hi)
        refine ⟨hc, ?_, fn', by simpa using hfn1, hfn2, hfn3, by simpa using hfn4⟩
        intro k hk2
        rcases k with _ | k
        · simp [h3, h4]
        · have := hk k (by omega)
          simpa using this

/-- On success no stage has more than `MAX_ARGS - 1` arguments. -/
theorem parse_loop_argc_bound (toks : List String) (done : List Cmd) (cur : Cmd)
    (chain : List Cmd) (h : parse_loop toks done cur = .ok chain) :
    (∀ c ∈ done, c.argc ≤ MAX_ARGS - 1) → cur.argc ≤ MAX_ARGS - 1 →
    ∀ c ∈ chain, c.argc ≤ MAX_ARGS - 1 := by
  refine parse_loop_ok_induct
    (fun _ done cur chain => (∀ c ∈ done, c.argc ≤ MAX_ARGS - 1) → cur.argc ≤ MAX_ARGS - 1 →
      ∀ c ∈ chain, c.argc ≤ MAX_ARGS - 1)
    ?_ ?_ ?_ ?_ ?_ toks done cur chain h
  · intro done cur h1 h2 c hc
    simp at hc
    rcases hc with hc | hc
    · exact h1 c hc
    · subst hc; exact h2
  · intro rest done cur chain _ _ ih h1 h2
    apply ih
    · intro c hc
      simp at hc
      rcases hc with hc | hc
      · exact h1 c hc
      · subst hc; exact h2
    · simp [cmd_new, Cmd.argc]
  · intro fn rest cur chain _ _ ih h1 h2
    exact ih h1 h2
  · intro tk fn rest done cur chain _ _ _ _ ih h1 h2
    exact ih h1 h2
  · intro tk rest done cur chain _ _ _ _ hlt ih h1 _
    apply ih h1
    simp only [Cmd.argc, List.length_append, List.length_singleton] at hlt ⊢
    omega

theorem parse_loop_writes_bound (toks : List String) (done : List Cmd) (cur : Cmd) :
    ∀ idx ∈ parse_loop_writes toks done cur, idx < MAX_ARGS := by
  induction toks, done, cur using parse_loop_writes.induct with
  | case1 done cur => intro idx h; simp [parse_loop_writes] at h
  | case2 rest done cur hc =>
    intro idx h
    rw [parse_loop_writes.eq_def] at h
    simp [hc] at h
  | case3 rest done cur hc ih =>
    intro idx h
    rw [parse_loop_writes.eq_def] at h
    simp only [if_true, if_neg hc] at h
    exact ih idx h
  | case4 done cur _ =>
    intro idx h
    rw [parse_loop_writes.eq_def] at h
    simp at h
  | case5 done cur fn rest hc _ =>
    intro idx h
    rw [parse_loop_writes.eq_def] at h
    simp [hc] at h
  | case6 done cur fn rest hc hs _ =>
    intro idx h
    rw [parse_loop_writes.eq_def] at h
    simp [hc, hs] at h
  | case7 done cur fn rest hc hs _ ih =>
    intro idx h
    rw [parse_loop_writes.eq_def] at h
    have h0 : ¬ ("<" = "|") := by decide
    simp only [if_neg h0, if_true, if_neg hc, if_neg hs] at h
    exact ih idx h
  | case8 tk done cur h1 h2 ht =>
    intro idx h
    rw [parse_loop_writes.eq_def] at h
    simp [h1, h2, ht] at h
  | case9 tk done cur h1 h2 ht fn rest hc =>
    intro idx h
    rw [parse_loop_writes.eq_def] at h
    simp [h1, h2, ht, hc] at h
  | case10 tk done cur h1 h2 ht fn rest hc hs =>
    intro idx h
    rw [parse_loop_writes.eq_def] at h
    simp [h1, h2, ht, hc, hs] at h
  | case11 tk done cur h1 h2 ht fn rest hc hs hl =>
    intro idx h
    rw [parse_loop_writes.eq_def] at h
    simp [h1, h2, ht, hc, hs, hl] at h
  | case12 tk done cur h1 h2 ht fn rest hc hs hl ih =>
    intro idx h
    rw [parse_loop_writes.eq_def] at h
    simp only [if_neg h1, if_neg h2, if_pos ht, if_neg hc, if_neg hs, if_neg hl] at h
    exact ih idx h
  | case13 tk rest done cur h1 h2 h3 hc =>
    intro idx h
    rw [parse_loop_writes.eq_def] at h
    simp only [if_neg h1, if_neg h2, if_neg h3, if_pos hc] at h
    simp at h
  | case14 tk rest done cur h1 h2 h3 hc ih =>
    intro idx h
    rw [parse_loop_writes.eq_def] at h
    simp only [if_neg h1, if_neg h2, if_neg h3, if_neg hc] at h
    simp only [List.mem_append, List.mem_cons, List.mem_singleton, List.not_mem_nil,
      or_false] at h
    have hM : MAX_ARGS = 256 := rfl
    rcases h with (h | h) | h
    · omega
    · omega
    · exact ih idx h

/-- A non-empty token sequence on which the token loop cannot succeed is
invalid. -/
theorem parse_pipeline_invalid_of (toks : List String) (hne : toks ≠ [])
    (himp : ∀ chain, parse_loop toks [] cmd_new = .ok chain → False) :
    parse_pipeline toks = (.invalid, [ERR_INVALID_CMD]) := by
  rcases parse_pipeline_cases toks with ⟨h0, _⟩ | ⟨_, h1⟩ | ⟨_, chain, hl, _, _⟩
  · exact absurd h0 hne
  · exact h1
  · exact absurd hl (fun hl => himp chain hl)

theorem ne_nil_of_getElem? (toks : List String) (i : Nat) (t : String)
    (h : toks[i]? = some t) : toks ≠ [] := by
  intro h0
  subst h0
  simp at h

/-- C14: a `<` token after a `|` token, a second `<` token, and a `<` token
that is the last token or is followed by one of `|`, `<`, `>`, `>>` each
make `parse_pipeline` return the invalid result; and when `parse_pipeline`
returns a chain for a sequence with a `<` token, the input file of the first
stage is the token right after that `<`. -/
theorem C14_input_redirection (toks : List String) :
    (∀ i j : Nat, i < j → toks[i]? = some "|" → toks[j]? = some "<" →
      parse_pipeline toks = (.invalid, [ERR_INVALID_CMD])) ∧
    (∀ i j : Nat, i < j → toks[i]? = some "<" → toks[j]? = some "<" →
      parse_pipeline toks = (.invalid, [ERR_INVALID_CMD])) ∧
    (∀ i : Nat, toks[i]? = some "<" →
      (toks[i + 1]? = none ∨ ∃ t, toks[i + 1]? = some t ∧ is_special t = true) →
      parse_pipeline toks = (.invalid, [ERR_INVALID_CMD])) ∧
    (∀ (head : List Cmd) (msgs : List String), parse_pipeline toks = (.ok head, msgs) →
      ∀ i : Nat, toks[i]? = some "<" →
        ∃ fn c0, toks[i + 1]? = some fn ∧ head.head? = some c0 ∧ c0.infile = some fn) := by
  refine ⟨?_, ?_, ?_, ?_⟩
  · intro i j hij hi hj
    apply parse_pipeline_invalid_of toks (ne_nil_of_getElem? toks i _ hi)
    intro chain hl
    exact ((parse_loop_in_spec toks [] cmd_new chain hl).2 j hj).2.2.1 i hij |>.1 hi
  · intro i j hij hi hj
    apply parse_pipeline_invalid_of toks (ne_nil_of_getElem? toks i _ hi)
    intro chain hl
    exact ((parse_loop_in_spec toks [] cmd_new chain hl).2 j hj).2.2.1 i hij |>.2 hi
  · intro i hi hbad
    apply parse_pipeline_invalid_of toks (ne_nil_of_getElem? toks i _ hi)
    intro chain hl
    obtain ⟨fn, hfn1, hfn2, _⟩ := ((parse_loop_in_spec toks [] cmd_new chain hl).2 i hi).2.2.2
    rcases hbad with hb | ⟨t, ht1, ht2⟩
    · rw [hb] at hfn1; cases hfn1
    · rw [ht1] at hfn1
      injection hfn1 with hfn1
      subst hfn1
      rw [ht2] at hfn2
      cases hfn2
  · intro head msgs h i hi
    obtain ⟨_, hl, _, _⟩ := parse_pipeline_ok toks head msgs h
    obtain ⟨fn, hfn1, _, hfn3⟩ := ((parse_loop_in_spec toks [] cmd_new head hl).2 i hi).2.2.2
    cases hh : head.head? with
    | none => simp [hh] at hfn3
    | some c0 =>
      refine ⟨fn, c0, hfn1, rfl, ?_⟩
      simpa [hh] using hfn3

theorem C14_input_redirection_witness :
    parse_pipeline ["a", "|", "b", "<", "f"] = (.invalid, [ERR_INVALID_CMD]) ∧
    parse_pipeline ["a", "<", "f", "<", "g"] = (.invalid, [ERR_INVALID_CMD]) ∧
    parse_pipeline ["a", "<", ">", "f"] = (.invalid, [ERR_INVALID_CMD]) ∧
    (∃ fn c0, ["a", "<", "f", "b"][1 + 1]? = some fn ∧
      [(⟨["a", "b"], some "f", none, 0⟩ : Cmd)].head? = some c0 ∧ c0.infile = some fn) :=
  ⟨(C14_input_redirection ["a", "|", "b", "<", "f"]).1 1 3 (by decide) (by decide)
      (by decide),
   (C14_input_redirection ["a", "<", "f", "<", "g"]).2.1 1 3 (by decide) (by decide)
      (by decide),
   (C14_input_redirection ["a", "<", ">", "f"]).2.2.1 1 (by decide)
      (Or.inr ⟨">", by decide, by decide⟩),
   (C14_input_redirection ["a", "<", "f", "b"]).2.2.2
      [⟨["a", "b"], some "f", none, 0⟩] [] (by decide) 1 (by decide)⟩

/-- C15: when `parse_pipeline` returns a chain for a sequence with a `>` or
`>>` token, that token is the only one of its kind, the output file of the
last stage is the token right after it, and the append flag is 1 for `>>`
and 0 for `>`; a sequence with two output redirection tokens (in one stage
or not), or with a `>` or `>>` that is the last token or is followed by one
of `|`, `<`, `>`, `>>`, makes `parse_pipeline` return the invalid result. -/
theorem C15_output_redirection (toks : List String) :
    (∀ (head : List Cmd) (msgs : List String), parse_pipeline toks = (.ok head, msgs) →
      ∀ i : Nat, (toks[i]? = some ">" ∨ toks[i]? = some ">>") →
        (∀ j : Nat, (toks[j]? = some ">" ∨ toks[j]? = some ">>") → j = i) ∧
        ∃ fn cl, toks[i + 1]? = some fn ∧ head.getLast? = some cl ∧
          cl.outfile = some fn ∧
          cl.append = (if toks[i]? = some ">>" then 1 else 0)) ∧
    (∀ i j : Nat, i < j → (toks[i]? = some ">" ∨ toks[i]? = some ">>") →
      (toks[j]? = some ">" ∨ toks[j]? = some ">>") →
      parse_pipeline toks = (.invalid, [ERR_INVALID_CMD])) ∧
    (∀ i : Nat, (toks[i]? = some ">" ∨ toks[i]? = some ">>") →
      (toks[i + 1]? = none ∨ ∃ t, toks[i + 1]? = some t ∧ is_special t = true) →
      parse_pipeline toks = (.invalid, [ERR_INVALID_CMD])) := by
  have hne : ∀ i : Nat, (toks[i]? = some ">" ∨ toks[i]? = some ">>") → toks ≠ [] := by
    intro i hi
    rcases hi with hi | hi <;> exact ne_nil_of_getElem? toks i _ hi
  have hno2 : ∀ chain, parse_loop toks [] cmd_new = .ok chain → ∀ i j : Nat, i < j →
      (toks[i]? = some ">" ∨ toks[i]? = some ">>") →
      (toks[j]? = some ">" ∨ toks[j]? = some ">>") → False := by
    intro chain hl i j hij hi hj
    have := ((parse_loop_out_spec toks [] cmd_new chain hl).2 j hj).2.1 i hij
    rcases hi with hi | hi
    · exact this.1 hi
    · exact this.2 hi
  refine ⟨?_, ?_, ?_⟩
  · intro head msgs h i hi
    obtain ⟨_, hl, _, _⟩ := parse_pipeline_ok toks head msgs h
    constructor
    · intro j hj
      rcases Nat.lt_trichotomy i j with hlt | heq | hgt
      · exact absurd (hno2 head hl i j hlt hi hj) id
      · exact heq.symm
      · exact absurd (hno2 head hl j i hgt hj hi) id
    · obtain ⟨fn, hfn1, _, hfn3, hfn4⟩ :=
        ((parse_loop_out_spec toks [] cmd_new head hl).2 i hi).2.2
      cases hh : head.getLast? with
      | none => simp [hh] at hfn3
      | some cl =>
        refine ⟨fn, cl, hfn1, rfl, ?_, ?_⟩
        · simpa [hh] using hfn3
        · simpa [hh] using hfn4
  · intro i j hij hi hj
    apply parse_pipeline_invalid_of toks (hne i hi)
    intro chain hl
    exact hno2 chain hl i j hij hi hj
  · intro i hi hbad
    apply parse_pipeline_invalid_of toks (hne i hi)
    intro chain hl
    obtain ⟨fn, hfn1, hfn2, _⟩ := ((parse_loop_out_spec toks [] cmd_new chain hl).2 i hi).2.2
    rcases hbad with hb | ⟨t, ht1, ht2⟩
    · rw [hb] at hfn1; cases hfn1
    · rw [ht1] at hfn1
      injection hfn1 with hfn1
      subst hfn1
      rw [ht2] at hfn2
      cases hfn2

theorem C15_output_redirection_witness :
    (∃ fn cl, ["a", "|", "b", ">>", "f", "c"][3 + 1]? = some fn ∧
      [(⟨["a"], none, none, 0⟩ : Cmd), ⟨["b", "c"], none, some "f", 1⟩].getLast? = some cl ∧
      cl.outfile = some fn ∧
      cl.append = (if ["a", "|", "b", ">>", "f", "c"][3]? = some ">>" then 1 else 0)) ∧
    parse_pipeline ["a", ">", "f", ">>", "g"] = (.invalid, [ERR_INVALID_CMD]) ∧
    parse_pipeline ["a", ">"] = (.invalid, [ERR_INVALID_CMD]) :=
  ⟨((C15_output_redirection ["a", "|", "b", ">>", "f", "c"]).1
      [⟨["a"], none, none, 0⟩, ⟨["b", "c"], none, some "f", 1⟩] [] (by decide) 3
      (Or.inr (by decide))).2,
   (C15_output_redirection ["a", ">", "f", ">>", "g"]).2.1 1 3 (by decide)
      (Or.inl (by decide)) (Or.inr (by decide)),
   (C15_output_redirection ["a", ">"]).2.2 1 (Or.inl (by decide)) (Or.inl (by decide))⟩

theorem argv_array_spec (c : Cmd) (h : c.argc ≤ MAX_ARGS - 1) :
    c.argv_array.length = MAX_ARGS ∧ c.argv_array[c.argc]? = some none ∧
    (∀ k : Nat, k < c.argc → c.argv_array[k]? = (c.argv[k]?).map some) := by
  have hM : MAX_ARGS = 256 := rfl
  unfold Cmd.argc at h
  refine ⟨?_, ?_, ?_⟩
  · simp only [Cmd.argv_array, Cmd.argc, List.length_append, List.length_map,
      List.length_replicate]
    omega
  · simp only [Cmd.argv_array, Cmd.argc]
    rw [List.getElem?_append_right (by simp)]
    simp only [List.length_map, Nat.sub_self]
    rw [List.getElem?_replicate, if_pos (by omega)]
  · intro k hk
    simp only [Cmd.argv_array, Cmd.argc] at hk ⊢
    rw [List.getElem?_append_left (by simpa using hk), List.getElem?_map]

theorem slot_writes_self (a : Nat) : slot_writes a a = [] := by
  simp [slot_writes]

theorem slot_writes_step (a b : Nat) (h : a + 1 ≤ b) :
    slot_writes a b = [a, a + 1] ++ slot_writes (a + 1) b := by
  unfold slot_writes
  have : b - a = (b - (a + 1)) + 1 := by omega
  rw [this, List.range'_succ]
  simp

/-- On success the indices recorded by `parse_loop_writes` are those of the
arguments the chain ends up with: for the stage being filled the slots from
its current `argc` on, for every later stage the slots from 0 on. -/
theorem parse_loop_writes_ok (toks : List String) (done : List Cmd) (cur : Cmd)
    (chain : List Cmd) (h : parse_loop toks done cur = .ok chain) :
    ∃ c cs, chain = done ++ c :: cs ∧ cur.argc ≤ c.argc ∧
      parse_loop_writes toks done cur =
        slot_writes cur.argc c.argc ++ cs.flatMap (fun d => slot_writes 0 d.argc) := by
  refine parse_loop_ok_induct
    (fun toks done cur chain => ∃ c cs, chain = done ++ c :: cs ∧ cur.argc ≤ c.argc ∧
      parse_loop_writes toks done cur =
        slot_writes cur.argc c.argc ++ cs.flatMap (fun d => slot_writes 0 d.argc))
    ?_ ?_ ?_ ?_ ?_ toks done cur chain h
  · intro done cur
    exact ⟨cur, [], rfl, Nat.le_refl _, by simp [parse_loop_writes, slot_writes_self]⟩
  · intro rest done cur chain h1 h2 ih
    obtain ⟨c, cs, hc, _, hw⟩ := ih
    refine ⟨cur, c :: cs, by rw [hc]; simp, Nat.le_refl _, ?_⟩
    have hcond : ¬ (cur.argc = 0 ∨ cur.outfile.isSome = true) := by
      rintro (h | h)
      · exact h1 h
      · simp [h2] at h
    rw [parse_loop_writes.eq_def]
    simp only [if_true, if_neg hcond]
    rw [hw, slot_writes_self]
    simp [cmd_new, Cmd.argc]
  · intro fn rest cur chain hinf hfn ih
    obtain ⟨c, cs, hc, hle, hw⟩ := ih
    refine ⟨c, cs, hc, hle, ?_⟩
    have h0 : ¬ ("<" = "|") := by decide
    have hcond : ¬ (([] : List Cmd) ≠ [] ∨ cur.infile.isSome = true) := by simp [hinf]
    rw [parse_loop_writes.eq_def]
    simp only [if_neg h0, if_true, if_neg hcond, hfn, Bool.false_eq_true, if_false]
    exact hw
  · intro tk fn rest done cur chain htk hout hfn hl ih
    obtain ⟨c, cs, hc, hle, hw⟩ := ih
    refine ⟨c, cs, hc, hle, ?_⟩
    have h1 : tk ≠ "|" := by rcases htk with h | h <;> subst h <;> decide
    have h2 : tk ≠ "<" := by rcases htk with h | h <;> subst h <;> decide
    have hcond : ¬ (cur.outfile.isSome = true) := by simp [hout]
    rw [parse_loop_writes.eq_def]
    simp only [if_neg h1, if_neg h2, if_pos htk, if_neg hcond, hfn, hl, Bool.false_eq_true,
      if_false]
    exact hw
  · intro tk rest done cur chain h1 h2 h3 h4 hlt ih
    obtain ⟨c, cs, hc, hle, hw⟩ := ih
    have hle2 : cur.argc + 1 ≤ c.argc := by
      simpa [Cmd.argc] using hle
    refine ⟨c, cs, hc, by omega, ?_⟩
    have h34 : ¬ (tk = ">" ∨ tk = ">>") := by
      rintro (h | h)
      · exact h3 h
      · exact h4 h
    have hcond : ¬ (cur.argc ≥ MAX_ARGS - 1) := by omega
    rw [parse_loop_writes.eq_def]
    simp only [if_neg h1, if_neg h2, if_neg h34, if_neg hcond]
    rw [hw, slot_writes_step cur.argc c.argc hle2]
    simp [Cmd.argc]

/-- C18: when `parse_pipeline` returns a chain, every stage has at most 255
arguments and its array of 256 slots holds the arguments in the slots below
`argc` and `NULL` in slot `argc`; whatever the tokens, every index of `argv`
that the token loop writes is below 256 (on success these indices are, stage
by stage, `k` and `k + 1` for every argument index `k`); and a token sequence
with a segment of 256 or more argument tokens is invalid. -/
theorem C18_argument_array_bounds (toks : List String) :
    (∀ (head : List Cmd) (msgs : List String), parse_pipeline toks = (.ok head, msgs) →
      ∀ c ∈ head, c.argc ≤ 255 ∧ c.argv_array.length = 256 ∧
        c.argv_array[c.argc]? = some none ∧
        (∀ k : Nat, k < c.argc → c.argv_array[k]? = (c.argv[k]?).map some)) ∧
    (∀ idx ∈ parse_loop_writes toks [] cmd_new, idx < 256) ∧
    (toks ≠ [] → ∀ seg ∈ toks.splitOn "|", 256 ≤ (arg_tokens seg).length →
      parse_pipeline toks = (.invalid, [ERR_INVALID_CMD])) ∧
    (∀ (head : List Cmd) (msgs : List String), parse_pipeline toks = (.ok head, msgs) →
      parse_loop_writes toks [] cmd_new = head.flatMap (fun c => slot_writes 0 c.argc)) := by
  have hbound : ∀ chain, parse_loop toks [] cmd_new = .ok chain →
      ∀ c ∈ chain, c.argc ≤ MAX_ARGS - 1 := by
    intro chain hl
    exact parse_loop_argc_bound toks [] cmd_new chain hl (by simp) (by simp [cmd_new, Cmd.argc])
  refine ⟨?_, parse_loop_writes_bound toks [] cmd_new, ?_, ?_⟩
  rotate_left 2
  · intro head msgs h
    obtain ⟨_, hl, _, _⟩ := parse_pipeline_ok toks head msgs h
    obtain ⟨c, cs, hc, _, hw⟩ := parse_loop_writes_ok toks [] cmd_new head hl
    rw [hw, hc]
    simp [cmd_new, Cmd.argc]
  · intro head msgs h c hc
    obtain ⟨_, hl, _, _⟩ := parse_pipeline_ok toks head msgs h
    have hb := hbound head hl c hc
    obtain ⟨a1, a2, a3⟩ := argv_array_spec c hb
    exact ⟨hb, a1, a2, a3⟩
  · intro hne seg hseg hlen
    apply parse_pipeline_invalid_of toks hne
    intro chain hl
    obtain ⟨s0, ss, hs, hm⟩ := parse_loop_argv toks [] cmd_new chain hl
    have hm2 : chain.map Cmd.argv = (split_pipes toks).map arg_tokens := by
      rw [hm, hs]; simp [cmd_new]
    rw [← split_pipes_eq_splitOn] at hseg
    have hin : arg_tokens seg ∈ chain.map Cmd.argv := by
      rw [hm2]; exact List.mem_map_of_mem _ hseg
    obtain ⟨c, hcm, hca⟩ := List.mem_map.mp hin
    have hb := hbound chain hl c hcm
    have hM : MAX_ARGS = 256 := rfl
    unfold Cmd.argc at hb
    rw [hca] at hb
    omega

theorem C18_argument_array_bounds_witness :
    (∀ c ∈ [(⟨["a", "b"], none, none, 0⟩ : Cmd)], c.argc ≤ 255 ∧ c.argv_array.length = 256 ∧
        c.argv_array[c.argc]? = some none ∧
        (∀ k : Nat, k < c.argc → c.argv_array[k]? = (c.argv[k]?).map some)) ∧
    (∀ idx ∈ parse_loop_writes ["a", "b"] [] cmd_new, idx < 256) :=
  ⟨(C18_argument_array_bounds ["a", "b"]).1 [⟨["a", "b"], none, none, 0⟩] [] (by decide),
   (C18_argument_array_bounds ["a", "b"]).2.1⟩

/-! ## The tokenizer and blank lines -/

theorem is_delim_eq_is_ws (c : Char) : is_delim c = is_ws c := by
  have h : " \t\n".toList = [' ', '\t', '\n'] := rfl
  rw [Bool.eq_iff_iff]
  simp [is_delim, is_ws, h]

theorem is_blank_char_eq_is_delim (c : Char) : is_blank_char c = is_delim c := by
  rw [is_delim_eq_is_ws, Bool.eq_iff_iff]
  simp [is_blank_char, is_ws, or_assoc]

theorem is_delim_fun : is_delim = is_ws := funext is_delim_eq_is_ws

/-- Splitting at white space yields the leading run of other characters and
then the pieces of what follows the white-space character that ended it. -/
theorem splitOnP_step (t : List Char) :
    t.splitOnP is_ws =
      t.takeWhile (fun x => !is_ws x) ::
        (match t.dropWhile (fun x => !is_ws x) with
         | [] => []
         | _ :: r => r.splitOnP is_ws) := by
  induction t with
  | nil => rfl
  | cons x xs ih =>
    rw [List.splitOnP_cons]
    cases hx : is_ws x with
    | true => simp [List.takeWhile, List.dropWhile, hx]
    | false =>
      rw [ih]
      simp [List.takeWhile, List.dropWhile, hx, List.modifyHead]

theorem runs_cons_ws (c : Char) (cs : List Char) (h : is_ws c = true) :
    runs (c :: cs) = runs cs := by
  simp [runs, List.splitOnP_cons, h]

/-- The runs of a line are found by successive calls of `strtok_r`. -/
theorem runs_eq_strtok (s : List Char) :
    runs s = match strtok_r s with
      | none => []
      | some (tok, rest) => tok :: runs rest := by
  induction s with
  | nil => rfl
  | cons c cs ih =>
    cases hc : is_ws c with
    | true =>
      rw [runs_cons_ws c cs hc, ih]
      simp [strtok_r, List.dropWhile, is_delim_eq_is_ws, hc]
    | false =>
      have hd : List.dropWhile is_ws (c :: cs) = c :: cs := by
        simp [List.dropWhile, hc]
      have htake : List.takeWhile (fun x => !is_ws x) (c :: cs) ≠ [] := by
        simp [List.takeWhile, hc]
      simp only [strtok_r, is_delim_fun, hd]
      unfold runs
      rw [splitOnP_step (c :: cs)]
      rw [List.filter_cons_of_pos (by simpa using htake)]
      congr 1
      cases hdrop : List.dropWhile (fun x => !is_ws x) (c :: cs) with
      | nil => rfl
      | cons y r => rfl

theorem tokenize_loop_eq (slots : Nat) : ∀ (s : List Char) (v : List String),
    tokenize_loop slots s v = v ++ ((runs s).take slots).map String.mk := by
  induction slots with
  | zero => intro s v; simp [tokenize_loop]
  | succ slots ih =>
    intro s v
    simp only [tokenize_loop]
    rw [runs_eq_strtok s]
    cases hs : strtok_r s with
    | none => simp
    | some p =>
      obtain ⟨tok, rest⟩ := p
      simp only []
      rw [ih]
      simp

theorem strtok_r_token (s tok rest : List Char) (h : strtok_r s = some (tok, rest)) :
    tok ≠ [] ∧ ∀ c ∈ tok, is_ws c = false := by
  unfold strtok_r at h
  split at h
  · cases h
  · rename_i c cs hd
    injection h with h
    injection h with h1 _
    subst h1
    have hc : is_delim c = false := by
      have := List.head_dropWhile_not is_delim s (by rw [hd]; simp)
      simpa [hd] using this
    constructor
    · simp [List.takeWhile, hc]
    · intro x hx
      have := List.mem_takeWhile_imp hx
      rw [← is_delim_eq_is_ws]
      simpa using this

theorem tokenize_loop_tokens (slots : Nat) : ∀ (s : List Char) (v : List String),
    (∀ t ∈ v, t.toList ≠ [] ∧ ∀ c ∈ t.toList, is_ws c = false) →
    ∀ t ∈ tokenize_loop slots s v, t.toList ≠ [] ∧ ∀ c ∈ t.toList, is_ws c = false := by
  induction slots with
  | zero => intro s v hv; simpa [tokenize_loop] using hv
  | succ slots ih =>
    intro s v hv
    simp only [tokenize_loop]
    cases hs : strtok_r s with
    | none => simpa using hv
    | some p =>
      obtain ⟨tok, rest⟩ := p
      simp only []
      apply ih
      intro t ht
      simp only [List.mem_append, List.mem_singleton] at ht
      rcases ht with ht | ht
      · exact hv t ht
      · subst ht
        exact strtok_r_token s tok rest hs

/-- C16: `tokenize` returns, from left to right, the maximal runs of
characters other than space, tab and newline of the line, cut to the first
2048 of them (a longer line is no error: the remaining runs are left out);
every token is non-empty and holds no space, tab or newline. -/
theorem C16_tokenize_runs (line : String) :
    tokenize line = ((runs line.toList).take 2048).map String.mk ∧
    (tokenize line).length = min 2048 (runs line.toList).length ∧
    (∀ t ∈ tokenize line, t.toList ≠ [] ∧ ∀ c ∈ t.toList, c ≠ ' ' ∧ c ≠ '\t' ∧ c ≠ '\n') := by
  have heq : tokenize line = ((runs line.toList).take 2048).map String.mk := by
    unfold tokenize
    rw [tokenize_loop_eq]
    rfl
  refine ⟨heq, ?_, ?_⟩
  · rw [heq]
    simp
  · intro t ht
    have := tokenize_loop_tokens MAX_TOK line.toList [] (by simp) t ht
    refine ⟨this.1, ?_⟩
    intro c hc
    have hw := this.2 c hc
    simpa [is_ws] using hw

theorem is_blank_from_iff (s : List Char) :
    is_blank_from s = true ↔ s.dropWhile is_delim = [] := by
  induction s with
  | nil => simp [is_blank_from]
  | cons c cs ih =>
    simp only [is_blank_from, is_blank_char_eq_is_delim, List.dropWhile]
    cases hc : is_delim c with
    | true => simpa using ih
    | false => simp

theorem strtok_r_none_iff (s : List Char) :
    strtok_r s = none ↔ s.dropWhile is_delim = [] := by
  unfold strtok_r
  split
  · rename_i h; simp [h]
  · rename_i c cs h; simp [h]

theorem tokenize_nil_iff (line : String) :
    tokenize line = [] ↔ strtok_r line.toList = none := by
  unfold tokenize
  rw [tokenize_loop_eq, runs_eq_strtok]
  have hM : MAX_TOK ≠ 0 := by decide
  cases hs : strtok_r line.toList with
  | none => simp
  | some p =>
    obtain ⟨tok, rest⟩ := p
    simp only [List.nil_append, List.map_eq_nil_iff, List.take_eq_nil_iff]
    simp [hM]

/-- C20: `is_blank(line)` holds exactly when `tokenize(line)` yields no
token; so in the loop of `main`, which skips blank lines before tokenizing,
`parse_pipeline` never receives an empty token array and never returns its
`NULL` result: an iteration either leaves the state as it is (blank line) or
is the dispatch on a non-empty token array. -/
theorem C20_blank_iff_no_token (line : String) :
    (is_blank line = true ↔ tokenize line = []) ∧
    (is_blank line = false →
      tokenize line ≠ [] ∧ (parse_pipeline (tokenize line)).1 ≠ .empty) ∧
    (∀ (sys : Sys) (st : Shell),
      main_iter line sys st = st ∨
      ∃ l : String, tokenize l ≠ [] ∧ (parse_pipeline (tokenize l)).1 ≠ .empty ∧
        main_iter line sys st = main_body (tokenize l) l sys st) := by
  have hiff : ∀ l : String, is_blank l = true ↔ tokenize l = [] := by
    intro l
    rw [tokenize_nil_iff, strtok_r_none_iff]
    exact is_blank_from_iff l.toList
  have hne : ∀ l : String, is_blank l = false →
      tokenize l ≠ [] ∧ (parse_pipeline (tokenize l)).1 ≠ .empty := by
    intro l hb
    have ht : tokenize l ≠ [] := by
      intro h0
      have := (hiff l).mpr h0
      rw [hb] at this
      cases this
    refine ⟨ht, ?_⟩
    rcases parse_pipeline_cases (tokenize l) with ⟨h0, _⟩ | ⟨_, h1⟩ | ⟨_, chain, _, _, h1⟩
    · exact absurd h0 ht
    · rw [h1]; simp
    · rw [h1]; simp
  refine ⟨hiff line, hne line, ?_⟩
  intro sys st
  have key : ∀ l : String,
      (if is_blank l = true then st else main_body (tokenize l) l sys st) = st ∨
      ∃ l' : String, tokenize l' ≠ [] ∧ (parse_pipeline (tokenize l')).1 ≠ .empty ∧
        (if is_blank l = true then st else main_body (tokenize l) l sys st) =
          main_body (tokenize l') l' sys st := by
    intro l
    cases hb : is_blank l with
    | true => left; simp
    | false =>
      right
      exact ⟨l, (hne l hb).1, (hne l hb).2, by simp⟩
  exact key _

/-! ## Program lookup -/

theorem is_absolute_contains_slash (name : List UInt8) (h : is_absolute name = true) :
    contains_slash name = true := by
  unfold is_absolute at h
  unfold contains_slash
  cases name with
  | nil => simp at h
  | cons c cs =>
    have hc : c = SLASH := by simpa using h
    subst hc
    simp

theorem snprintf_fits (buf : List UInt8) (bufsz : Nat) (text : List UInt8)
    (h : text.length < bufsz) : snprintf buf bufsz text = text := by
  unfold snprintf
  rw [if_neg (by omega)]
  exact List.take_of_length_le (by omega)

theorem snprintf_cut (buf : List UInt8) (bufsz : Nat) (text : List UInt8) (h0 : 0 < bufsz)
    (h : bufsz ≤ text.length) : (snprintf buf bufsz text).length = bufsz - 1 := by
  unfold snprintf
  rw [if_neg (by omega), List.length_take]
  omega

theorem locate_program_verdict (name buf : List UInt8) (bufsz : Nat)
    (access_x : List UInt8 → Bool) :
    ((locate_program name buf bufsz access_x).2 = 0 ↔
      access_x (locate_program name buf bufsz access_x).1 = true) ∧
    ((locate_program name buf bufsz access_x).2 = 0 ∨
      (locate_program name buf bufsz access_x).2 = -1) := by
  unfold locate_program
  split
  · simp only []
    cases access_x (snprintf buf bufsz name) <;> simp
  · simp only []
    cases access_x (snprintf buf bufsz (c_bytes "/usr/bin/" ++ name)) <;> simp

theorem locate_program_slash (name buf : List UInt8) (bufsz : Nat)
    (access_x : List UInt8 → Bool) (h : contains_slash name = true) :
    (locate_program name buf bufsz access_x).1 = snprintf buf bufsz name := by
  unfold locate_program
  rw [if_pos (by simp [h])]

theorem locate_program_no_slash (name buf : List UInt8) (bufsz : Nat)
    (access_x : List UInt8 → Bool) (h : contains_slash name = false) :
    (locate_program name buf bufsz access_x).1 =
      snprintf buf bufsz (c_bytes "/usr/bin/" ++ name) := by
  have ha : is_absolute name = false := by
    cases ha : is_absolute name with
    | false => rfl
    | true =>
      rw [is_absolute_contains_slash name ha] at h
      cases h
  unfold locate_program
  rw [if_neg (by simp [h, ha])]

theorem usr_bin_length (name : List UInt8) :
    (c_bytes "/usr/bin/" ++ name).length = 9 + name.length := by
  have h9 : (c_bytes "/usr/bin/").length = 9 := by decide
  rw [List.length_append, h9]

/-- C17, as the code has it: for a program name that, with the prefix where
one is added, fits in the buffer of 4096 bytes that `run_pipeline` passes
(at most 4095 bytes with a `/`, at most 4086 bytes without), the path that
`locate_program` writes is the name itself when the name contains a `/`
anywhere, and `/usr/bin/` followed by the name otherwise; for every name the
verdict is success exactly when the executability probe succeeds on the path
written. -/
theorem C17_locate_program_path (name buf : List UInt8) (access_x : List UInt8 → Bool) :
    (contains_slash name = true → name.length ≤ 4095 →
      (locate_program name buf PROG_SIZE access_x).1 = name) ∧
    (contains_slash name = false → name.length ≤ 4086 →
      (locate_program name buf PROG_SIZE access_x).1 = c_bytes "/usr/bin/" ++ name) ∧
    ((locate_program name buf PROG_SIZE access_x).2 = 0 ↔
      access_x (locate_program name buf PROG_SIZE access_x).1 = true) ∧
    ((locate_program name buf PROG_SIZE access_x).2 = 0 ∨
      (locate_program name buf PROG_SIZE access_x).2 = -1) := by
  have hP : PROG_SIZE = 4096 := rfl
  refine ⟨?_, ?_, (locate_program_verdict name buf PROG_SIZE access_x).1,
    (locate_program_verdict name buf PROG_SIZE access_x).2⟩
  · intro hs hl
    rw [locate_program_slash name buf PROG_SIZE access_x hs]
    exact snprintf_fits buf PROG_SIZE name (by omega)
  · intro hs hl
    rw [locate_program_no_slash name buf PROG_SIZE access_x hs]
    apply snprintf_fits
    rw [usr_bin_length]
    omega

theorem C17_locate_program_path_witness :
    (locate_program (c_bytes "./a.out") [] PROG_SIZE (fun p => p == c_bytes "./a.out")).1 =
      c_bytes "./a.out" ∧
    (locate_program (c_bytes "ls") [] PROG_SIZE (fun p => p == c_bytes "/usr/bin/ls")).1 =
      c_bytes "/usr/bin/" ++ c_bytes "ls" ∧
    (locate_program (c_bytes "café") [] PROG_SIZE (fun _ => false)).1 =
      c_bytes "/usr/bin/" ++ c_bytes "café" :=
  ⟨(C17_locate_program_path (c_bytes "./a.out") [] (fun p => p == c_bytes "./a.out")).1
      (by decide) (by decide),
   (C17_locate_program_path (c_bytes "ls") [] (fun p => p == c_bytes "/usr/bin/ls")).2.1
      (by decide) (by decide),
   (C17_locate_program_path (c_bytes "café") [] (fun _ => false)).2.1
      (by decide) (by decide)⟩

theorem letters_length (n : Nat) : (letters n).length = n := by
  simp [letters]

theorem letters_no_slash (n : Nat) : contains_slash (letters n) = false := by
  unfold contains_slash letters
  induction n with
  | zero => rfl
  | succ n ih =>
    rw [List.replicate_succ, List.contains_cons, ih]
    decide

theorem accented_length (n : Nat) : (accented n).length = 2 * n := by
  unfold accented
  induction n with
  | zero => rfl
  | succ n ih =>
    rw [List.replicate_succ, List.flatten_cons, List.length_append, ih]
    simp only [List.length_cons, List.length_nil]
    omega

theorem accented_no_slash (n : Nat) : contains_slash (accented n) = false := by
  unfold contains_slash accented
  induction n with
  | zero => rfl
  | succ n ih =>
    rw [List.replicate_succ, List.flatten_cons]
    show (195 :: 169 :: (List.replicate n [195, 169]).flatten).contains SLASH = false
    rw [List.contains_cons, List.contains_cons, ih]
    decide

/-- A name without `/` of 4087 bytes or more is cut: the path written has
4095 bytes and is not `/usr/bin/` followed by the name. -/
theorem locate_program_long_name (name buf : List UInt8) (access_x : List UInt8 → Bool)
    (hs : contains_slash name = false) (hn : 4087 ≤ name.length) :
    (locate_program name buf PROG_SIZE access_x).1.length = 4095 ∧
    (locate_program name buf PROG_SIZE access_x).1 ≠ c_bytes "/usr/bin/" ++ name := by
  have hP : PROG_SIZE = 4096 := rfl
  have hlen : (locate_program name buf PROG_SIZE access_x).1.length = 4095 := by
    rw [locate_program_no_slash _ buf PROG_SIZE access_x hs,
      snprintf_cut buf PROG_SIZE _ (by omega) (by rw [usr_bin_length]; omega), hP]
  refine ⟨hlen, ?_⟩
  intro h
  have := congrArg List.length h
  rw [hlen, usr_bin_length] at this
  omega

/-- C17, as stated, fails: a name of 4090 letters `a` has no `/`, but the
path written into the buffer of 4096 bytes is cut after 4095 bytes, so it is
not `/usr/bin/` followed by the name; the same holds for a name of 3000
letters `é`, which is 6000 bytes long. -/
theorem C17_long_name_is_cut :
    contains_slash (letters 4090) = false ∧
    (locate_program (letters 4090) [] PROG_SIZE (fun _ => true)).1.length = 4095 ∧
    (locate_program (letters 4090) [] PROG_SIZE (fun _ => true)).1 ≠
      c_bytes "/usr/bin/" ++ letters 4090 ∧
    contains_slash (accented 3000) = false ∧
    (locate_program (accented 3000) [] PROG_SIZE (fun _ => true)).1.length = 4095 ∧
    (locate_program (accented 3000) [] PROG_SIZE (fun _ => true)).1 ≠
      c_bytes "/usr/bin/" ++ accented 3000 :=
  ⟨letters_no_slash 4090,
   (locate_program_long_name (letters 4090) [] (fun _ => true) (letters_no_slash 4090)
      (by rw [letters_length]; omega)).1,
   (locate_program_long_name (letters 4090) [] (fun _ => true) (letters_no_slash 4090)
      (by rw [letters_length]; omega)).2,
   accented_no_slash 3000,
   (locate_program_long_name (accented 3000) [] (fun _ => true) (accented_no_slash 3000)
      (by rw [accented_length]; omega)).1,
   (locate_program_long_name (accented 3000) [] (fun _ => true) (accented_no_slash 3000)
      (by rw [accented_length]; omega)).2⟩

/-! ## The execution engine: descriptors -/

/-- The pipe loop when every `pipe` call succeeds: the pairs handed out are
stored in order, their descriptors are open, one call per pair is on record. -/
theorem pipe_loop_exact (sys : Sys) (count : Nat) : ∀ (i : Nat) (pipes : List (Nat × Nat))
    (st : Shell), (∀ k, k < count → (sys.pipe_ret (i + k)).isSome = true) →
    pipe_loop sys count i pipes st =
      (some (pipes ++ (List.range' i count).filterMap sys.pipe_ret),
       { st with
         trace := st.trace ++
           ((List.range' i count).filterMap sys.pipe_ret).map (fun p => .pipe (some p)),
         fds := st.fds ++
           ((List.range' i count).filterMap sys.pipe_ret).flatMap (fun p => [p.1, p.2]) }) := by
  induction count with
  | zero => intro i pipes st _; simp [pipe_loop]
  | succ count ih =>
    intro i pipes st h
    have h0 := h 0 (by omega)
    simp only [pipe_loop]
    cases hp : sys.pipe_ret i with
    | none => simp [hp] at h0
    | some rw =>
      obtain ⟨r, w⟩ := rw
      simp only []
      rw [ih (i + 1) _ _ (by
        intro k hk
        have := h (k + 1) (by omega)
        rw [← this]
        congr 2
        omega)]
      simp [List.range'_succ, hp]

theorem fork_loop_exact (sys : Sys) (cs : List Cmd) : ∀ (idx : Nat) (pids : List Int)
    (st : Shell), (∀ k, k < cs.length → (sys.fork_ret (idx + k)).isSome = true) →
    fork_loop sys cs idx pids st =
      (some (pids ++ (List.range' idx cs.length).filterMap sys.fork_ret),
       { st with
         trace := st.trace ++
           ((List.range' idx cs.length).filterMap sys.fork_ret).map
             (fun q => .fork (some q)) }) := by
  induction cs with
  | nil => intro idx pids st _; simp [fork_loop]
  | cons c cs ih =>
    intro idx pids st h
    have h0 := h 0 (by simp)
    simp only [fork_loop]
    cases hf : sys.fork_ret idx with
    | none => simp [hf] at h0
    | some pid =>
      simp only []
      rw [ih (idx + 1) _ _ (by
        intro k hk
        have := h (k + 1) (by simp; omega)
        rw [← this]
        congr 2
        omega)]
      simp [List.range'_succ, hf]

theorem close_pipes_exact (pipes : List (Nat × Nat)) : ∀ (st : Shell),
    close_pipes pipes st =
      { st with
        fds := pipes.foldl (fun l p => (l.erase p.1).erase p.2) st.fds,
        trace := st.trace ++ pipes.flatMap (fun p => [.close p.1, .close p.2]) } := by
  induction pipes with
  | nil => intro st; simp [close_pipes]
  | cons p ps ih =>
    intro st
    have hstep : close_pipes (p :: ps) st = close_pipes ps (close_fd p.2 (close_fd p.1 st)) :=
      rfl
    rw [hstep, ih]
    simp [close_fd]

/-- Closing descriptors that were appended to a list of open descriptors in
which none of them occurs gives that list back. -/
theorem erase_appended (pipes : List (Nat × Nat)) : ∀ (l : List Nat),
    (∀ fd ∈ pipes.flatMap (fun p => [p.1, p.2]), fd ∉ l) →
    pipes.foldl (fun l p => (l.erase p.1).erase p.2)
      (l ++ pipes.flatMap (fun p => [p.1, p.2])) = l := by
  induction pipes with
  | nil => intro l _; simp
  | cons p ps ih =>
    intro l h
    have h1 : p.1 ∉ l := h p.1 (by simp)
    have h2 : p.2 ∉ l := h p.2 (by simp)
    simp only [List.flatMap_cons, List.foldl_cons]
    have e1 : (l ++ ([p.1, p.2] ++ ps.flatMap (fun p => [p.1, p.2]))).erase p.1 =
        l ++ (p.2 :: ps.flatMap (fun p => [p.1, p.2])) := by
      rw [List.erase_append_right _ h1]
      simp
    have e2 : (l ++ (p.2 :: ps.flatMap (fun p => [p.1, p.2]))).erase p.2 =
        l ++ ps.flatMap (fun p => [p.1, p.2]) := by
      rw [List.erase_append_right _ h2]
      simp
    rw [e1, e2]
    apply ih
    intro fd hfd
    exact h fd (by simp only [List.flatMap_cons, List.mem_append]; exact Or.inr hfd)

theorem wait_loop_fds (n : Nat) (ws : List WaitRet) : ∀ (sp0 : Int) (done : Nat) (st : Shell),
    (wait_loop n ws sp0 done st).2.fds = st.fds := by
  induction ws with
  | nil =>
    intro sp0 done st
    simp only [wait_loop]
    split <;> rfl
  | cons r rs ih =>
    intro sp0 done st
    simp only [wait_loop]
    split
    · cases r with
      | eintr => simp only []; rw [ih]
      | failed => rfl
      | ok w status =>
        simp only []
        split
        · rw [ih]
        · split
          · rw [ih]
          · rw [ih]
    · rfl

theorem jobs_push_fds (pid : Int) (cmdline : String) (st : Shell) :
    (jobs_push pid cmdline st).fds = st.fds := by
  unfold jobs_push
  split <;> rfl

theorem after_access_fds (c0 : Cmd) (sys : Sys) (st : Shell) :
    (after_access c0 sys st).fds = st.fds := by
  unfold after_access
  split <;> rfl

theorem pipe_fds_eq (sys : Sys) (count : Nat) :
    pipe_fds sys count =
      ((List.range' 0 count).filterMap sys.pipe_ret).flatMap (fun p => [p.1, p.2]) := by
  unfold pipe_fds
  rw [List.range_eq_range']
  generalize List.range' 0 count = l
  induction l with
  | nil => rfl
  | cons i l ih =>
    simp only [List.flatMap_cons, List.filterMap_cons]
    cases hp : sys.pipe_ret i with
    | none => simpa using ih
    | some rw =>
      obtain ⟨r, w⟩ := rw
      simp only [List.flatMap_cons]
      rw [ih]

theorem filterMap_length_of_isSome {α β : Type} (f : α → Option β) (l : List α)
    (h : ∀ a ∈ l, (f a).isSome = true) : (l.filterMap f).length = l.length := by
  induction l with
  | nil => rfl
  | cons a l ih =>
    have ha := h a (by simp)
    cases hf : f a with
    | none => simp [hf] at ha
    | some b =>
      rw [List.filterMap_cons_some hf]
      simp only [List.length_cons]
      rw [ih (fun x hx => h x (List.mem_cons_of_mem _ hx))]

theorem close_calls_length (pipes : List (Nat × Nat)) :
    (pipes.flatMap (fun p => [SysCall.close p.1, SysCall.close p.2])).length =
      2 * pipes.length := by
  induction pipes with
  | nil => rfl
  | cons p ps ih =>
    simp only [List.flatMap_cons, List.length_append, List.length_cons, List.length_nil, ih]
    omega

/-- The value of `run_pipeline` when the input file (if any) is readable and
every `pipe` and `fork` call succeeds, with the state at the wait loop
spelled out. -/
theorem run_pipeline_exact (head : List Cmd) (raw : String) (sys : Sys) (st : Shell)
    (hne : head ≠ [])
    (haccess : ∀ f, head.head?.bind Cmd.infile = some f → sys.access_ok f = true)
    (hpipes : ∀ i, i + 1 < head.length → (sys.pipe_ret i).isSome = true)
    (hforks : ∀ idx, idx < head.length → (sys.fork_ret idx).isSome = true) :
    run_pipeline head raw sys st =
      if head.length = 1 ∧
          (wait_loop head.length sys.waits 0 0 (spawned_state head sys st)).1 > 0 then
        (1, jobs_push (wait_loop head.length sys.waits 0 0 (spawned_state head sys st)).1 raw
              (wait_loop head.length sys.waits 0 0 (spawned_state head sys st)).2)
      else (0, (wait_loop head.length sys.waits 0 0 (spawned_state head sys st)).2) := by
  cases head with
  | nil => exact absurd rfl hne
  | cons c0 rest =>
    have hacc : ¬ (c0.infile.isSome = true ∧ ¬ sys.access_ok (c0.infile.getD "") = true) := by
      rintro ⟨h1, h2⟩
      cases hi : c0.infile with
      | none => simp [hi] at h1
      | some f =>
        apply h2
        have := haccess f (by simp [hi])
        simpa [hi] using this
    have hpl := pipe_loop_exact sys ((c0 :: rest).length - 1) 0 [] (after_access c0 sys st) (by
      intro k hk
      rw [Nat.zero_add]
      exact hpipes k (by simp at hk ⊢; omega))
    simp only [run_pipeline]
    rw [if_neg hacc, hpl]
    simp only []
    rw [fork_loop_exact sys (c0 :: rest) 0 [] _ (by
      intro k hk
      rw [Nat.zero_add]
      exact hforks k hk)]
    rfl

/-- C19: for a pipeline of `n` stages whose input file (if any) is readable
and for which every `pipe` and every `fork` call succeeds, the descriptors of
the new pipes being descriptors that were not open before: `run_pipeline`
creates `n-1` pipes, then spawns the `n` stages, then closes both
descriptors of every pipe, then waits; and the descriptors open in the shell
after the call are those open before it. -/
theorem C19_pipes_created_and_closed (head : List Cmd) (raw : String) (sys : Sys)
    (st : Shell) (hne : head ≠ [])
    (haccess : ∀ f, head.head?.bind Cmd.infile = some f → sys.access_ok f = true)
    (hpipes : ∀ i, i + 1 < head.length → (sys.pipe_ret i).isSome = true)
    (hforks : ∀ idx, idx < head.length → (sys.fork_ret idx).isSome = true)
    (hfresh : ∀ fd ∈ pipe_fds sys (head.length - 1), fd ∉ st.fds) :
    (run_pipeline head raw sys st).2.fds = st.fds ∧
    (pipes_of head sys).length = head.length - 1 ∧
    (pids_of head sys).length = head.length ∧
    ((pipes_of head sys).flatMap (fun p => [SysCall.close p.1, SysCall.close p.2])).length =
      2 * (head.length - 1) ∧
    ∃ wevs, (∀ e ∈ wevs, ∃ r, e = SysCall.waitpid (-1) r) ∧
      new_calls st (run_pipeline head raw sys st).2 =
        new_calls st (after_access (head.headD cmd_new) sys st) ++
        (pipes_of head sys).map (fun p => .pipe (some p)) ++
        (pids_of head sys).map (fun q => .fork (some q)) ++
        (pipes_of head sys).flatMap (fun p => [.close p.1, .close p.2]) ++ wevs := by
  have hlenP : (pipes_of head sys).length = head.length - 1 := by
    unfold pipes_of
    rw [filterMap_length_of_isSome]
    · simp
    · intro i hi
      simp only [List.mem_range'_1] at hi
      exact hpipes i (by omega)
  have hlenQ : (pids_of head sys).length = head.length := by
    unfold pids_of
    rw [filterMap_length_of_isSome]
    · simp
    · intro i hi
      simp only [List.mem_range'_1] at hi
      exact hforks i (by omega)
  obtain ⟨e0, hext0, _, _⟩ := after_access_frame (head.headD cmd_new) sys st
  have hs_fds : (spawned_state head sys st).fds = st.fds := by
    unfold spawned_state
    rw [close_pipes_exact]
    simp only []
    rw [after_access_fds]
    apply erase_appended
    intro fd hfd
    apply hfresh fd
    rw [pipe_fds_eq]
    exact hfd
  have hs_trace : (spawned_state head sys st).trace =
      st.trace ++ (e0 ++ (pipes_of head sys).map (fun p => .pipe (some p)) ++
        (pids_of head sys).map (fun q => .fork (some q)) ++
        (pipes_of head sys).flatMap (fun p => [.close p.1, .close p.2])) := by
    unfold spawned_state
    rw [close_pipes_exact]
    simp only []
    rw [hext0.2.2]
    simp only [List.append_assoc]
  obtain ⟨wevs, hextw, hall, _⟩ :=
    wait_loop_spec head.length sys.waits 0 0 (spawned_state head sys st)
  have hw_fds := wait_loop_fds head.length sys.waits 0 0 (spawned_state head sys st)
  have hfinal_fds : (run_pipeline head raw sys st).2.fds = st.fds := by
    rw [run_pipeline_exact head raw sys st hne haccess hpipes hforks]
    split
    · simp only []
      rw [jobs_push_fds, hw_fds, hs_fds]
    · simp only []
      rw [hw_fds, hs_fds]
  have hfinal_trace : (run_pipeline head raw sys st).2.trace =
      (wait_loop head.length sys.waits 0 0 (spawned_state head sys st)).2.trace := by
    rw [run_pipeline_exact head raw sys st hne haccess hpipes hforks]
    split
    · simp only []
      exact (jobs_push_frame _ _ _).1
    · rfl
  refine ⟨hfinal_fds, hlenP, hlenQ, ?_, wevs, ?_, ?_⟩
  · rw [close_calls_length, hlenP]
  · intro e he
    obtain ⟨r, hr, _⟩ := hall e he
    exact ⟨r, hr⟩
  · rw [new_calls_of_extends st (after_access (head.headD cmd_new) sys st) e0 hext0.2.2]
    apply new_calls_of_extends
    rw [hfinal_trace, hextw.2.2, hs_trace]
    simp only [List.append_assoc]

theorem C19_pipes_created_and_closed_witness :
    (run_pipeline [⟨["a"], none, none, 0⟩, ⟨["b"], none, none, 0⟩, ⟨["c"], none, none, 0⟩]
      "a | b | c" (sys_of [.ok 100 (.exited 0), .ok 102 (.exited 0), .ok 101 (.exited 0)])
      Shell.init).2.fds = Shell.init.fds ∧
    (pipes_of [⟨["a"], none, none, 0⟩, ⟨["b"], none, none, 0⟩, ⟨["c"], none, none, 0⟩]
      (sys_of [.ok 100 (.exited 0), .ok 102 (.exited 0), .ok 101 (.exited 0)])).length =
      [(⟨["a"], none, none, 0⟩ : Cmd), ⟨["b"], none, none, 0⟩, ⟨["c"], none, none, 0⟩].length
        - 1 :=
  ⟨(C19_pipes_created_and_closed
      [⟨["a"], none, none, 0⟩, ⟨["b"], none, none, 0⟩, ⟨["c"], none, none, 0⟩] "a | b | c"
      (sys_of [.ok 100 (.exited 0), .ok 102 (.exited 0), .ok 101 (.exited 0)]) Shell.init
      (by simp) (by intro f h; simp at h) (by intro i _; rfl) (by intro idx _; rfl)
      (by decide)).1,
   (C19_pipes_created_and_closed
      [⟨["a"], none, none, 0⟩, ⟨["b"], none, none, 0⟩, ⟨["c"], none, none, 0⟩] "a | b | c"
      (sys_of [.ok 100 (.exited 0), .ok 102 (.exited 0), .ok 101 (.exited 0)]) Shell.init
      (by simp) (by intro f h; simp at h) (by intro i _; rfl) (by intro idx _; rfl)
      (by decide)).2.1⟩

end Nyush
